import Mathlib

/-!
Verification of the Financial-NewsFeed backend against its specification.

Python strings are modelled as `List Char` (Unicode scalar values, matching
CPython `str`).  Machine floats that only ever carry small decimal values
(backoff seconds, similarity thresholds) are modelled as `ℚ`.  SHA-256 is
modelled as the identity on the hashed content string (collision-freeness of
the hash is assumed, so hash equality is content equality).  Where a theorem
is restricted to ASCII inputs, the restriction is stated as an explicit
hypothesis and the Unicode-dependent library functions (NFKC normalization,
case mapping) are modelled by their ASCII action, on which they agree with
CPython.
-/

/-! ## Basic Python character classes (ASCII action) -/

/-- Numeric value of a character, `ord` in Python. -/
def charNat (c : Char) : Nat := c.toNat

/-- Python `str.lower` on an ASCII character (A-Z mapped to a-z, everything
else fixed).  CPython applies the full Unicode case mapping; on ASCII input it
agrees with this function, and all theorems that depend on lower-casing either
hypothesise ASCII input or only use that this map is idempotent. -/
def pyLowerChar (c : Char) : Char :=
  if 65 ≤ charNat c ∧ charNat c ≤ 90 then Char.ofNat (charNat c + 32) else c

/-- Python ASCII upper-case letter test. -/
def isAsciiUpper (c : Char) : Bool := 65 ≤ charNat c && charNat c ≤ 90

/-- Characters matched by the regex class `\w` in the ASCII range:
`[A-Za-z0-9_]` (verified against CPython `re`).  Non-ASCII word characters
exist in CPython; theorems about `normalize_title` hypothesise ASCII input. -/
def isWordChar (c : Char) : Bool :=
  (48 ≤ charNat c && charNat c ≤ 57) ||
  (65 ≤ charNat c && charNat c ≤ 90) ||
  (97 ≤ charNat c && charNat c ≤ 122) ||
  charNat c == 95

/-- Characters matched by the regex class `\s` (equivalently `str.isspace`)
in the ASCII range: code points 9-13 and 28-32 (verified against CPython). -/
def isSpaceChar (c : Char) : Bool :=
  (9 ≤ charNat c && charNat c ≤ 13) || (28 ≤ charNat c && charNat c ≤ 32)

/-! ## `Deduplicator.normalize_title` (src/backend/app/utils/deduplicator.py:310) -/

/-- Modelled from `unicodedata.normalize("NFKC", ·)`: NFKC normalization is
the identity on ASCII strings; all theorems about `normalize_title` restrict
the input to ASCII, so the model takes it to be the identity map. -/
def nfkc (l : List Char) : List Char := l

/-- Python `str.split()` with no separator: split on maximal runs of
whitespace, dropping empty words.  `acc` holds the current word reversed. -/
def splitWsAux : List Char → List Char → List (List Char)
  | [], acc => if acc = [] then [] else [acc.reverse]
  | c :: cs, acc =>
      if isSpaceChar c then
        (if acc = [] then splitWsAux cs [] else acc.reverse :: splitWsAux cs [])
      else
        splitWsAux cs (c :: acc)

/-- Python `title.split()`. -/
def pySplitWs (l : List Char) : List (List Char) := splitWsAux l []

/-- The per-character action of `re.sub(r"[^\w\s]", " ", title)`:
characters in `\w` or `\s` are kept, every other character becomes a space. -/
def subNonWordChar (c : Char) : Char :=
  if isWordChar c || isSpaceChar c then c else ' '

/-- Python `" ".join(words)`: words joined by single spaces. -/
def joinSp : List (List Char) → List Char
  | [] => []
  | w :: ws =>
      match ws with
      | [] => w
      | _ :: _ => w ++ ' ' :: joinSp ws

/-- `Deduplicator.normalize_title`: NFKC normalize, lower-case, replace every
character outside `\w` and `\s` by a space, then collapse whitespace via
`" ".join(title.split())`.  Empty input returns the empty string. -/
def normalize_title (l : List Char) : List Char :=
  if l = [] then []
  else joinSp (pySplitWs (((nfkc l).map pyLowerChar).map subNonWordChar))

/-- String-level wrapper for `normalize_title`. -/
def normalizeTitleS (s : String) : String := ⟨normalize_title s.data⟩

/-! ## Generic string splitting helpers (CPython `str.split` / `str.find`) -/

/-- Join words with a single separator character (`sep.join(words)`). -/
def joinChar (sep : Char) : List (List Char) → List Char
  | [] => []
  | w :: ws =>
      match ws with
      | [] => w
      | _ :: _ => w ++ sep :: joinChar sep ws

/-- Python `s.split(sep)`: split at every occurrence of `sep`, keeping empty
pieces (`"".split(sep) == [""]`). -/
def splitOnChar (sep : Char) : List Char → List (List Char)
  | [] => [[]]
  | c :: cs =>
      let r := splitOnChar sep cs
      if c = sep then [] :: r
      else
        match r with
        | [] => [[c]]
        | w :: ws => (c :: w) :: ws

/-- Split at the first occurrence of `sep`: `some (before, after)` when `sep`
occurs, `none` otherwise (Python `s.split(sep, 1)` / `s.find(sep)`). -/
def splitFirst (sep : Char) : List Char → Option (List Char × List Char)
  | [] => none
  | c :: cs =>
      if c = sep then some ([], cs)
      else
        match splitFirst sep cs with
        | none => none
        | some (a, b) => some (c :: a, b)

/-- Split at the last occurrence of `sep` (Python `s.rfind(sep)`); the second
component contains no `sep`. -/
def splitLast (sep : Char) (l : List Char) : Option (List Char × List Char) :=
  match splitFirst sep l.reverse with
  | none => none
  | some (a, b) => some (b.reverse, a.reverse)

/-- Lower-case every character (Python `str.lower`, ASCII action). -/
def lowerStr (l : List Char) : List Char := l.map pyLowerChar

/-- Python `path.rstrip("/")`. -/
def rstripSlash (l : List Char) : List Char :=
  (l.reverse.dropWhile (fun c => c == '/')).reverse

/-! ## Percent-encoding codec (CPython `urllib.parse.quote_plus` / `unquote`)

`quote_plus` encodes the string as UTF-8 and then maps each byte to itself
when in the always-safe set, to `+` for space, and to an upper-case `%XX`
escape otherwise.  `unquote` turns maximal runs of valid `%XX` escapes into
byte strings decoded as UTF-8 with `errors="replace"`; invalid escapes keep
their `%` literally.  (CPython decodes each maximal ASCII chunk as a whole;
since ASCII bytes are never UTF-8 continuation bytes this agrees with the
run-at-a-time model used here, up to the exact number of replacement
characters emitted for invalid byte sequences, which no theorem depends
on.) -/

def isHexDigitChar (c : Char) : Bool :=
  (48 ≤ charNat c && charNat c ≤ 57) ||
  (65 ≤ charNat c && charNat c ≤ 70) ||
  (97 ≤ charNat c && charNat c ≤ 102)

/-- Value of a hexadecimal digit. -/
def hexVal (c : Char) : Nat :=
  if charNat c ≤ 57 then charNat c - 48
  else if charNat c ≤ 70 then charNat c - 55
  else charNat c - 87

/-- Upper-case hexadecimal digit for a value below 16. -/
def hexDigitUpper (n : Nat) : Char :=
  if n < 10 then Char.ofNat (48 + n) else Char.ofNat (55 + n)

/-- UTF-8 encoding of one Unicode scalar value. -/
def utf8EncodeChar (c : Char) : List Nat :=
  let v := charNat c
  if v < 128 then [v]
  else if v < 2048 then [192 + v / 64, 128 + v % 64]
  else if v < 65536 then [224 + v / 4096, 128 + (v / 64) % 64, 128 + v % 64]
  else [240 + v / 262144, 128 + (v / 4096) % 64, 128 + (v / 64) % 64, 128 + v % 64]

/-- UTF-8 encoding of a string (`str.encode("utf-8")`). -/
def utf8Encode (l : List Char) : List Nat := (l.map utf8EncodeChar).flatten

/-- The Unicode replacement character U+FFFD. -/
def repChar : Char := Char.ofNat 65533

/-- UTF-8 continuation byte test (`0x80-0xBF`). -/
def isCont (b : Nat) : Bool := 128 ≤ b && b ≤ 191

/-- Admissible second byte after a three-byte lead (excludes overlong and
surrogate encodings, as CPython's decoder does). -/
def validSecond3 (b b1 : Nat) : Bool :=
  if b = 224 then 160 ≤ b1 && b1 ≤ 191
  else if b = 237 then 128 ≤ b1 && b1 ≤ 159
  else isCont b1

/-- Admissible second byte after a four-byte lead. -/
def validSecond4 (b b1 : Nat) : Bool :=
  if b = 240 then 144 ≤ b1 && b1 ≤ 191
  else if b = 244 then 128 ≤ b1 && b1 ≤ 143
  else isCont b1

/-- UTF-8 decoding with `errors="replace"`: each maximal invalid subpart is
replaced by U+FFFD and decoding resumes at the offending byte. -/
def utf8DecodeReplace : List Nat → List Char
  | [] => []
  | b :: bs =>
    if b < 128 then Char.ofNat b :: utf8DecodeReplace bs
    else if 194 ≤ b ∧ b ≤ 223 then
      match bs with
      | [] => [repChar]
      | b1 :: bs2 =>
          if isCont b1 then
            Char.ofNat ((b - 192) * 64 + (b1 - 128)) :: utf8DecodeReplace bs2
          else repChar :: utf8DecodeReplace (b1 :: bs2)
    else if 224 ≤ b ∧ b ≤ 239 then
      match bs with
      | [] => [repChar]
      | b1 :: bs2 =>
          if validSecond3 b b1 then
            match bs2 with
            | [] => [repChar]
            | b2 :: bs3 =>
                if isCont b2 then
                  Char.ofNat ((b - 224) * 4096 + (b1 - 128) * 64 + (b2 - 128)) ::
                    utf8DecodeReplace bs3
                else repChar :: utf8DecodeReplace (b2 :: bs3)
          else repChar :: utf8DecodeReplace (b1 :: bs2)
    else if 240 ≤ b ∧ b ≤ 244 then
      match bs with
      | [] => [repChar]
      | b1 :: bs2 =>
          if validSecond4 b b1 then
            match bs2 with
            | [] => [repChar]
            | b2 :: bs3 =>
                if isCont b2 then
                  match bs3 with
                  | [] => [repChar]
                  | b3 :: bs4 =>
                      if isCont b3 then
                        Char.ofNat
                          ((b - 240) * 262144 + (b1 - 128) * 4096 +
                            (b2 - 128) * 64 + (b3 - 128)) ::
                          utf8DecodeReplace bs4
                      else repChar :: utf8DecodeReplace (b3 :: bs4)
                else repChar :: utf8DecodeReplace (b2 :: bs3)
          else repChar :: utf8DecodeReplace (b1 :: bs2)
    else repChar :: utf8DecodeReplace bs

/-- The always-safe byte set of `urllib.parse.quote`: ASCII letters, digits
and `_.-~`. -/
def alwaysSafeByte (b : Nat) : Bool :=
  (65 ≤ b && b ≤ 90) || (97 ≤ b && b ≤ 122) || (48 ≤ b && b ≤ 57) ||
  b == 95 || b == 46 || b == 45 || b == 126

/-- Per-byte action of `quote_plus` with `safe=""` (as used by `urlencode`):
space becomes `+`, safe bytes stay, everything else becomes `%XX`. -/
def quoteByte (b : Nat) : List Char :=
  if b == 32 then ['+']
  else if alwaysSafeByte b then [Char.ofNat b]
  else ['%', hexDigitUpper (b / 16), hexDigitUpper (b % 16)]

/-- `urllib.parse.quote_plus(s, safe="")`. -/
def quote_plus (s : List Char) : List Char := ((utf8Encode s).map quoteByte).flatten

/-- Tokenize a percent-encoded string: each valid `%XX` escape becomes a
byte, every other character stays literal (invalid escapes keep `%`). -/
def pctTokens : List Char → List (Char ⊕ Nat)
  | [] => []
  | '%' :: a :: b :: rest =>
      if isHexDigitChar a && isHexDigitChar b then
        Sum.inr (hexVal a * 16 + hexVal b) :: pctTokens rest
      else Sum.inl '%' :: pctTokens (a :: b :: rest)
  | c :: rest => Sum.inl c :: pctTokens rest

/-- Decode a token stream: maximal byte runs are UTF-8-decoded with
replacement, literal characters pass through.  `acc` holds the current byte
run reversed. -/
def decodeTokens : List (Char ⊕ Nat) → List Nat → List Char
  | [], acc => utf8DecodeReplace acc.reverse
  | Sum.inl c :: rest, acc => utf8DecodeReplace acc.reverse ++ c :: decodeTokens rest []
  | Sum.inr b :: rest, acc => decodeTokens rest (b :: acc)

/-- `urllib.parse.unquote` with UTF-8 / replace. -/
def unquote (s : List Char) : List Char := decodeTokens (pctTokens s) []

/-- Map `+` to space (the first step of `parse_qsl`'s value handling). -/
def plusToSpace (c : Char) : Char := if c = '+' then ' ' else c

/-- `unquote(s.replace("+", " "))` as done by `parse_qsl` (equivalently,
`urllib.parse.unquote_plus`). -/
def unquote_plus (s : List Char) : List Char := unquote (s.map plusToSpace)

/-! ## Query-string layer (CPython `parse_qs` / `urlencode(..., doseq=True)`) -/

/-- `urllib.parse.parse_qsl(qs, keep_blank_values=False)`: split on `&`,
drop empty fields and fields without `=` or with an empty raw value, and
percent-decode names and values. -/
def parse_qsl (qs : List Char) : List (List Char × List Char) :=
  if qs = [] then []
  else
    (splitOnChar '&' qs).filterMap fun nv =>
      if nv = [] then none
      else
        match splitFirst '=' nv with
        | none => none
        | some (n, v) => if v = [] then none else some (unquote_plus n, unquote_plus v)

/-- Append a pair into the insertion-ordered multi-dict built by
`parse_qs`. -/
def addPair (acc : List (List Char × List (List Char))) (n : List Char)
    (v : List Char) : List (List Char × List (List Char)) :=
  if acc.any (fun p => p.1 = n) then
    acc.map (fun p => if p.1 = n then (p.1, p.2 ++ [v]) else p)
  else acc ++ [(n, [v])]

/-- `urllib.parse.parse_qs(qs, keep_blank_values=False)`: group the pairs of
`parse_qsl` by name, in first-occurrence order. -/
def parse_qs (qs : List Char) : List (List Char × List (List Char)) :=
  (parse_qsl qs).foldl (fun acc p => addPair acc p.1 p.2) []

/-- `urllib.parse.urlencode(query, doseq=True)` over the grouped multi-dict:
each value of each name becomes `quote_plus(name)=quote_plus(value)`, joined
by `&`, names in dict order with their values consecutive. -/
def urlencode (groups : List (List Char × List (List Char))) : List Char :=
  joinChar '&'
    ((groups.map (fun p => p.2.map (fun v => quote_plus p.1 ++ '=' :: quote_plus v))).flatten)

/-! ## URL splitting (CPython `urllib.parse.urlsplit` / `urlparse`) -/

/-- Leading C0-control-or-space characters stripped by `urlsplit`. -/
def isC0OrSpace (c : Char) : Bool := charNat c ≤ 32

/-- The unsafe bytes `\t`, `\r`, `\n` removed everywhere by `urlsplit`. -/
def isUnsafeUrlByte (c : Char) : Bool := c = '\t' || c = '\r' || c = '\n'

/-- Characters allowed in a scheme name (`urllib.parse.scheme_chars`). -/
def isSchemeChar (c : Char) : Bool :=
  (65 ≤ charNat c && charNat c ≤ 90) || (97 ≤ charNat c && charNat c ≤ 122) ||
  (48 ≤ charNat c && charNat c ≤ 57) || c == '+' || c == '-' || c == '.'

/-- ASCII letter test (`url[0].isascii() and url[0].isalpha()`). -/
def isAsciiAlpha (c : Char) : Bool :=
  (65 ≤ charNat c && charNat c ≤ 90) || (97 ≤ charNat c && charNat c ≤ 122)

/-- Scheme recognition of `urlsplit`: the text before the first `:` is a
scheme iff it is nonempty, starts with an ASCII letter and consists of scheme
characters; the scheme is lower-cased at parse time. -/
def splitScheme (l : List Char) : List Char × List Char :=
  match splitFirst ':' l with
  | none => ([], l)
  | some (before, after) =>
      if (!before.isEmpty) &&
          (match before with | c :: _ => isAsciiAlpha c | [] => false) &&
          before.all isSchemeChar then (lowerStr before, after)
      else ([], l)

/-- Netloc delimiter test (`_splitnetloc` scans for the first of `/?#`). -/
def isNetlocDelim (c : Char) : Bool := c = '/' || c = '?' || c = '#'

/-- The five components of `urlsplit`. -/
structure SplitParts where
  scheme : List Char
  netloc : List Char
  path : List Char
  query : List Char
  fragment : List Char
  deriving DecidableEq, Repr

/-- The input cleaning of `urlsplit`: strip leading C0 controls and spaces,
remove tab/CR/LF everywhere. -/
def cleanUrl (url : List Char) : List Char :=
  (url.dropWhile isC0OrSpace).filter (fun c => !(isUnsafeUrlByte c))

/-- The `//netloc` recognition of `urlsplit` (`_splitnetloc`): when the
remainder after the scheme starts with `//`, the netloc extends to the first
`/`, `?` or `#`. -/
def urlsplitNetloc (u1 : List Char) : List Char × List Char :=
  if u1.take 2 = ['/', '/'] then
    ((u1.drop 2).takeWhile (fun c => !(isNetlocDelim c)),
     (u1.drop 2).dropWhile (fun c => !(isNetlocDelim c)))
  else ([], u1)

/-- Fragment split of `urlsplit`: at the first `#`, if any. -/
def splitFragment (u2 : List Char) : List Char × List Char :=
  match splitFirst '#' u2 with
  | none => (u2, [])
  | some (a, b) => (a, b)

/-- Query split of `urlsplit`: at the first `?`, if any. -/
def splitQuery (l : List Char) : List Char × List Char :=
  match splitFirst '?' l with
  | none => (l, [])
  | some (a, b) => (a, b)

/-- Model of `urllib.parse.urlsplit`: strip leading C0 controls and spaces,
remove tab/CR/LF, recognize a scheme, split `//netloc` up to the first
`/?#`, then split off the fragment at the first `#` and the query at the
first `?` (CPython splits the fragment before the query).  The `ValueError`
branches of CPython (unbalanced `[`/`]` in the netloc, invalid bracketed
hosts, and the NFKC check for non-ASCII netlocs) are not modelled; every
theorem about URLs restricts its input to ASCII strings without `[` or `]`,
on which CPython raises neither. -/
def urlsplitModel (url : List Char) : SplitParts :=
  let u0 := cleanUrl url
  let sp := splitScheme u0
  let nl := urlsplitNetloc sp.2
  let fr := splitFragment nl.2
  let qr := splitQuery fr.1
  ⟨sp.1, nl.1, qr.1, qr.2, fr.2⟩

/-- `urllib.parse._splitparams`: split params off the last path segment at
its first `;`. -/
def splitParams (url : List Char) : List Char × List Char :=
  if '/' ∈ url then
    match splitLast '/' url with
    | some (a, b) =>
        (match splitFirst ';' b with
         | some (x, y) => (a ++ '/' :: x, y)
         | none => (url, []))
    | none => (url, [])
  else
    match splitFirst ';' url with
    | some (x, y) => (x, y)
    | none => (url, [])

/-- Schemes for which `urlparse` splits params (`urllib.parse.uses_params`). -/
def uses_params : List (List Char) :=
  ["", "ftp", "hdl", "prospero", "http", "imap", "https", "shttp", "rtsp",
   "rtsps", "rtspu", "sip", "sips", "mms", "sftp", "tel"].map String.data

/-- Schemes for which `urlunsplit` inserts `//` (`urllib.parse.uses_netloc`). -/
def uses_netloc : List (List Char) :=
  ["", "ftp", "http", "gopher", "nntp", "telnet", "imap", "wais", "file",
   "mms", "https", "shttp", "snews", "prospero", "rtsp", "rtsps", "rtspu",
   "rsync", "svn", "svn+ssh", "sftp", "nfs", "git", "git+ssh", "ws",
   "wss"].map String.data

/-- The six components of `urlparse`. -/
structure ParseParts where
  scheme : List Char
  netloc : List Char
  path : List Char
  params : List Char
  query : List Char
  fragment : List Char
  deriving DecidableEq, Repr

/-- Model of `urllib.parse.urlparse`: `urlsplit` plus params splitting when
the scheme uses params and the path contains `;`. -/
def urlparseModel (url : List Char) : ParseParts :=
  let s := urlsplitModel url
  let pp :=
    if s.scheme ∈ uses_params ∧ ';' ∈ s.path then splitParams s.path
    else (s.path, [])
  ⟨s.scheme, s.netloc, pp.1, pp.2, s.query, s.fragment⟩

/-- Model of `urllib.parse.urlunsplit`. -/
def urlunsplitModel (scheme netloc url query fragment : List Char) : List Char :=
  let url1 :=
    if netloc ≠ [] ∨ (scheme ≠ [] ∧ scheme ∈ uses_netloc ∧ url.take 2 ≠ ['/', '/']) then
      '/' :: '/' :: (netloc ++ (if url ≠ [] ∧ url.take 1 ≠ ['/'] then '/' :: url else url))
    else url
  let url2 := if scheme ≠ [] then scheme ++ ':' :: url1 else url1
  let url3 := if query ≠ [] then url2 ++ '?' :: query else url2
  if fragment ≠ [] then url3 ++ '#' :: fragment else url3

/-- Model of `urllib.parse.urlunparse`. -/
def urlunparseModel (p : ParseParts) : List Char :=
  urlunsplitModel p.scheme p.netloc
    (if p.params ≠ [] then p.path ++ ';' :: p.params else p.path) p.query p.fragment

/-! ## `Deduplicator.canonicalize_url` (src/backend/app/utils/deduplicator.py:270) -/

/-- `Deduplicator.TRACKING_PARAMS`. -/
def TRACKING_PARAMS : List (List Char) :=
  ["utm_source", "utm_medium", "utm_campaign", "utm_term", "utm_content",
   "ref", "source", "fbclid", "gclid", "msclkid", "mc_cid", "mc_eid",
   "affiliate", "partner", "tracking", "_ga", "ncid", "sr_share"].map String.data

/-- Query filter of `canonicalize_url`: keep parameters whose lower-cased
name is not in the tracking set. -/
def filterTracking (groups : List (List Char × List (List Char))) :
    List (List Char × List (List Char)) :=
  groups.filter (fun p => ¬ lowerStr p.1 ∈ TRACKING_PARAMS)

/-- `Deduplicator.canonicalize_url`: parse, filter tracking query parameters,
rebuild with lower-cased scheme and netloc, trailing slashes stripped from
the path, and no fragment.  The `except` branch of the source (returning the
input unchanged when `urlparse` raises) is not modelled; theorems restrict
inputs to ASCII strings without `[`/`]`, on which `urlparse` raises
nothing. -/
def canonicalize_url (url : List Char) : List Char :=
  if url = [] then []
  else
    let p := urlparseModel url
    let newQuery := if p.query ≠ [] then urlencode (filterTracking (parse_qs p.query)) else []
    urlunparseModel ⟨lowerStr p.scheme, lowerStr p.netloc, rstripSlash p.path,
      p.params, newQuery, []⟩

/-- String-level wrapper for `canonicalize_url`. -/
def canonicalizeUrlS (s : String) : String := ⟨canonicalize_url s.data⟩

/-! ## Raw news data (src/backend/app/collectors/base.py:12) -/

/-- Python `datetime` value, observed by the modelled code only through
`strftime("%Y-%m-%d")`; `dayString` holds that rendering. -/
structure PyDateTime where
  dayString : List Char
  deriving DecidableEq, Repr

/-- `RawNewsData` from collectors/base.py (the opaque `raw_payload` dict is
modelled as an optional string). -/
structure RawNewsData where
  source : List Char
  source_type : List Char
  external_id : Option (List Char) := none
  url : List Char := []
  title : List Char := []
  summary : Option (List Char) := none
  published_at : Option PyDateTime := none
  tickers : List (List Char) := []
  raw_payload : Option (List Char) := none
  author : Option (List Char) := none
  category : Option (List Char) := none
  image_url : Option (List Char) := none
  deriving DecidableEq, Repr

/-! ## `Deduplicator` three-stage deduplication
(src/backend/app/utils/deduplicator.py:72) -/

/-- Modelled from `hashlib.sha256(content).hexdigest()`: the hash is taken to
be the content string itself, so hash equality is content equality
(collision-freeness of SHA-256 assumed). -/
def sha256Model (content : List Char) : List Char := content

/-- `Deduplicator.compute_content_hash`:
`sha256(f"{title_norm}|{date_str}|{source}")` where `date_str` is the
`%Y-%m-%d` rendering of `published_at` or `""`. -/
def compute_content_hash (item : RawNewsData) : List Char :=
  let titleNorm := normalize_title item.title
  let dateStr := match item.published_at with | some d => d.dayString | none => []
  sha256Model (titleNorm ++ '|' :: (dateStr ++ '|' :: item.source))

/-- `DedupClusterInfo` from deduplicator.py. -/
structure DedupClusterInfo where
  representative_url : List Char
  member_urls : List (List Char)
  method : List Char
  similarity_score : Option ℚ := none
  deriving DecidableEq, Repr

/-- `DedupResult` from deduplicator.py (`removed_count` is an `int`, computed
as a difference). -/
structure DedupResult where
  kept_items : List RawNewsData
  removed_count : ℤ
  clusters : List DedupClusterInfo := []

/-- One step of the `seen` / `duplicates` dict updates shared by the URL and
hash stages: `key` is the stage's key of `item`.  `seen` maps key to the
first item, `duplicates` maps key to the accumulated url list
`[first.url, dup₁.url, …]`, both in insertion order. -/
def dedupStep (key : List Char) (item : RawNewsData)
    (seen : List (List Char × RawNewsData))
    (dups : List (List Char × List (List Char))) :
    List (List Char × RawNewsData) × List (List Char × List (List Char)) :=
  match seen.find? (fun p => p.1 == key) with
  | some p =>
      if dups.any (fun d => d.1 == key) then
        (seen, dups.map (fun d => if d.1 == key then (d.1, d.2 ++ [item.url]) else d))
      else (seen, dups ++ [(key, [p.2.url, item.url])])
  | none => (seen ++ [(key, item)], dups)

/-- The common loop of `_url_dedup` and `_hash_dedup`, keyed by `keyOf`. -/
def dedupLoop (keyOf : RawNewsData → List Char) :
    List RawNewsData → List (List Char × RawNewsData) →
    List (List Char × List (List Char)) →
    List (List Char × RawNewsData) × List (List Char × List (List Char))
  | [], seen, dups => (seen, dups)
  | item :: rest, seen, dups =>
      let r := dedupStep (keyOf item) item seen dups
      dedupLoop keyOf rest r.1 r.2

/-- Turn a duplicates entry into a `DedupClusterInfo`
(`representative_url=urls[0]`, `member_urls=urls[1:]`). -/
def mkCluster (method : List Char) (d : List Char × List (List Char)) :
    DedupClusterInfo :=
  match d.2 with
  | [] => ⟨[], [], method, none⟩
  | u :: us => ⟨u, us, method, none⟩

/-- `Deduplicator._url_dedup`: stage 1, keyed by `canonicalize_url(url)`. -/
def url_dedup (items : List RawNewsData) :
    List RawNewsData × List DedupClusterInfo :=
  let r := dedupLoop (fun it => canonicalize_url it.url) items [] []
  (r.1.map (fun p => p.2), r.2.map (mkCluster "url_exact".data))

/-- `Deduplicator._hash_dedup`: stage 2, keyed by `compute_content_hash`. -/
def hash_dedup (items : List RawNewsData) :
    List RawNewsData × List DedupClusterInfo :=
  let r := dedupLoop compute_content_hash items [] []
  (r.1.map (fun p => p.2), r.2.map (mkCluster "hash_match".data))

/-- Hamming-weight of the low 64 bits (SimHash values are 64-bit). -/
def popcount64 : ℕ → ℕ → ℕ
  | 0, _ => 0
  | f + 1, n => n % 2 + popcount64 f (n / 2)

/-- `Simhash.distance`: Hamming distance of two 64-bit hashes. -/
def simhashDistance (h1 h2 : ℕ) : ℕ := popcount64 64 (Nat.xor h1 h2)

/-- `similarity = 1 - distance / 64` from `_simhash_dedup`. -/
def simhashSimilarity (h1 h2 : ℕ) : ℚ := 1 - (simhashDistance h1 h2 : ℚ) / 64

/-- The nested loops of `_simhash_dedup` over the indexed `(item, hash)`
list; `removed` is the set of removed indices (all larger than the current
index when inserted). -/
def simLoop (θ : ℚ) : List (ℕ × RawNewsData × ℕ) → List ℕ →
    List RawNewsData × List DedupClusterInfo
  | [], _ => ([], [])
  | (i, item, h) :: rest, removed =>
      if i ∈ removed then simLoop θ rest removed
      else
        let newly := rest.filter
          (fun t => decide (¬ t.1 ∈ removed) && decide (θ ≤ simhashSimilarity h t.2.2))
        let r := simLoop θ rest (removed ++ newly.map (fun t => t.1))
        (item :: r.1,
         (if newly ≠ [] then
            [⟨item.url, newly.map (fun t => t.2.1.url), "similarity".data, some θ⟩]
          else []) ++ r.2)

/-- `Deduplicator._simhash_dedup`, parametric in the SimHash function `simf`
(the locality-sensitive hash itself is not modelled; every theorem holds for
an arbitrary hash function).  Items whose normalized title is empty are
filtered out before hashing, exactly as in the source. -/
def simhash_dedup (simf : List Char → ℕ) (θ : ℚ) (items : List RawNewsData) :
    List RawNewsData × List DedupClusterInfo :=
  let hashes := items.filterMap fun it =>
    let t := normalize_title it.title
    if t ≠ [] then some (it, simf t) else none
  simLoop θ hashes.enum []

/-- `Deduplicator._similarity_dedup` on the `SIMHASH_AVAILABLE` path. -/
def similarity_dedup (simf : List Char → ℕ) (θ : ℚ) (items : List RawNewsData) :
    List RawNewsData × List DedupClusterInfo :=
  if items.length ≤ 1 then (items, []) else simhash_dedup simf θ items

/-- `Deduplicator.deduplicate`: URL stage, then hash stage, then similarity
stage; `removed_count = original_count - len(kept)`; clusters concatenated in
stage order. -/
def deduplicate (simf : List Char → ℕ) (θ : ℚ) (items : List RawNewsData) :
    DedupResult :=
  if items = [] then ⟨[], 0, []⟩
  else
    let originalCount := items.length
    let r1 := url_dedup items
    let r2 := hash_dedup r1.1
    let r3 := similarity_dedup simf θ r2.1
    ⟨r3.1, (originalCount : ℤ) - (r3.1.length : ℤ), r1.2 ++ r2.2 ++ r3.2⟩

/-- Reference form of the claim's first-occurrence-per-group rule (spec
wording, for comparison with the staged dicts of the source): scan the list
keeping each item whose key has not been seen before. -/
def firstOccurrences (keyOf : RawNewsData → List Char) :
    List RawNewsData → List (List Char) → List RawNewsData
  | [], _ => []
  | x :: xs, seenKeys =>
      if keyOf x ∈ seenKeys then firstOccurrences keyOf xs seenKeys
      else x :: firstOccurrences keyOf xs (seenKeys ++ [keyOf x])

/-! ## `Normalizer` (src/backend/app/core/normalizer.py) -/

/-- `RawItemCreate` (models/schemas.py). -/
structure RawItemCreate where
  source : List Char
  source_type : List Char
  external_id : Option (List Char)
  url : List Char
  raw_payload : Option (List Char)
  deriving DecidableEq, Repr

/-- `NewsItemCreate` (models/schemas.py). -/
structure NewsItemCreate where
  canonical_url : List Char
  title : List Char
  summary : Option (List Char) := none
  published_at : PyDateTime
  source : List Char
  source_type : List Char
  credibility : List Char := "medium".data
  tickers : List (List Char) := []
  title_normalized : Option (List Char) := none
  content_hash : Option (List Char) := none
  raw_item_id : Option (List Char) := none
  deriving DecidableEq, Repr

/-- `Normalizer.CREDIBILITY_MAP`. -/
def CREDIBILITY_MAP : List (List Char × List Char) :=
  [("sec", "high"), ("finnhub", "medium"), ("polygon", "medium"),
   ("default", "low")].map (fun p => (p.1.data, p.2.data))

/-- `Normalizer._determine_credibility`: `filing` source types are `high`;
otherwise `CREDIBILITY_MAP.get(source, CREDIBILITY_MAP["default"])`, whose
default entry is `"low"`. -/
def determine_credibility (source source_type : List Char) : List Char :=
  if source_type = "filing".data then "high".data
  else
    match CREDIBILITY_MAP.find? (fun p => p.1 == source) with
    | some p => p.2
    | none => "low".data

/-- `Normalizer._normalize_item` (`now` models `datetime.utcnow()` for the
`published_at` fallback). -/
def normalize_item (raw : RawNewsData) (now : PyDateTime) :
    RawItemCreate × NewsItemCreate :=
  let rawCreate : RawItemCreate :=
    ⟨raw.source, raw.source_type, raw.external_id, raw.url, raw.raw_payload⟩
  let newsCreate : NewsItemCreate :=
    { canonical_url := canonicalize_url raw.url
      title := raw.title
      title_normalized := some (normalize_title raw.title)
      content_hash := some (compute_content_hash raw)
      summary := raw.summary
      published_at := raw.published_at.getD now
      source := raw.source
      source_type := raw.source_type
      credibility := determine_credibility raw.source raw.source_type
      tickers := raw.tickers }
  (rawCreate, newsCreate)

/-! ## `RateLimiter` (src/backend/app/utils/rate_limiter.py)

Seconds are modelled as `ℚ` (the Python values are floats carrying small
decimal constants).  The `Retry-After` header is modelled pre-parsed: the
outcome carries the value `_parse_retry_after` would return (a float, or
`None` when the header is absent or not numeric).  Token-bucket waiting and
`asyncio.sleep` have no effect on the returned value and are not modelled. -/

/-- Outcome of one attempt of the wrapped coroutine `func`: success, an
`httpx.HTTPStatusError` with status code and parsed `Retry-After`, or a
transient network error (`httpx.ConnectError` / `httpx.TimeoutException`). -/
inductive ApiOutcome (α : Type) where
  | success (v : α)
  | httpError (status : ℕ) (retryAfter : Option ℚ)
  | connectError
  | timeoutError
  deriving DecidableEq, Repr

/-- Exceptions surfaced by `RateLimiter.execute`. -/
inductive PyError where
  | rateLimitError (api : List Char) (retryAfter : Option ℚ)
  | httpStatusError (status : ℕ) (retryAfter : Option ℚ)
  | connectError
  | timeoutError
  | runtimeError
  deriving DecidableEq, Repr

/-- Result of `RateLimiter.execute`: a value or a raised exception. -/
inductive ExecResult (α : Type) where
  | ok (v : α)
  | raised (e : PyError)
  deriving DecidableEq, Repr

/-- `RateLimiter._calculate_backoff`: `wait = 2^attempt × jitter`, raised to
`retry_after` when the header value is truthy (nonzero), then capped at 60
seconds.  `jitter` stands for the `random.uniform(0.75, 1.25)` draw. -/
def calculate_backoff (attempt : ℕ) (retryAfter : Option ℚ) (jitter : ℚ) : ℚ :=
  let baseWait : ℚ := 2 ^ attempt
  let waitTime := baseWait * jitter
  let waitTime2 :=
    match retryAfter with
    | some ra => if ra ≠ 0 then max waitTime ra else waitTime
    | none => waitTime
  min waitTime2 60

/-- The retry loop of `RateLimiter.execute`: `attempt` is the current loop
index, `fuel` the remaining iterations of `range(max_retries + 1)`, and
`lastErr` the `last_error` variable.  When the loop ends without returning
(unreachable in fact), the function re-raises `last_error` or a
`RuntimeError`. -/
def executeLoop (api : List Char) (maxRetries : ℕ) (outcomes : ℕ → ApiOutcome α) :
    ℕ → ℕ → Option PyError → ExecResult α
  | _, 0, lastErr =>
      match lastErr with
      | some e => .raised e
      | none => .raised .runtimeError
  | attempt, fuel + 1, _ =>
      match outcomes attempt with
      | .success v => .ok v
      | .httpError s ra =>
          if s = 429 then
            if attempt < maxRetries then
              executeLoop api maxRetries outcomes (attempt + 1) fuel
                (some (.httpStatusError s ra))
            else .raised (.rateLimitError api ra)
          else if s = 500 ∨ s = 502 ∨ s = 503 ∨ s = 504 then
            if attempt < maxRetries then
              executeLoop api maxRetries outcomes (attempt + 1) fuel
                (some (.httpStatusError s ra))
            else .raised (.httpStatusError s ra)
          else .raised (.httpStatusError s ra)
      | .connectError =>
          if attempt < maxRetries then
            executeLoop api maxRetries outcomes (attempt + 1) fuel (some .connectError)
          else .raised .connectError
      | .timeoutError =>
          if attempt < maxRetries then
            executeLoop api maxRetries outcomes (attempt + 1) fuel (some .timeoutError)
          else .raised .timeoutError

/-- `RateLimiter.execute(api_name, func, max_retries)`: run the loop from
attempt 0 with `max_retries + 1` iterations. -/
def execute (api : List Char) (maxRetries : ℕ) (outcomes : ℕ → ApiOutcome α) :
    ExecResult α :=
  executeLoop api maxRetries outcomes 0 (maxRetries + 1) none

/-- An attempt outcome the middleware retries: HTTP 429, HTTP 500/502/503/504,
or a transient network error. -/
def retryableOutcome : ApiOutcome α → Prop
  | .success _ => False
  | .httpError s _ => s = 429 ∨ s = 500 ∨ s = 502 ∨ s = 503 ∨ s = 504
  | .connectError => True
  | .timeoutError => True

/-- Whether a raised error is the `RateLimitError` class. -/
def PyError.isRateLimit : PyError → Bool
  | .rateLimitError _ _ => true
  | _ => false

/-- The claim's backoff formula when a `Retry-After` header was given:
`max(min(60, 2^attempt × jitter), retry_after)` — the cap applied before the
`Retry-After` floor.  Stated from the specification's words for comparison
with `calculate_backoff`. -/
def claimedBackoffWithRetryAfter (attempt : ℕ) (ra jitter : ℚ) : ℚ :=
  max (min 60 ((2 : ℚ) ^ attempt * jitter)) ra

/-! ## `AIAnalysisOutput` validation and `BaseAIProvider.analyze`
(src/backend/app/models/schemas.py:11, src/backend/app/providers/base.py) -/

def eventTypes : List (List Char) :=
  ["earnings", "guidance", "regulatory", "contract", "product", "accident",
   "macro", "rumor", "other"].map String.data

def impactDirections : List (List Char) := ["bullish", "bearish", "neutral"].map String.data

def impactHorizons : List (List Char) := ["short", "medium", "long"].map String.data

def thesisRelations : List (List Char) := ["supports", "weakens", "unrelated"].map String.data

def confidences : List (List Char) := ["high", "medium", "low"].map String.data

/-- The decoded JSON object's schema-relevant fields.  Every field is
optional at the JSON level: `none` models a field absent from the decoded
object.  The seven fields with no declared default (the five `Literal`
fields, `confidence_reason` and `summary`, schemas.py:15-23) raise a
pydantic missing-field error when absent — `mode="before"` validators do
not run for absent fields; `key_facts` and `watch_next` have declared
defaults, and for them `none` also covers a present JSON `null`, which
their validators map to the same default.  Present fields are modelled as
well-typed strings (or a string list), so pydantic's type-coercion errors
are out of scope, as is a present JSON `null` for the required text fields
(which their before-validators would coerce to the empty string). -/
structure RawAnalysisRecord where
  event_type : Option (List Char) := none
  impact_direction : Option (List Char) := none
  impact_horizon : Option (List Char) := none
  thesis_relation : Option (List Char) := none
  confidence : Option (List Char) := none
  confidence_reason : Option (List Char) := none
  summary : Option (List Char) := none
  key_facts : Option (List (List Char)) := none
  watch_next : Option (List Char) := none
  deriving DecidableEq, Repr

/-- Validated `AIAnalysisOutput` (models/schemas.py). -/
structure AIAnalysisOutput where
  event_type : List Char
  impact_direction : List Char
  impact_horizon : List Char
  thesis_relation : List Char
  confidence : List Char
  confidence_reason : List Char
  summary : List Char
  key_facts : List (List Char) := []
  watch_next : List Char := []
  deriving DecidableEq, Repr

/-- Validation error raised by `_parse_and_validate`
(`pydantic.ValidationError`, by kind). -/
inductive VErr where
  | jsonInvalid
  | apiError (msg : List Char)
  | schemaViolation
  deriving DecidableEq, Repr

/-- `validate_key_facts` (mode="before"): `None` becomes `[]`, otherwise the
first three facts each cut to 200 characters. -/
def validate_key_facts : Option (List (List Char)) → List (List Char)
  | none => []
  | some v => (v.take 3).map (fun f => f.take 200)

/-- `validate_summary` (mode="before"): `str(v)[:100] if v else ""`. -/
def validate_summary (v : List Char) : List Char :=
  if v = [] then [] else v.take 100

/-- `validate_confidence_reason` (mode="before"). -/
def validate_confidence_reason (v : List Char) : List Char :=
  if v = [] then [] else v.take 100

/-- `validate_watch_next` (mode="before"); an absent field takes the declared
default `""`. -/
def validate_watch_next : Option (List Char) → List Char
  | none => []
  | some v => if v = [] then [] else v.take 50

/-- Present-and-valid test for one required `Literal` field: pydantic
raises for a missing required field as well as for a value outside the
literal set. -/
def enumOkB (f : Option (List Char)) (allowed : List (List Char)) : Bool :=
  match f with
  | none => false
  | some v => decide (v ∈ allowed)

/-- The five `Literal` fields are present and hold valid values. -/
def enumsValid (r : RawAnalysisRecord) : Prop :=
  enumOkB r.event_type eventTypes = true ∧
  enumOkB r.impact_direction impactDirections = true ∧
  enumOkB r.impact_horizon impactHorizons = true ∧
  enumOkB r.thesis_relation thesisRelations = true ∧
  enumOkB r.confidence confidences = true

instance (r : RawAnalysisRecord) : Decidable (enumsValid r) := by
  unfold enumsValid; infer_instance

/-- The two required text fields are present (`summary` and
`confidence_reason` are declared with no default, schemas.py:22-23). -/
def textFieldsPresent (r : RawAnalysisRecord) : Prop :=
  r.confidence_reason.isSome = true ∧ r.summary.isSome = true

instance (r : RawAnalysisRecord) : Decidable (textFieldsPresent r) := by
  unfold textFieldsPresent; infer_instance

/-- `AIAnalysisOutput.model_validate`: an absent required field raises a
missing-field `ValidationError` (before-validators do not run for absent
fields); on present values the before-validators run first, then the
`Literal` memberships and the `Field` constraints (`max_length` on the
three strings and the list) are checked. -/
def model_validate (r : RawAnalysisRecord) : Except VErr AIAnalysisOutput :=
  match r.event_type, r.impact_direction, r.impact_horizon, r.thesis_relation,
      r.confidence, r.confidence_reason, r.summary with
  | some et, some idir, some ihz, some tr, some cf, some cr, some sm =>
      if et ∈ eventTypes ∧ idir ∈ impactDirections ∧ ihz ∈ impactHorizons ∧
          tr ∈ thesisRelations ∧ cf ∈ confidences then
        let cr2 := validate_confidence_reason cr
        let s2 := validate_summary sm
        let kf := validate_key_facts r.key_facts
        let wn := validate_watch_next r.watch_next
        if cr2.length ≤ 100 ∧ s2.length ≤ 100 ∧ kf.length ≤ 3 ∧ wn.length ≤ 50 then
          .ok ⟨et, idir, ihz, tr, cf, cr2, s2, kf, wn⟩
        else .error .schemaViolation
      else .error .schemaViolation
  | _, _, _, _, _, _, _ => .error .schemaViolation

/-- The decoded state of a raw model response inside `_parse_and_validate`,
after fence-stripping and brace-slicing: unparsable JSON, a provider error
object, or a decoded record. -/
inductive ParsedJson where
  | invalidJson
  | errorObject (msg : List Char)
  | record (r : RawAnalysisRecord)
  deriving DecidableEq, Repr

/-- `BaseAIProvider._parse_and_validate` on the decoded response: JSON parse
errors and provider `error` objects raise synthetic `ValidationError`s, a
decoded record goes to `model_validate`. -/
def parse_and_validate : ParsedJson → Except VErr AIAnalysisOutput
  | .invalidJson => .error .jsonInvalid
  | .errorObject m => .error (.apiError m)
  | .record r => model_validate r

/-- Outcome of one `_call_api` call: the decoded output with token and cost
accounting, or a raised (non-`ValidationError`) exception. -/
inductive CallOutcome where
  | ok (out : ParsedJson) (tokens : ℕ) (cost : ℚ)
  | raise (e : List Char)
  deriving Repr

/-- Result of `BaseAIProvider.analyze`: the triple, or an `AIAnalysisError`.
-/
inductive AnalyzeOutcome where
  | ok (result : AIAnalysisOutput) (tokens : ℕ) (cost : ℚ)
  | analysisError (msg : List Char)
  deriving Repr

/-- `BaseAIProvider._fallback_result`. -/
def fallback_result (news : NewsItemCreate) : AIAnalysisOutput :=
  { event_type := "other".data
    impact_direction := "neutral".data
    impact_horizon := "short".data
    thesis_relation := "unrelated".data
    confidence := "low".data
    confidence_reason := "Analysis failed, using fallback".data
    summary := if news.title ≠ [] then news.title.take 100 else "No summary".data
    key_facts := []
    watch_next := [] }

/-- `BaseAIProvider.analyze` over the outcomes of the two `_call_api` calls:
first attempt; on `ValidationError` a one-shot strict retry; on a second
`ValidationError` the fallback record with tokens and cost summed over both
calls.  Any non-`ValidationError` exception becomes `AIAnalysisError` (the
concrete `_call_api` implementations do not raise `ValidationError`
themselves). -/
def analyze (news : NewsItemCreate) (call1 call2 : CallOutcome) : AnalyzeOutcome :=
  match call1 with
  | .raise e => .analysisError e
  | .ok raw1 t1 c1 =>
      match parse_and_validate raw1 with
      | .ok result => .ok result t1 c1
      | .error _ =>
          match call2 with
          | .raise e => .analysisError e
          | .ok raw2 t2 c2 =>
              match parse_and_validate raw2 with
              | .ok result => .ok result (t1 + t2) (c1 + c2)
              | .error _ => .ok (fallback_result news) (t1 + t2) (c1 + c2)

/-! ## `Pipeline.run` status recording (src/backend/app/core/pipeline.py:65)

The environment captures the outcome of every awaited step of `run` that can
raise or whose failure is counted.  Steps whose exceptions the source
swallows internally (`_collect_news` per collector, per-item analysis,
per-ticker summaries, `_deliver_to_notion`, `_deliver_to_markdown`,
`_update_pipeline_run`) are recorded as data; steps whose exceptions
propagate to `run`'s `try` (`_load_watchlist`, the `_analyze_and_save` outer
context, the provider context of `_generate_ticker_summaries`) are
`Except`/`Option` values.  Counter inputs list the iterations that actually
ran. -/

structure RunEnv where
  loadWatchlistError : Option (List Char)
  analyzeSaveOuterError : Option (List Char)
  summariesOuterError : Option (List Char)
  perItemAnalysisFailed : List Bool
  perTickerSummaryFailed : List Bool
  notionEnabled : Bool
  markdownEnabled : Bool
  notionFailed : Bool
  markdownFailed : Bool
  deriving DecidableEq, Repr

/-- What `run` hands to `_update_pipeline_run` at the end: the terminal
status with `error_log`, and the statistics counters relevant to the
claim. -/
structure RunRecord where
  status : List Char
  error_log : Option (List Char)
  analyzed_failed : ℕ
  delivered : ℕ
  deriving DecidableEq, Repr

/-- The first exception propagating inside `Pipeline.run`'s `try`, if any. -/
def stageError (env : RunEnv) : Option (List Char) :=
  match env.loadWatchlistError with
  | some e => some e
  | none =>
      match env.analyzeSaveOuterError with
      | some e => some e
      | none => env.summariesOuterError

/-- `Pipeline.run`'s terminal `_update_pipeline_run` call: `"success"` with
no error log on the no-exception path (delivery failures are swallowed by
the delivery helpers and only reduce the `delivered` counter), `"failed"`
with `str(e)` when a stage raised. -/
def pipeline_run (env : RunEnv) : RunRecord :=
  match env.loadWatchlistError with
  | some e => ⟨"failed".data, some e, 0, 0⟩
  | none =>
      let analyzedFailed := env.perItemAnalysisFailed.count true
      match env.analyzeSaveOuterError with
      | some e => ⟨"failed".data, some e, analyzedFailed, 0⟩
      | none =>
          match env.summariesOuterError with
          | some e => ⟨"failed".data, some e, analyzedFailed, 0⟩
          | none =>
              let delivered :=
                (if env.notionEnabled && !env.notionFailed then 1 else 0) +
                (if env.markdownEnabled && !env.markdownFailed then 1 else 0)
              ⟨"success".data, none, analyzedFailed, delivered⟩

/-- A news item with an empty title (constructible: `NewsItemCreate.title`
is a plain required `str` with no minimum length). -/
def emptyTitleNews : NewsItemCreate :=
  { canonical_url := []
    title := []
    published_at := ⟨"2024-01-01".data⟩
    source := "finnhub".data
    source_type := "news".data }

/-- A news item with a nonempty title, used to instantiate the fallback
theorem. -/
def nvidiaNews : NewsItemCreate :=
  { canonical_url := []
    title := "Nvidia beats".data
    published_at := ⟨"2024-01-01".data⟩
    source := "finnhub".data
    source_type := "news".data }

/-- A decoded record with valid enum values whose four capped fields all
exceed their length caps. -/
def overlongRecord : RawAnalysisRecord :=
  { event_type := some "earnings".data
    impact_direction := some "bullish".data
    impact_horizon := some "short".data
    thesis_relation := some "supports".data
    confidence := some "high".data
    confidence_reason := some (List.replicate 150 'x')
    summary := some (List.replicate 250 'y')
    key_facts := some [List.replicate 300 'z', List.replicate 5 'a',
      List.replicate 201 'b', List.replicate 7 'c']
    watch_next := some (List.replicate 80 'w') }

/-- A decoded record whose five enum fields are present and valid but whose
required `summary` field is absent. -/
def missingSummaryRecord : RawAnalysisRecord :=
  { event_type := some "earnings".data
    impact_direction := some "bullish".data
    impact_horizon := some "short".data
    thesis_relation := some "supports".data
    confidence := some "high".data
    confidence_reason := some "ok".data
    summary := none
    key_facts := none
    watch_next := none }

/-- Counterexample input: first of two raw items sharing a URL, with a
punctuation-only title whose normalization is empty. -/
def punctItemA : RawNewsData :=
  { source := "s1".data
    source_type := "news".data
    url := "http://dup".data
    title := "!!!".data }

/-- Counterexample input: second item with the same URL, also with an
empty-normalizing title. -/
def punctItemB : RawNewsData :=
  { source := "s2".data
    source_type := "news".data
    url := "http://dup".data
    title := "???".data }

/-- Counterexample input: an unrelated item with a distinct URL and a
normalizable title. -/
def plainItemC : RawNewsData :=
  { source := "s3".data
    source_type := "news".data
    url := "http://other".data
    title := "hello world".data }

/-- Witness input: two raw items with distinct URLs, titles and sources. -/
def simItemA : RawNewsData :=
  { source := "s1".data
    source_type := "news".data
    url := "http://a".data
    title := "x".data }

/-- Witness input: second raw item. -/
def simItemB : RawNewsData :=
  { source := "s2".data
    source_type := "news".data
    url := "http://b".data
    title := "y".data }

/-- The similarity cluster produced by deduplicating `[simItemA, simItemB]`
with a constant SimHash function and threshold `17/20`. -/
def simCluster0 : DedupClusterInfo :=
  { representative_url := "http://a".data
    member_urls := ["http://b".data]
    method := "similarity".data
    similarity_score := some ((17 : ℚ)/20) }

/-- Percent-escape of a byte sequence (the non-safe branch of `quoteByte`
iterated). -/
def escSeq (bs : List ℕ) : List Char :=
  bs.flatMap (fun b => ['%', hexDigitUpper (b / 16), hexDigitUpper (b % 16)])

/-- Characters that `quote_plus` escapes (neither space nor an always-safe
ASCII character). -/
def isEscClass (c : Char) : Bool :=
  !(charNat c == 32 || (decide (charNat c < 128) && alwaysSafeByte (charNat c)))

/-- Flatten a grouped multi-dict back to its pair sequence. -/
def flattenGroups (g : List (List Char × List (List Char))) :
    List (List Char × List Char) :=
  g.flatMap (fun p => p.2.map (fun v => (p.1, v)))

/-- Per-character form of `quote_plus` composed with the `+`-to-space map of
`parse_qsl`: space and always-safe characters stay, everything else is
percent-escaped. -/
def qunit (c : Char) : List Char :=
  if charNat c = 32 then [' ']
  else if charNat c < 128 ∧ alwaysSafeByte (charNat c) = true then [c]
  else escSeq (utf8EncodeChar c)

/-- The no-two-adjacent-spaces relation used to state whitespace collapse. -/
def noDoubleSpace (a b : Char) : Prop := a ≠ ' ' ∨ b ≠ ' '

/-- Character set claimed by the specification: `[a-z0-9 ]`. -/
def inSpecTitleAlphabet (c : Char) : Prop :=
  (97 ≤ charNat c ∧ charNat c ≤ 122) ∨ (48 ≤ charNat c ∧ charNat c ≤ 57) ∨ c = ' '

instance (c : Char) : Decidable (inSpecTitleAlphabet c) := by
  unfold inSpecTitleAlphabet; infer_instance

/-- Character set the code actually produces on ASCII input: `[a-z0-9_ ]`
(the regex `\w` keeps underscores). -/
def inCodeTitleAlphabet (c : Char) : Prop :=
  (97 ≤ charNat c ∧ charNat c ≤ 122) ∨ (48 ≤ charNat c ∧ charNat c ≤ 57) ∨
  c = '_' ∨ c = ' '

instance (c : Char) : Decidable (inCodeTitleAlphabet c) := by
  unfold inCodeTitleAlphabet; infer_instance

/-- The stage-2 output list of `deduplicate`: input deduplicated by canonical
URL and then by content hash. -/
def afterExactStages (items : List RawNewsData) : List RawNewsData :=
  (hash_dedup (url_dedup items).1).1

/-! ### Properties of `normalize_title` -/

theorem joinSp_single (w : List Char) : joinSp [w] = w := rfl

theorem joinSp_cons_cons (w w2 : List Char) (ws2 : List (List Char)) :
    joinSp (w :: w2 :: ws2) = w ++ ' ' :: joinSp (w2 :: ws2) := rfl

theorem chain_noDoubleSpace_of_no_space (w : List Char) (h : ∀ c ∈ w, c ≠ ' ') :
    List.Chain' noDoubleSpace w := by
  induction w with
  | nil => simp
  | cons a t ih =>
      cases t with
      | nil => simp
      | cons b t2 =>
          rw [List.chain'_cons]
          exact ⟨Or.inl (h a (by simp)), ih (fun c hc => h c (List.mem_cons_of_mem _ hc))⟩

theorem ne_space_of_mem_getLast? (w : List Char) (c : Char) (hmem : c ∈ w.getLast?)
    (h : ∀ d ∈ w, d ≠ ' ') : c ≠ ' ' := by
  rcases List.mem_getLast?_eq_getLast hmem with ⟨hne, hc⟩
  exact hc ▸ h _ (List.getLast_mem hne)

theorem joinSp_ne_nil (w : List Char) (ws : List (List Char)) (hw : w ≠ []) :
    joinSp (w :: ws) ≠ [] := by
  cases ws with
  | nil => simpa [joinSp] using hw
  | cons w2 ws2 =>
      simp only [joinSp]
      intro hcon
      rcases List.append_eq_nil.mp hcon with ⟨-, h2⟩
      exact List.cons_ne_nil _ _ h2

/-- Whitespace collapse of a space-join of nonempty, space-free words: no two
adjacent spaces, and the first and last characters are not spaces. -/
theorem joinSp_collapsed (ws : List (List Char))
    (h : ∀ w ∈ ws, w ≠ [] ∧ ∀ c ∈ w, c ≠ ' ') :
    List.Chain' noDoubleSpace (joinSp ws) ∧
    (joinSp ws).head? ≠ some ' ' ∧ (joinSp ws).getLast? ≠ some ' ' := by
  induction ws with
  | nil => simp [joinSp]
  | cons w ws ih =>
      obtain ⟨hwne, hwns⟩ := h w (by simp)
      cases ws with
      | nil =>
          rw [joinSp_single]
          refine ⟨chain_noDoubleSpace_of_no_space w hwns, ?_, ?_⟩
          · cases w with
            | nil => simp
            | cons a t =>
                simp only [List.head?_cons, ne_eq, Option.some.injEq]
                exact hwns a (by simp)
          · intro hcon
            exact ne_space_of_mem_getLast? w ' ' (by simp [hcon]) hwns rfl
      | cons w2 ws2 =>
          have hrest := ih (fun u hu => h u (List.mem_cons_of_mem _ hu))
          obtain ⟨hch, hhd, hlast⟩ := hrest
          have hJne : joinSp (w2 :: ws2) ≠ [] :=
            joinSp_ne_nil w2 ws2 (h w2 (by simp)).1
          rw [joinSp_cons_cons]
          refine ⟨?_, ?_, ?_⟩
          · rw [List.chain'_append]
            refine ⟨chain_noDoubleSpace_of_no_space w hwns, ?_, ?_⟩
            · cases hJ : joinSp (w2 :: ws2) with
              | nil => exact absurd hJ hJne
              | cons j0 jt =>
                  rw [List.chain'_cons]
                  refine ⟨Or.inr ?_, by rw [← hJ]; exact hch⟩
                  intro hj0
                  exact hhd (by rw [hJ, hj0]; rfl)
            · intro x hx y hy
              simp only [List.head?_cons, Option.mem_def, Option.some.injEq] at hy
              exact Or.inl (ne_space_of_mem_getLast? w x hx hwns)
          · rw [List.head?_append_of_ne_nil w hwne]
            cases w with
            | nil => exact absurd rfl hwne
            | cons a t =>
                simp only [List.head?_cons, ne_eq, Option.some.injEq]
                exact hwns a (by simp)
          · rw [List.getLast?_append]
            cases hJ : (' ' :: joinSp (w2 :: ws2)).getLast? with
            | none =>
                simp at hJ
            | some c =>
                simp only [Option.or_some, ne_eq, Option.some.injEq]
                cases hJ2 : joinSp (w2 :: ws2) with
                | nil => exact absurd hJ2 hJne
                | cons j0 jt =>
                    rw [hJ2, List.getLast?_cons_cons, ← hJ2] at hJ
                    intro hceq
                    exact hlast (by rw [hJ, hceq])

theorem splitWsAux_words_no_space (l : List Char) :
    ∀ acc, (∀ c ∈ acc, ¬ isSpaceChar c = true) →
      ∀ w ∈ splitWsAux l acc, w ≠ [] ∧ ∀ c ∈ w, ¬ isSpaceChar c = true := by
  induction l with
  | nil =>
      intro acc hacc w hw
      unfold splitWsAux at hw
      by_cases h : acc = []
      · simp [h] at hw
      · simp [h] at hw
        subst hw
        refine ⟨by simpa using h, ?_⟩
        intro c hc
        exact hacc c (by simpa using hc)
  | cons c cs ih =>
      intro acc hacc w hw
      unfold splitWsAux at hw
      by_cases hsp : isSpaceChar c
      · simp [hsp] at hw
        by_cases h : acc = []
        · simp [h] at hw
          exact ih [] (by simp) w hw
        · simp [h] at hw
          rcases hw with hw | hw
          · subst hw
            refine ⟨by simpa using h, ?_⟩
            intro d hd
            exact hacc d (by simpa using hd)
          · exact ih [] (by simp) w hw
      · simp [hsp] at hw
        refine ih (c :: acc) ?_ w hw
        intro d hd
        rcases List.mem_cons.mp hd with hd | hd
        · subst hd; simpa using hsp
        · exact hacc d hd

theorem splitWsAux_words_subset (l : List Char) :
    ∀ acc, ∀ w ∈ splitWsAux l acc, ∀ c ∈ w, c ∈ acc ∨ c ∈ l := by
  induction l with
  | nil =>
      intro acc w hw c hc
      unfold splitWsAux at hw
      by_cases h : acc = []
      · simp [h] at hw
      · simp [h] at hw
        subst hw
        exact Or.inl (by simpa using hc)
  | cons a cs ih =>
      intro acc w hw c hc
      unfold splitWsAux at hw
      by_cases hsp : isSpaceChar a
      · simp [hsp] at hw
        by_cases h : acc = []
        · simp [h] at hw
          rcases ih [] w hw c hc with h2 | h2
          · simp at h2
          · exact Or.inr (List.mem_cons_of_mem _ h2)
        · simp [h] at hw
          rcases hw with hw | hw
          · subst hw
            exact Or.inl (by simpa using hc)
          · rcases ih [] w hw c hc with h2 | h2
            · simp at h2
            · exact Or.inr (List.mem_cons_of_mem _ h2)
      · simp [hsp] at hw
        rcases ih (a :: acc) w hw c hc with h2 | h2
        · rcases List.mem_cons.mp h2 with h3 | h3
          · subst h3; exact Or.inr (List.mem_cons_self _ _)
          · exact Or.inl h3
        · exact Or.inr (List.mem_cons_of_mem _ h2)

theorem charNat_ofNat_of_lt (n : Nat) (h : n < 55296) : charNat (Char.ofNat n) = n := by
  have hv : Nat.isValidChar n := Or.inl h
  unfold charNat Char.ofNat
  rw [dif_pos hv]
  rfl

theorem charNat_pyLowerChar_lt (a : Char) (h : charNat a < 128) :
    charNat (pyLowerChar a) < 128 := by
  unfold pyLowerChar
  by_cases hc : 65 ≤ charNat a ∧ charNat a ≤ 90
  · rw [if_pos hc, charNat_ofNat_of_lt _ (by omega)]; omega
  · rw [if_neg hc]; exact h

theorem pyLowerChar_not_upper (a : Char) :
    ¬ (65 ≤ charNat (pyLowerChar a) ∧ charNat (pyLowerChar a) ≤ 90) := by
  unfold pyLowerChar
  by_cases hc : 65 ≤ charNat a ∧ charNat a ≤ 90
  · rw [if_pos hc, charNat_ofNat_of_lt _ (by omega)]; omega
  · rw [if_neg hc]; exact hc

/-- Per-character form of the amended alphabet claim: substituting and
lower-casing an ASCII character yields a character of `[a-z0-9_ ]` unless the
result is (non-space-class) whitespace, which cannot happen. -/
theorem subNonWord_lower_alphabet (a : Char) (h : charNat a < 128)
    (hns : ¬ isSpaceChar (subNonWordChar (pyLowerChar a)) = true) :
    inCodeTitleAlphabet (subNonWordChar (pyLowerChar a)) := by
  have hlt := charNat_pyLowerChar_lt a h
  have hnu := pyLowerChar_not_upper a
  set b := pyLowerChar a with hb
  unfold subNonWordChar at hns ⊢
  by_cases hk : (isWordChar b || isSpaceChar b) = true
  · rw [if_pos hk] at hns ⊢
    rcases Bool.or_eq_true_iff.mp hk with hw | hs
    · unfold isWordChar at hw
      simp only [Bool.or_eq_true, Bool.and_eq_true, decide_eq_true_eq, beq_iff_eq] at hw
      unfold inCodeTitleAlphabet
      rcases hw with ((h1 | h1) | h1) | h1
      · exact Or.inr (Or.inl h1)
      · exact absurd h1 hnu
      · exact Or.inl h1
      · right; right; left
        have h2 : b = Char.ofNat (charNat b) := (Char.ofNat_toNat b).symm
        rw [h2, h1]
    · exact absurd hs hns
  · rw [if_neg hk] at hns
    exact absurd (by decide) hns

/-- Membership in a space-join: every character is a space or belongs to some
word. -/
theorem mem_joinSp (ws : List (List Char)) :
    ∀ c ∈ joinSp ws, c = ' ' ∨ ∃ w ∈ ws, c ∈ w := by
  induction ws with
  | nil => intro c hc; simp [joinSp] at hc
  | cons w ws ih =>
      intro c hc
      cases ws with
      | nil =>
          simp [joinSp] at hc
          exact Or.inr ⟨w, by simp, hc⟩
      | cons w2 ws2 =>
          simp only [joinSp] at hc
          rcases List.mem_append.mp hc with hc | hc
          · exact Or.inr ⟨w, by simp, hc⟩
          · rcases List.mem_cons.mp hc with hc | hc
            · exact Or.inl hc
            · rcases ih c hc with h | ⟨u, hu, hcu⟩
              · exact Or.inl h
              · exact Or.inr ⟨u, List.mem_cons_of_mem _ hu, hcu⟩

theorem mem_pySplitWs_no_space (t : List Char) (w : List Char) (hw : w ∈ pySplitWs t) :
    w ≠ [] ∧ ∀ c ∈ w, c ≠ ' ' := by
  obtain ⟨hne, hns⟩ := splitWsAux_words_no_space t [] (by simp) w hw
  refine ⟨hne, fun c hc hceq => ?_⟩
  exact hns c hc (by rw [hceq]; decide)

/-- C3, claim as stated is false on the code: `normalize_title` keeps
underscores, because the regex `[^\w\s]` treats `_` as a word character,
while the specification's alphabet `[a-z0-9 ]` excludes it.  At input `"_"`
the output is `"_"`, which is not drawn from `[a-z0-9 ]` (and the underscore
was not replaced by a space as the claim's parenthetical requires). -/
theorem normalize_title_alphabet_counterexample :
    normalize_title ['_'] = ['_'] ∧
    ¬ (∀ c ∈ normalize_title ['_'], inSpecTitleAlphabet c) := by
  constructor
  · rfl
  · intro hall
    have := hall '_' (by rw [show normalize_title ['_'] = ['_'] from rfl]; simp)
    revert this
    decide

/-- C3 (amended): `normalize_title` is a pure function of its input (hence
deterministic), and on ASCII input its output consists only of characters
from `[a-z0-9_ ]` — the code keeps `_` since the regex class `\w` contains
it — with whitespace collapsed: no two adjacent spaces, no leading space and
no trailing space.  (On non-ASCII input the `\w` class additionally keeps
Unicode letters and digits, outside this theorem's scope.) -/
theorem normalize_title_ascii_properties (l : List Char)
    (hascii : ∀ c ∈ l, charNat c < 128) :
    (∀ c ∈ normalize_title l, inCodeTitleAlphabet c) ∧
    List.Chain' noDoubleSpace (normalize_title l) ∧
    (normalize_title l).head? ≠ some ' ' ∧
    (normalize_title l).getLast? ≠ some ' ' := by
  unfold normalize_title
  by_cases hl : l = []
  · simp [hl]
  · rw [if_neg hl]
    set t3 := ((nfkc l).map pyLowerChar).map subNonWordChar with ht3
    have hwords : ∀ w ∈ pySplitWs t3, w ≠ [] ∧ ∀ c ∈ w, c ≠ ' ' :=
      fun w hw => mem_pySplitWs_no_space t3 w hw
    obtain ⟨hch, hhd, hlast⟩ := joinSp_collapsed (pySplitWs t3) hwords
    refine ⟨?_, hch, hhd, hlast⟩
    intro c hc
    rcases mem_joinSp (pySplitWs t3) c hc with hsp | ⟨w, hwmem, hcw⟩
    · subst hsp
      unfold inCodeTitleAlphabet
      right; right; right; rfl
    · have hcns : ¬ isSpaceChar c = true :=
        splitWsAux_words_no_space t3 [] (by simp) w hwmem |>.2 c hcw
      have hct3 : c ∈ t3 := by
        rcases splitWsAux_words_subset t3 [] w hwmem c hcw with h0 | h1
        · simp at h0
        · exact h1
      rw [ht3] at hct3
      rcases List.mem_map.mp hct3 with ⟨b, hb, hcb⟩
      rcases List.mem_map.mp hb with ⟨a, ha, hba⟩
      subst hcb
      subst hba
      exact subNonWord_lower_alphabet a (hascii a ha) hcns

/-- Witness for `normalize_title_ascii_properties` at the concrete ASCII
input `"Hello,  World!"`. -/
theorem normalize_title_ascii_properties_witness :
    (∀ c ∈ ("Hello,  World!".data), charNat c < 128) ∧
    ((∀ c ∈ normalize_title ("Hello,  World!".data), inCodeTitleAlphabet c) ∧
     List.Chain' noDoubleSpace (normalize_title ("Hello,  World!".data)) ∧
     (normalize_title ("Hello,  World!".data)).head? ≠ some ' ' ∧
     (normalize_title ("Hello,  World!".data)).getLast? ≠ some ' ') :=
  ⟨by decide, normalize_title_ascii_properties ("Hello,  World!".data) (by decide)⟩

/-! ### C9 — credibility assignment -/

/-- C9: `Normalizer._normalize_item` assigns credibility `high` to every item
whose `source_type` is `filing`, regardless of its source, and otherwise the
`CREDIBILITY_MAP` per-source lookup with default `low`. -/
theorem normalize_item_credibility_rule (raw : RawNewsData) (now : PyDateTime) :
    (normalize_item raw now).2.credibility =
      (if raw.source_type = "filing".data then "high".data
       else
         match CREDIBILITY_MAP.find? (fun p => p.1 == raw.source) with
         | some p => p.2
         | none => "low".data) := rfl

/-! ### C1 — pipeline terminal status -/

/-- C1, claim as stated is false on the code: a run in which one per-item
analysis failed (`analyzed_failed = 1`), a digest was produced and a delivery
channel failed still records status `"success"`, never `"partial"` —
`Pipeline.run` line 167 updates the run with `"success"` unconditionally on
the no-exception path. -/
theorem pipeline_run_no_partial_counterexample :
    (pipeline_run ⟨none, none, none, [true], [], true, false, true, false⟩).analyzed_failed = 1 ∧
    (pipeline_run ⟨none, none, none, [true], [], true, false, true, false⟩).delivered = 0 ∧
    (pipeline_run ⟨none, none, none, [true], [], true, false, true, false⟩).status = "success".data ∧
    (pipeline_run ⟨none, none, none, [true], [], true, false, true, false⟩).status ≠ "partial".data := by
  refine ⟨rfl, rfl, rfl, ?_⟩
  decide

/-- C1 (amended): after a pipeline run, `Pipeline.run` records status
`"failed"` with `error_log = str(e)` exactly when a stage raised (watchlist
load, the analyze-and-save unit of work, or the summary provider context —
all of which precede digest assembly), and records `"success"` with no error
log otherwise, even when per-item analyses, per-ticker summaries or delivery
channels failed; the status `"partial"` is never recorded. -/
theorem pipeline_run_status_rule (env : RunEnv) :
    ((pipeline_run env).status =
      match stageError env with
      | some _ => "failed".data
      | none => "success".data) ∧
    (pipeline_run env).error_log = stageError env ∧
    (pipeline_run env).status ≠ "partial".data := by
  rcases env with ⟨le, ae, se, pif, pts, nen, men, nf, mf⟩
  cases le <;> cases ae <;> cases se <;>
    simp only [pipeline_run, stageError] <;>
    refine ⟨by first | rfl | trivial, by first | rfl | trivial, by decide⟩

/-! ### C4 — backoff formula -/

/-- C4, claim as stated is false on the code: the claim places the 60-second
cap inside the `max`, so a `Retry-After` of 120 s would be slept in full;
`_calculate_backoff` applies `min(..., 60)` after the `max`, returning 60.
At `attempt = 0`, `jitter = 1`, `retry_after = 120` the code returns 60 while
the claimed formula gives 120. -/
theorem calculate_backoff_cap_counterexample :
    calculate_backoff 0 (some 120) 1 = 60 ∧
    claimedBackoffWithRetryAfter 0 120 1 = 120 ∧
    (60 : ℚ) ≠ 120 := by
  refine ⟨?_, ?_, by norm_num⟩
  · unfold calculate_backoff
    norm_num
  · unfold claimedBackoffWithRetryAfter
    norm_num

/-- C4 (amended): for every attempt `a` and jitter draw `j ∈ [0.75, 1.25]`,
the wait before retrying equals `min(2^a × j, 60)` when no `Retry-After` was
given, and `min(max(2^a × j, retry_after), 60)` when one was — the
`Retry-After` floor is applied before the 60-second cap, so the sleep is at
least `retry_after` only when `retry_after ≤ 60`. -/
theorem calculate_backoff_formula (a : ℕ) (ra j : ℚ)
    (hj1 : (3 : ℚ)/4 ≤ j) (hj2 : j ≤ (5 : ℚ)/4) :
    calculate_backoff a (some ra) j = min (max ((2 : ℚ) ^ a * j) ra) 60 ∧
    calculate_backoff a none j = min ((2 : ℚ) ^ a * j) 60 := by
  constructor
  · unfold calculate_backoff
    by_cases h : ra = 0
    · rw [h]
      simp only [ne_eq, not_true_eq_false, if_false]
      have hw : (0 : ℚ) ≤ (2 : ℚ) ^ a * j := by positivity
      rw [max_eq_left hw]
    · simp only [ne_eq, h, not_false_eq_true, if_true]
  · rfl

/-- Witness for `calculate_backoff_formula` at `a = 1`, `ra = 2`, `j = 1`. -/
theorem calculate_backoff_formula_witness :
    ((3 : ℚ)/4 ≤ 1 ∧ (1 : ℚ) ≤ (5 : ℚ)/4) ∧
    (calculate_backoff 1 (some 2) 1 = min (max ((2 : ℚ) ^ 1 * 1) 2) 60 ∧
     calculate_backoff 1 none 1 = min ((2 : ℚ) ^ 1 * 1) 60) :=
  ⟨⟨by norm_num, by norm_num⟩, calculate_backoff_formula 1 2 1 (by norm_num) (by norm_num)⟩

/-! ### C2 — behavior of `execute` on retry exhaustion -/

theorem executeLoop_exhausts {α : Type} (api : List Char) (maxR : ℕ)
    (outcomes : ℕ → ApiOutcome α) (f : ℕ) :
    ∀ attempt lastErr, attempt + (f + 1) = maxR + 1 →
      (∀ i, attempt ≤ i → i < maxR → retryableOutcome (outcomes i)) →
      executeLoop api maxR outcomes attempt (f + 1) lastErr =
        (match outcomes maxR with
         | .success v => .ok v
         | .httpError s ra =>
             if s = 429 then .raised (.rateLimitError api ra)
             else .raised (.httpStatusError s ra)
         | .connectError => .raised .connectError
         | .timeoutError => .raised .timeoutError) := by
  induction f with
  | zero =>
      intro attempt lastErr hsum _
      have ha : attempt = maxR := by omega
      subst ha
      unfold executeLoop
      cases houtcome : outcomes attempt with
      | success v => simp [houtcome]
      | httpError s ra =>
          simp only [houtcome]
          by_cases hs : s = 429
          · simp [hs, lt_irrefl]
          · by_cases h5 : s = 500 ∨ s = 502 ∨ s = 503 ∨ s = 504
            · simp [hs, h5, lt_irrefl]
            · simp [hs, h5]
      | connectError => simp [houtcome, lt_irrefl]
      | timeoutError => simp [houtcome, lt_irrefl]
  | succ f ih =>
      intro attempt lastErr hsum hr
      have halt : attempt < maxR := by omega
      have hretry : retryableOutcome (outcomes attempt) :=
        hr attempt le_rfl halt
      unfold executeLoop
      cases houtcome : outcomes attempt with
      | success v =>
          rw [houtcome] at hretry
          exact absurd hretry not_false
      | httpError s ra =>
          rw [houtcome] at hretry
          simp only [houtcome]
          by_cases hs : s = 429
          · simp only [hs, if_true, halt, if_pos]
            exact ih (attempt + 1) _ (by omega) (fun i hi1 hi2 => hr i (by omega) hi2)
          · have h5 : s = 500 ∨ s = 502 ∨ s = 503 ∨ s = 504 := by
              unfold retryableOutcome at hretry
              rcases hretry with h | h
              · exact absurd h hs
              · exact h
            simp only [hs, if_false, h5, if_true, halt, if_pos]
            exact ih (attempt + 1) _ (by omega) (fun i hi1 hi2 => hr i (by omega) hi2)
      | connectError =>
          simp only [houtcome, halt, if_pos]
          exact ih (attempt + 1) _ (by omega) (fun i hi1 hi2 => hr i (by omega) hi2)
      | timeoutError =>
          simp only [houtcome, halt, if_pos]
          exact ih (attempt + 1) _ (by omega) (fun i hi1 hi2 => hr i (by omega) hi2)

/-- C2, claim as stated is false on the code: when `execute` exhausts
`max_retries = 3` on a transient network error (a retryable failure class),
it re-raises the underlying `httpx.ConnectError` (`raise` at
rate_limiter.py:184) rather than a `RateLimitError`; only the 429 branch
raises `RateLimitError`. -/
theorem execute_network_exhaustion_counterexample :
    execute "finnhub".data 3 (fun _ => (ApiOutcome.connectError : ApiOutcome Unit)) =
      ExecResult.raised PyError.connectError ∧
    PyError.connectError.isRateLimit = false := ⟨rfl, rfl⟩

/-- C2 (amended): when every attempt before exhaustion hit a retryable
failure, the error `execute` finally raises depends on the failure observed
at the last attempt: a final HTTP 429 raises `RateLimitError` carrying that
response's parsed `Retry-After`; a final 500/502/503/504 re-raises the
`HTTPStatusError` itself; a final network or timeout error re-raises that
error.  (Only the 429 path produces `RateLimitError`.) -/
theorem execute_exhaustion_behavior {α : Type} (api : List Char) (maxR : ℕ)
    (outcomes : ℕ → ApiOutcome α)
    (hr : ∀ i, i < maxR → retryableOutcome (outcomes i)) :
    (∀ ra, outcomes maxR = .httpError 429 ra →
       execute api maxR outcomes = .raised (.rateLimitError api ra)) ∧
    (outcomes maxR = .connectError →
       execute api maxR outcomes = .raised .connectError) ∧
    (outcomes maxR = .timeoutError →
       execute api maxR outcomes = .raised .timeoutError) ∧
    (∀ s ra, (s = 500 ∨ s = 502 ∨ s = 503 ∨ s = 504) →
       outcomes maxR = .httpError s ra →
       execute api maxR outcomes = .raised (.httpStatusError s ra)) := by
  have hbase := executeLoop_exhausts api maxR outcomes maxR 0 none
    (by omega) (fun i _ hi2 => hr i hi2)
  unfold execute
  refine ⟨?_, ?_, ?_, ?_⟩
  · intro ra h429
    rw [hbase, h429]
    simp
  · intro hconn
    rw [hbase, hconn]
  · intro htime
    rw [hbase, htime]
  · intro s ra h5 hout
    have hs : ¬ s = 429 := by rcases h5 with h | h | h | h <;> omega
    rw [hbase, hout]
    simp [hs]

/-- Witness for `execute_exhaustion_behavior` at `maxR = 1` with a network
error at attempt 0 and a final 429 carrying `Retry-After: 7`. -/
theorem execute_exhaustion_behavior_witness :
    (∀ i, i < 1 →
       retryableOutcome ((fun a => if a = 0 then ApiOutcome.connectError
         else ApiOutcome.httpError 429 (some 7) : ℕ → ApiOutcome Unit) i)) ∧
    ((fun a => if a = 0 then ApiOutcome.connectError
        else ApiOutcome.httpError 429 (some 7) : ℕ → ApiOutcome Unit) 1 =
          ApiOutcome.httpError 429 (some 7) →
      execute "finnhub".data 1
        (fun a => if a = 0 then ApiOutcome.connectError
          else ApiOutcome.httpError 429 (some 7) : ℕ → ApiOutcome Unit) =
        ExecResult.raised (PyError.rateLimitError "finnhub".data (some 7))) := by
  have hr : ∀ i, i < 1 →
      retryableOutcome ((fun a => if a = 0 then ApiOutcome.connectError
        else ApiOutcome.httpError 429 (some 7) : ℕ → ApiOutcome Unit) i) := by
    intro i hi
    have : i = 0 := by omega
    subst this
    simp [retryableOutcome]
  exact ⟨hr, fun h =>
    (execute_exhaustion_behavior "finnhub".data 1 _ hr).1 (some 7) h⟩

/-! ### C10 — length caps never fail validation -/

theorem validate_summary_length (v : List Char) : (validate_summary v).length ≤ 100 := by
  unfold validate_summary
  split
  · simp
  · calc (v.take 100).length ≤ 100 := by rw [List.length_take]; omega

theorem validate_confidence_reason_length (v : List Char) :
    (validate_confidence_reason v).length ≤ 100 := by
  unfold validate_confidence_reason
  split
  · simp
  · calc (v.take 100).length ≤ 100 := by rw [List.length_take]; omega

theorem validate_watch_next_length (v : Option (List Char)) :
    (validate_watch_next v).length ≤ 50 := by
  unfold validate_watch_next
  split
  · simp
  · split
    · simp
    · rename_i w heq
      calc (w.take 50).length ≤ 50 := by rw [List.length_take]; omega

theorem validate_key_facts_length (v : Option (List (List Char))) :
    (validate_key_facts v).length ≤ 3 := by
  unfold validate_key_facts
  split
  · simp
  · rename_i w heq
    rw [List.length_map, List.length_take]
    omega

/-- C10, counterexample to the claim as written: a decoded object whose
five enum fields all hold valid values can still fail validation and enter
the repair path — `summary` is a required field with no default
(schemas.py:23), so a record lacking it raises a missing-field
`ValidationError` (before-validators do not run for absent fields), a
failure category outside the claim's three. -/
theorem validation_missing_field_counterexample :
    enumsValid missingSummaryRecord ∧
    missingSummaryRecord.summary = none ∧
    parse_and_validate (.record missingSummaryRecord) = .error .schemaViolation :=
  ⟨by decide, rfl, rfl⟩

theorem model_validate_ok_of_valid (r : RawAnalysisRecord)
    (he : enumsValid r) (ht : textFieldsPresent r) :
    ∃ out, model_validate r = .ok out := by
  obtain ⟨h1, h2, h3, h4, h5⟩ := he
  obtain ⟨h6, h7⟩ := ht
  obtain ⟨oet, oid, oih, otr, ocf, ocr, osm, okf, own⟩ := r
  cases oet with
  | none => simp [enumOkB] at h1
  | some et =>
  cases oid with
  | none => simp [enumOkB] at h2
  | some idir =>
  cases oih with
  | none => simp [enumOkB] at h3
  | some ihz =>
  cases otr with
  | none => simp [enumOkB] at h4
  | some tr =>
  cases ocf with
  | none => simp [enumOkB] at h5
  | some cf =>
  cases ocr with
  | none => simp at h6
  | some cr =>
  cases osm with
  | none => simp at h7
  | some sm =>
  simp only [enumOkB, decide_eq_true_eq] at h1 h2 h3 h4 h5
  exact ⟨_, by
    unfold model_validate
    dsimp only
    rw [if_pos ⟨h1, h2, h3, h4, h5⟩,
      if_pos ⟨validate_confidence_reason_length _, validate_summary_length _,
        validate_key_facts_length _, validate_watch_next_length _⟩]⟩

/-- C10 (amended): the before-validators truncate `summary` and
`confidence_reason` to 100 characters, `watch_next` to 50 and `key_facts`
to its first three entries (each cut to 200 characters) before the
`max_length` constraints are checked, so a decoded object whose required
fields are all present and whose enum fields hold valid values always
validates, regardless of how long those fields are — over-long strings never
cause validation failure.  The repair and fallback paths are however entered
for one more category than the claim lists: `_parse_and_validate` fails
exactly for unparsable JSON, provider error objects, invalid (or missing)
enum values, or a missing required text field (`summary` or
`confidence_reason`, which have no defaults). -/
theorem length_caps_never_fail_validation :
    (∀ (et idir ihz tr cf cr sm : List Char) (kf : Option (List (List Char)))
       (wn : Option (List Char)),
       et ∈ eventTypes → idir ∈ impactDirections → ihz ∈ impactHorizons →
       tr ∈ thesisRelations → cf ∈ confidences →
       parse_and_validate (.record ⟨some et, some idir, some ihz, some tr,
           some cf, some cr, some sm, kf, wn⟩) =
         .ok ⟨et, idir, ihz, tr, cf, validate_confidence_reason cr,
           validate_summary sm, validate_key_facts kf, validate_watch_next wn⟩) ∧
    (∀ inp : ParsedJson, (∃ e, parse_and_validate inp = .error e) →
       inp = .invalidJson ∨ (∃ m, inp = .errorObject m) ∨
       ∃ r, inp = .record r ∧ ¬ (enumsValid r ∧ textFieldsPresent r)) := by
  constructor
  · intro et idir ihz tr cf cr sm kf wn h1 h2 h3 h4 h5
    have hstep : parse_and_validate (.record ⟨some et, some idir, some ihz,
        some tr, some cf, some cr, some sm, kf, wn⟩) =
        model_validate ⟨some et, some idir, some ihz, some tr, some cf,
          some cr, some sm, kf, wn⟩ := rfl
    rw [hstep]
    unfold model_validate
    dsimp only
    rw [if_pos ⟨h1, h2, h3, h4, h5⟩,
      if_pos ⟨validate_confidence_reason_length _, validate_summary_length _,
        validate_key_facts_length _, validate_watch_next_length _⟩]
  · intro inp he
    cases inp with
    | invalidJson => exact Or.inl rfl
    | errorObject m => exact Or.inr (Or.inl ⟨m, rfl⟩)
    | record r =>
        refine Or.inr (Or.inr ⟨r, rfl, ?_⟩)
        intro hand
        obtain ⟨out, hout⟩ := model_validate_ok_of_valid r hand.1 hand.2
        obtain ⟨e, heq⟩ := he
        have hstep : parse_and_validate (.record r) = model_validate r := rfl
        rw [hstep, hout] at heq
        exact Except.noConfusion heq

/-- Witness for `length_caps_never_fail_validation` at a record whose four
capped fields all exceed their caps but whose enums are valid and whose
required fields are present. -/
theorem length_caps_never_fail_validation_witness :
    ("earnings".data ∈ eventTypes ∧ "bullish".data ∈ impactDirections ∧
      "short".data ∈ impactHorizons ∧ "supports".data ∈ thesisRelations ∧
      "high".data ∈ confidences) ∧
    parse_and_validate (.record overlongRecord) =
      .ok ⟨"earnings".data, "bullish".data, "short".data, "supports".data,
        "high".data,
        validate_confidence_reason (List.replicate 150 'x'),
        validate_summary (List.replicate 250 'y'),
        validate_key_facts (some [List.replicate 300 'z', List.replicate 5 'a',
          List.replicate 201 'b', List.replicate 7 'c']),
        validate_watch_next (some (List.replicate 80 'w'))⟩ :=
  ⟨by decide,
   length_caps_never_fail_validation.1 "earnings".data "bullish".data
     "short".data "supports".data "high".data (List.replicate 150 'x')
     (List.replicate 250 'y')
     (some [List.replicate 300 'z', List.replicate 5 'a',
       List.replicate 201 'b', List.replicate 7 'c'])
     (some (List.replicate 80 'w'))
     (by decide) (by decide) (by decide) (by decide) (by decide)⟩

/-! ### C5 — deterministic fallback record -/

/-- C5, claim as stated is false on the code for a news item with an empty
title: `_fallback_result` sets `summary = "No summary"` when the title is
falsy (`news.title[:100] if news.title else "No summary"`), while the claim
requires `truncate(news.title, 100)`, which is the empty string. -/
theorem fallback_summary_empty_title_counterexample :
    analyze emptyTitleNews (.ok .invalidJson 3 0) (.ok .invalidJson 4 0) =
      .ok (fallback_result emptyTitleNews) 7 0 ∧
    (fallback_result emptyTitleNews).summary = "No summary".data ∧
    emptyTitleNews.title.take 100 = [] ∧
    "No summary".data ≠ ([] : List Char) := by
  refine ⟨?_, rfl, rfl, by decide⟩
  simp [analyze, parse_and_validate]

/-- C5 (amended): when both the first call's output and the one-shot repair
call's output fail schema validation, `analyze` returns the deterministic
fallback record — `event_type=other`, `impact_direction=neutral`,
`impact_horizon=short`, `thesis_relation=unrelated`, `confidence=low`,
`confidence_reason="Analysis failed, using fallback"`, `key_facts=[]`,
`watch_next=""`, and `summary` the news title truncated to 100 characters
when the title is nonempty and the string `"No summary"` when it is empty —
with tokens and cost summed over both calls. -/
theorem analyze_fallback_on_double_validation_failure (news : NewsItemCreate)
    (raw1 raw2 : ParsedJson) (t1 t2 : ℕ) (c1 c2 : ℚ)
    (h1 : ∃ e, parse_and_validate raw1 = .error e)
    (h2 : ∃ e, parse_and_validate raw2 = .error e) :
    analyze news (.ok raw1 t1 c1) (.ok raw2 t2 c2) =
      .ok (fallback_result news) (t1 + t2) (c1 + c2) ∧
    fallback_result news =
      { event_type := "other".data
        impact_direction := "neutral".data
        impact_horizon := "short".data
        thesis_relation := "unrelated".data
        confidence := "low".data
        confidence_reason := "Analysis failed, using fallback".data
        summary := if news.title ≠ [] then news.title.take 100 else "No summary".data
        key_facts := []
        watch_next := [] } := by
  obtain ⟨e1, he1⟩ := h1
  obtain ⟨e2, he2⟩ := h2
  refine ⟨?_, rfl⟩
  simp [analyze, he1, he2]

/-- Witness for `analyze_fallback_on_double_validation_failure` at a news
item with a nonempty title and two unparsable responses. -/
theorem analyze_fallback_witness :
    (∃ e, parse_and_validate .invalidJson = .error e) ∧
    (analyze nvidiaNews (.ok .invalidJson 3 1) (.ok .invalidJson 4 2) =
      .ok (fallback_result nvidiaNews) (3 + 4) (1 + 2) ∧
     fallback_result nvidiaNews =
      { event_type := "other".data
        impact_direction := "neutral".data
        impact_horizon := "short".data
        thesis_relation := "unrelated".data
        confidence := "low".data
        confidence_reason := "Analysis failed, using fallback".data
        summary := if nvidiaNews.title ≠ [] then nvidiaNews.title.take 100
          else "No summary".data
        key_facts := []
        watch_next := [] }) :=
  ⟨⟨.jsonInvalid, rfl⟩,
   analyze_fallback_on_double_validation_failure nvidiaNews .invalidJson .invalidJson 3 4 1 2
     ⟨.jsonInvalid, rfl⟩ ⟨.jsonInvalid, rfl⟩⟩

/-! ### C7 — dedup non-inflation and order preservation -/

theorem dedupStep_fst (key : List Char) (item : RawNewsData)
    (seen : List (List Char × RawNewsData))
    (dups : List (List Char × List (List Char))) :
    (dedupStep key item seen dups).1 = seen ∨
    (dedupStep key item seen dups).1 = seen ++ [(key, item)] := by
  unfold dedupStep
  cases seen.find? (fun p => p.1 == key) with
  | none => exact Or.inr rfl
  | some p =>
      by_cases hd : dups.any (fun d => d.1 == key) = true
      · left
        simp [hd]
      · left
        simp [hd]

theorem dedupLoop_cons (keyOf : RawNewsData → List Char) (item : RawNewsData)
    (rest : List RawNewsData) (seen : List (List Char × RawNewsData))
    (dups : List (List Char × List (List Char))) :
    dedupLoop keyOf (item :: rest) seen dups =
      dedupLoop keyOf rest (dedupStep (keyOf item) item seen dups).1
        (dedupStep (keyOf item) item seen dups).2 := rfl

theorem dedupLoop_values (keyOf : RawNewsData → List Char) :
    ∀ (items : List RawNewsData) seen dups,
      ∃ ext, (dedupLoop keyOf items seen dups).1.map (fun p => p.2) =
          seen.map (fun p => p.2) ++ ext ∧ ext.Sublist items := by
  intro items
  induction items with
  | nil =>
      intro seen dups
      exact ⟨[], by simp [dedupLoop], List.nil_sublist _⟩
  | cons item rest ih =>
      intro seen dups
      rw [dedupLoop_cons]
      rcases dedupStep_fst (keyOf item) item seen dups with h | h
      · rw [h]
        obtain ⟨ext, heq, hsub⟩ :=
          ih seen (dedupStep (keyOf item) item seen dups).2
        exact ⟨ext, heq, hsub.cons item⟩
      · rw [h]
        obtain ⟨ext, heq, hsub⟩ :=
          ih (seen ++ [(keyOf item, item)]) (dedupStep (keyOf item) item seen dups).2
        refine ⟨item :: ext, ?_, hsub.cons₂ item⟩
        rw [heq]
        simp

theorem url_dedup_sublist (items : List RawNewsData) :
    (url_dedup items).1.Sublist items := by
  unfold url_dedup
  obtain ⟨ext, heq, hsub⟩ :=
    dedupLoop_values (fun it => canonicalize_url it.url) items [] []
  simpa [heq] using hsub

theorem hash_dedup_sublist (items : List RawNewsData) :
    (hash_dedup items).1.Sublist items := by
  unfold hash_dedup
  obtain ⟨ext, heq, hsub⟩ := dedupLoop_values compute_content_hash items [] []
  simpa [heq] using hsub

theorem simLoop_kept_sublist (θ : ℚ) :
    ∀ (indexed : List (ℕ × RawNewsData × ℕ)) removed,
      (simLoop θ indexed removed).1.Sublist (indexed.map (fun t => t.2.1)) := by
  intro indexed
  induction indexed with
  | nil => intro removed; simp [simLoop]
  | cons t rest ih =>
      intro removed
      obtain ⟨i, item, h⟩ := t
      unfold simLoop
      by_cases hrem : i ∈ removed
      · simp only [hrem, if_true]
        exact (ih removed).cons item
      · simp only [hrem, if_false]
        exact (ih _).cons₂ item

theorem simhash_hashes_fst_sublist (simf : List Char → ℕ) :
    ∀ items : List RawNewsData,
      ((items.filterMap fun it =>
          let t := normalize_title it.title
          if t ≠ [] then some (it, simf t) else none).map
        (fun p => p.1)).Sublist items := by
  intro items
  induction items with
  | nil => simp
  | cons item rest ih =>
      by_cases hne : normalize_title item.title ≠ []
      · simp only [List.filterMap_cons, ne_eq, hne, not_false_eq_true, ite_true,
          List.map_cons]
        exact List.Sublist.cons₂ item ih
      · simp only [ne_eq, not_not] at hne
        simp only [List.filterMap_cons, ne_eq, hne, not_true_eq_false, ite_false]
        exact ih.cons item

theorem simhash_dedup_sublist (simf : List Char → ℕ) (θ : ℚ)
    (items : List RawNewsData) :
    (simhash_dedup simf θ items).1.Sublist items := by
  unfold simhash_dedup
  have h1 := simLoop_kept_sublist θ
    ((items.filterMap fun it =>
        let t := normalize_title it.title
        if t ≠ [] then some (it, simf t) else none).enum) []
  have h2 : ((items.filterMap fun it =>
      let t := normalize_title it.title
      if t ≠ [] then some (it, simf t) else none).enum.map (fun t => t.2.1)) =
      ((items.filterMap fun it =>
        let t := normalize_title it.title
        if t ≠ [] then some (it, simf t) else none).map (fun p => p.1)) := by
    rw [show (fun t : ℕ × RawNewsData × ℕ => t.2.1) =
      (fun p : RawNewsData × ℕ => p.1) ∘ Prod.snd from rfl]
    rw [← List.map_map, List.enum_map_snd]
  rw [h2] at h1
  exact h1.trans (simhash_hashes_fst_sublist simf items)

theorem similarity_dedup_sublist (simf : List Char → ℕ) (θ : ℚ)
    (items : List RawNewsData) :
    (similarity_dedup simf θ items).1.Sublist items := by
  unfold similarity_dedup
  by_cases h : items.length ≤ 1
  · simp [h]
  · simp only [h, if_false]
    exact simhash_dedup_sublist simf θ items

theorem dedupStep_fst_some (key : List Char) (item : RawNewsData)
    (seen : List (List Char × RawNewsData))
    (dups : List (List Char × List (List Char)))
    (p : List Char × RawNewsData)
    (h : seen.find? (fun q => q.1 == key) = some p) :
    (dedupStep key item seen dups).1 = seen := by
  unfold dedupStep
  simp only [h]
  split <;> rfl

theorem dedupStep_fst_none (key : List Char) (item : RawNewsData)
    (seen : List (List Char × RawNewsData))
    (dups : List (List Char × List (List Char)))
    (h : seen.find? (fun q => q.1 == key) = none) :
    (dedupStep key item seen dups).1 = seen ++ [(key, item)] := by
  unfold dedupStep
  simp only [h]

theorem dedupLoop_firstOccurrences (keyOf : RawNewsData → List Char) :
    ∀ (items : List RawNewsData) (seen : List (List Char × RawNewsData))
      (dups : List (List Char × List (List Char))),
      ((dedupLoop keyOf items seen dups).1).map (fun p => p.2) =
        seen.map (fun p => p.2) ++
          firstOccurrences keyOf items (seen.map (fun p => p.1)) := by
  intro items
  induction items with
  | nil => intro seen dups; simp [dedupLoop, firstOccurrences]
  | cons item rest ih =>
      intro seen dups
      rw [dedupLoop_cons]
      cases hfind : seen.find? (fun q => q.1 == keyOf item) with
      | some p =>
          have hkey : keyOf item ∈ seen.map (fun q => q.1) := by
            have hmem := List.mem_of_find?_eq_some hfind
            have hpred := List.find?_some hfind
            have hpk : p.1 = keyOf item := by simpa using hpred
            exact hpk ▸ List.mem_map_of_mem _ hmem
          rw [dedupStep_fst_some _ _ _ _ p hfind, ih seen _,
            firstOccurrences, if_pos hkey]
      | none =>
          have hkey : ¬ keyOf item ∈ seen.map (fun q => q.1) := by
            intro hmem
            obtain ⟨q, hq, hqk⟩ := List.mem_map.1 hmem
            have hnone := List.find?_eq_none.1 hfind q hq
            exact hnone (by simpa using hqk)
          rw [dedupStep_fst_none _ _ _ _ hfind, ih _ _,
            firstOccurrences, if_neg hkey, List.map_append, List.map_append,
            List.append_assoc]
          rfl

theorem url_dedup_firstOccurrences (items : List RawNewsData) :
    (url_dedup items).1 =
      firstOccurrences (fun it => canonicalize_url it.url) items [] := by
  unfold url_dedup
  have h := dedupLoop_firstOccurrences (fun it => canonicalize_url it.url)
    items [] []
  simpa using h

theorem hash_dedup_firstOccurrences (items : List RawNewsData) :
    (hash_dedup items).1 = firstOccurrences compute_content_hash items [] := by
  unfold hash_dedup
  have h := dedupLoop_firstOccurrences compute_content_hash items [] []
  simpa using h

theorem simhash_dedup_mem_titles (simf : List Char → ℕ) (θ : ℚ)
    (l : List RawNewsData) :
    ∀ x ∈ (simhash_dedup simf θ l).1, normalize_title x.title ≠ [] := by
  intro x hx
  unfold simhash_dedup at hx
  have h1 := simLoop_kept_sublist θ
    ((l.filterMap fun it =>
        let t := normalize_title it.title
        if t ≠ [] then some (it, simf t) else none).enum) []
  have h2 : ((l.filterMap fun it =>
      let t := normalize_title it.title
      if t ≠ [] then some (it, simf t) else none).enum.map (fun t => t.2.1)) =
      ((l.filterMap fun it =>
        let t := normalize_title it.title
        if t ≠ [] then some (it, simf t) else none).map (fun p => p.1)) := by
    rw [show (fun t : ℕ × RawNewsData × ℕ => t.2.1) =
      (fun p : RawNewsData × ℕ => p.1) ∘ Prod.snd from rfl]
    rw [← List.map_map, List.enum_map_snd]
  rw [h2] at h1
  have hx2 := h1.subset hx
  obtain ⟨pair, hpair, hfst⟩ := List.mem_map.1 hx2
  obtain ⟨it, _, hit⟩ := List.mem_filterMap.1 hpair
  dsimp only at hit
  by_cases ht : normalize_title it.title ≠ []
  · rw [if_pos ht] at hit
    have hpx : pair = (it, simf (normalize_title it.title)) :=
      (Option.some.inj hit).symm
    rw [← hfst, hpx]
    exact ht
  · rw [if_neg ht] at hit
    exact absurd hit (by simp)

theorem deduplicate_kept_titles (simf : List Char → ℕ) (θ : ℚ)
    (items : List RawNewsData)
    (hlen : 1 < (hash_dedup (url_dedup items).1).1.length) :
    ∀ x ∈ (deduplicate simf θ items).kept_items, normalize_title x.title ≠ [] := by
  intro x hx
  have hne : items ≠ [] := by
    intro h
    rw [h] at hlen
    exact absurd hlen (by decide)
  unfold deduplicate at hx
  rw [if_neg hne] at hx
  dsimp only at hx
  unfold similarity_dedup at hx
  rw [if_neg (by omega)] at hx
  exact simhash_dedup_mem_titles simf θ _ x hx

/-- Size identity and order preservation of `deduplicate`: the kept items
plus the removed count equal the input size, and the kept items form a
subsequence of the input. -/
theorem deduplicate_non_inflation (simf : List Char → ℕ) (θ : ℚ)
    (items : List RawNewsData) :
    ((deduplicate simf θ items).kept_items.length : ℤ) +
        (deduplicate simf θ items).removed_count = (items.length : ℤ) ∧
    (deduplicate simf θ items).kept_items.Sublist items := by
  unfold deduplicate
  by_cases h : items = []
  · subst h
    simp
  · rw [if_neg h]
    constructor
    · simp only
      ring
    · simp only
      exact ((similarity_dedup_sublist simf θ _).trans
        (hash_dedup_sublist _)).trans (url_dedup_sublist items)

/-- C7, counterexample to the claim as written: a canonical-URL group need
not be represented by its first occurrence (or by any member at all) in the
kept items.  The two same-URL items are merged by the URL stage with the
first as surviving representative, but `_simhash_dedup`
(deduplicator.py:183-185) silently drops every item whose normalized title
is empty, so the group's representative is removed and only the unrelated
third item survives. -/
theorem deduplicate_first_occurrence_counterexample :
    canonicalize_url punctItemA.url = canonicalize_url punctItemB.url ∧
    normalize_title punctItemA.title = [] ∧
    (deduplicate (fun _ => 0) ((17 : ℚ)/20)
      [punctItemA, punctItemB, plainItemC]).kept_items = [plainItemC] ∧
    punctItemA ∉ (deduplicate (fun _ => 0) ((17 : ℚ)/20)
      [punctItemA, punctItemB, plainItemC]).kept_items ∧
    punctItemB ∉ (deduplicate (fun _ => 0) ((17 : ℚ)/20)
      [punctItemA, punctItemB, plainItemC]).kept_items := by
  refine ⟨rfl, rfl, rfl, by decide, by decide⟩

/-- C7 (amended): `deduplicate` never inflates — the kept items plus the
removed count equal the input size — and the kept items form a subsequence
of the input (relative order preserved); the URL stage keeps exactly the
first occurrence of each canonical-URL group and the hash stage keeps
exactly the first occurrence of each content-hash group among the URL-stage
survivors.  The similarity stage, however, first silently drops every
surviving item whose normalized title is empty (when more than one item
reaches it), so a group merged by an earlier stage can end up with no kept
representative at all: when more than one item survives the exact stages,
every finally-kept item has a nonempty normalized title. -/
theorem deduplicate_structure (simf : List Char → ℕ) (θ : ℚ)
    (items : List RawNewsData) :
    (((deduplicate simf θ items).kept_items.length : ℤ) +
        (deduplicate simf θ items).removed_count = (items.length : ℤ) ∧
      (deduplicate simf θ items).kept_items.Sublist items) ∧
    (url_dedup items).1 =
      firstOccurrences (fun it => canonicalize_url it.url) items [] ∧
    (hash_dedup (url_dedup items).1).1 =
      firstOccurrences compute_content_hash (url_dedup items).1 [] ∧
    (1 < (hash_dedup (url_dedup items).1).1.length →
      ∀ x ∈ (deduplicate simf θ items).kept_items,
        normalize_title x.title ≠ []) :=
  ⟨deduplicate_non_inflation simf θ items, url_dedup_firstOccurrences items,
    hash_dedup_firstOccurrences _, deduplicate_kept_titles simf θ items⟩

/-! ### C8 — similarity clusters never merge exact duplicates -/

theorem dedupLoop_seen_invariant (keyOf : RawNewsData → List Char) :
    ∀ (items : List RawNewsData) seen dups,
      (∀ p ∈ seen, keyOf p.2 = p.1) →
      List.Pairwise (fun p q : List Char × RawNewsData => p.1 ≠ q.1) seen →
      (∀ p ∈ (dedupLoop keyOf items seen dups).1, keyOf p.2 = p.1) ∧
      List.Pairwise (fun p q : List Char × RawNewsData => p.1 ≠ q.1)
        (dedupLoop keyOf items seen dups).1 := by
  intro items
  induction items with
  | nil =>
      intro seen dups hkeys hpw
      exact ⟨hkeys, hpw⟩
  | cons item rest ih =>
      intro seen dups hkeys hpw
      rw [dedupLoop_cons]
      cases hfind : seen.find? (fun q => q.1 == keyOf item) with
      | some p =>
          rw [dedupStep_fst_some _ _ _ _ p hfind]
          exact ih seen _ hkeys hpw
      | none =>
          rw [dedupStep_fst_none _ _ _ _ hfind]
          refine ih _ _ ?_ ?_
          · intro p hp
            rcases List.mem_append.mp hp with hp | hp
            · exact hkeys p hp
            · simp at hp
              rw [hp]
          · rw [List.pairwise_append]
            refine ⟨hpw, List.pairwise_singleton _ _, ?_⟩
            intro a ha b hb
            simp at hb
            rw [hb]
            have := List.find?_eq_none.mp hfind a ha
            simpa using this

theorem url_dedup_pairwise (items : List RawNewsData) :
    List.Pairwise
      (fun a b : RawNewsData => canonicalize_url a.url ≠ canonicalize_url b.url)
      (url_dedup items).1 := by
  unfold url_dedup
  obtain ⟨hkeys, hpw⟩ :=
    dedupLoop_seen_invariant (fun it => canonicalize_url it.url) items [] []
      (by simp) (by simp)
  rw [List.pairwise_map]
  exact hpw.imp_of_mem (fun ha hb hne =>
    fun heq => hne (by rw [← hkeys _ ha, ← hkeys _ hb, heq]))

theorem hash_dedup_pairwise (items : List RawNewsData) :
    List.Pairwise
      (fun a b : RawNewsData => compute_content_hash a ≠ compute_content_hash b)
      (hash_dedup items).1 := by
  unfold hash_dedup
  obtain ⟨hkeys, hpw⟩ :=
    dedupLoop_seen_invariant compute_content_hash items [] [] (by simp) (by simp)
  rw [List.pairwise_map]
  exact hpw.imp_of_mem (fun ha hb hne =>
    fun heq => hne (by rw [← hkeys _ ha, ← hkeys _ hb, heq]))

theorem afterExactStages_pairwise (items : List RawNewsData) :
    List.Pairwise
      (fun a b : RawNewsData =>
        canonicalize_url a.url ≠ canonicalize_url b.url ∧
        compute_content_hash a ≠ compute_content_hash b)
      (afterExactStages items) := by
  unfold afterExactStages
  refine List.Pairwise.and ?_ (hash_dedup_pairwise _)
  exact (url_dedup_pairwise items).sublist (hash_dedup_sublist _)

theorem simLoop_clusters (θ : ℚ) (R : RawNewsData → RawNewsData → Prop) :
    ∀ (indexed : List (ℕ × RawNewsData × ℕ)) removed,
      List.Pairwise (fun a b => R a.2.1 b.2.1) indexed →
      ∀ c ∈ (simLoop θ indexed removed).2,
        c.method = "similarity".data ∧
        ∃ x, x ∈ indexed.map (fun t => t.2.1) ∧ c.representative_url = x.url ∧
          ∀ u ∈ c.member_urls,
            ∃ y, y ∈ indexed.map (fun t => t.2.1) ∧ u = y.url ∧ R x y := by
  intro indexed
  induction indexed with
  | nil =>
      intro removed _ c hc
      simp [simLoop] at hc
  | cons t rest ih =>
      intro removed hpw c hc
      obtain ⟨i, item, h⟩ := t
      rw [List.pairwise_cons] at hpw
      obtain ⟨hhead, htail⟩ := hpw
      unfold simLoop at hc
      by_cases hrem : i ∈ removed
      · simp only [hrem, if_true] at hc
        obtain ⟨hm, x, hx, hrep, hmem⟩ := ih removed htail c hc
        exact ⟨hm, x, List.mem_cons_of_mem _ hx, hrep,
          fun u hu =>
            (hmem u hu).elim fun y hy =>
              ⟨y, List.mem_cons_of_mem _ hy.1, hy.2.1, hy.2.2⟩⟩
      · simp only [hrem, if_false] at hc
        rcases List.mem_append.mp hc with hc | hc
        · split at hc
          · rw [List.mem_singleton] at hc
            subst hc
            refine ⟨rfl, item, by simp, rfl, ?_⟩
            intro u hu
            rcases List.mem_map.mp hu with ⟨tt, htt, hut⟩
            have httr : tt ∈ rest := List.mem_of_mem_filter htt
            exact ⟨tt.2.1,
              List.mem_cons_of_mem _ (List.mem_map.mpr ⟨tt, httr, rfl⟩),
              hut.symm, hhead tt httr⟩
          · simp at hc
        · obtain ⟨hm, x, hx, hrep, hmem⟩ := ih _ htail c hc
          exact ⟨hm, x, List.mem_cons_of_mem _ hx, hrep,
            fun u hu =>
              (hmem u hu).elim fun y hy =>
                ⟨y, List.mem_cons_of_mem _ hy.1, hy.2.1, hy.2.2⟩⟩

theorem mkCluster_method (m : List Char) (d : List Char × List (List Char)) :
    (mkCluster m d).method = m := by
  unfold mkCluster
  split <;> rfl

theorem url_dedup_cluster_methods (items : List RawNewsData) :
    ∀ c ∈ (url_dedup items).2, c.method = "url_exact".data := by
  unfold url_dedup
  intro c hc
  rcases List.mem_map.mp hc with ⟨d, -, hd⟩
  rw [← hd]
  exact mkCluster_method _ d

theorem hash_dedup_cluster_methods (items : List RawNewsData) :
    ∀ c ∈ (hash_dedup items).2, c.method = "hash_match".data := by
  unfold hash_dedup
  intro c hc
  rcases List.mem_map.mp hc with ⟨d, -, hd⟩
  rw [← hd]
  exact mkCluster_method _ d

theorem enum_map_snd_fst {β γ : Type} (l : List (β × γ)) :
    l.enum.map (fun t => t.2.1) = l.map (fun p => p.1) := by
  rw [show (fun t : ℕ × β × γ => t.2.1) = (fun p : β × γ => p.1) ∘ Prod.snd from rfl]
  rw [← List.map_map, List.enum_map_snd]

/-- C8: the three deduplication stages run in the fixed order URL
canonicalization, content hash, title similarity, so every cluster with
method `"similarity"` relates items that survived both exact stages: its
representative and each member are (distinct) items of the stage-2 output,
and any such pair differs both in canonical URL and in content hash — exact
duplicates are never reported as similarity clusters. -/
theorem similarity_clusters_never_exact (simf : List Char → ℕ) (θ : ℚ)
    (items : List RawNewsData) :
    ∀ c ∈ (deduplicate simf θ items).clusters, c.method = "similarity".data →
      ∃ x, x ∈ afterExactStages items ∧ c.representative_url = x.url ∧
        ∀ u ∈ c.member_urls, ∃ y, y ∈ afterExactStages items ∧ u = y.url ∧
          canonicalize_url x.url ≠ canonicalize_url y.url ∧
          compute_content_hash x ≠ compute_content_hash y := by
  intro c hc hm
  unfold deduplicate at hc
  by_cases hni : items = []
  · simp [hni] at hc
  · rw [if_neg hni] at hc
    simp only at hc
    rcases List.mem_append.mp hc with hc | hc
    · rcases List.mem_append.mp hc with hc | hc
      · have := url_dedup_cluster_methods items c hc
        rw [this] at hm
        exact absurd hm (by decide)
      · have := hash_dedup_cluster_methods (url_dedup items).1 c hc
        rw [this] at hm
        exact absurd hm (by decide)
    · unfold similarity_dedup at hc
      by_cases hlen : (afterExactStages items).length ≤ 1
      · rw [if_pos (by exact hlen)] at hc
        simp at hc
      · rw [if_neg (by exact hlen)] at hc
        unfold simhash_dedup at hc
        have hsubfm := simhash_hashes_fst_sublist simf (afterExactStages items)
        have hpwL2 := afterExactStages_pairwise items
        have hpw1 := hpwL2.sublist hsubfm
        have hpw2 := List.pairwise_map.mp hpw1
        have hpwE : List.Pairwise
            (fun a b : ℕ × RawNewsData × ℕ =>
              canonicalize_url a.2.1.url ≠ canonicalize_url b.2.1.url ∧
              compute_content_hash a.2.1 ≠ compute_content_hash b.2.1)
            (((afterExactStages items).filterMap fun it =>
              let t := normalize_title it.title
              if t ≠ [] then some (it, simf t) else none).enum) := by
          have := List.pairwise_map.mp
            (by
              rw [List.enum_map_snd]
              exact hpw2 :
              List.Pairwise
                (fun p q : RawNewsData × ℕ =>
                  canonicalize_url p.1.url ≠ canonicalize_url q.1.url ∧
                  compute_content_hash p.1 ≠ compute_content_hash q.1)
                ((((afterExactStages items).filterMap fun it =>
                  let t := normalize_title it.title
                  if t ≠ [] then some (it, simf t) else none).enum).map Prod.snd))
          exact this
        obtain ⟨-, x, hx, hrep, hmem⟩ :=
          simLoop_clusters θ
            (fun a b : RawNewsData =>
              canonicalize_url a.url ≠ canonicalize_url b.url ∧
              compute_content_hash a ≠ compute_content_hash b)
            _ [] hpwE c hc
        rw [enum_map_snd_fst] at hx
        refine ⟨x, hsubfm.subset hx, hrep, ?_⟩
        intro u hu
        obtain ⟨y, hy, huy, hR⟩ := hmem u hu
        rw [enum_map_snd_fst] at hy
        exact ⟨y, hsubfm.subset hy, huy, hR.1, hR.2⟩

theorem simhashSimilarity_zero : simhashSimilarity 0 0 = 1 := by
  unfold simhashSimilarity simhashDistance
  rw [show popcount64 64 (Nat.xor 0 0) = 0 from rfl]
  norm_num

theorem simLoop_eval_witness :
    simLoop ((17 : ℚ)/20) [(0, simItemA, 0), (1, simItemB, 0)] [] =
      ([simItemA], [simCluster0]) := by
  have hsim : ((17 : ℚ)/20 ≤ simhashSimilarity 0 0) := by
    rw [simhashSimilarity_zero]
    norm_num
  simp [simLoop, simCluster0, hsim]
  exact ⟨rfl, rfl⟩

theorem deduplicate_eval_witness :
    (deduplicate (fun _ => 0) ((17 : ℚ)/20) [simItemA, simItemB]).clusters =
      [simCluster0] := by
  have hurl : url_dedup [simItemA, simItemB] = ([simItemA, simItemB], []) := rfl
  have hhash : hash_dedup [simItemA, simItemB] = ([simItemA, simItemB], []) := rfl
  have hsimilarity :
      similarity_dedup (fun _ => 0) ((17 : ℚ)/20) [simItemA, simItemB] =
        ([simItemA], [simCluster0]) := by
    unfold similarity_dedup
    rw [if_neg (by decide)]
    unfold simhash_dedup
    exact simLoop_eval_witness
  simp [deduplicate, hurl, hhash, hsimilarity]

/-- Witness for `similarity_clusters_never_exact` at a concrete two-item
input whose titles collide under a constant SimHash function. -/
theorem similarity_clusters_never_exact_witness :
    (simCluster0 ∈
        (deduplicate (fun _ => 0) ((17 : ℚ)/20) [simItemA, simItemB]).clusters ∧
      simCluster0.method = "similarity".data) ∧
    (∃ x, x ∈ afterExactStages [simItemA, simItemB] ∧
      simCluster0.representative_url = x.url ∧
      ∀ u ∈ simCluster0.member_urls,
        ∃ y, y ∈ afterExactStages [simItemA, simItemB] ∧ u = y.url ∧
          canonicalize_url x.url ≠ canonicalize_url y.url ∧
          compute_content_hash x ≠ compute_content_hash y) := by
  have hmem : simCluster0 ∈
      (deduplicate (fun _ => 0) ((17 : ℚ)/20) [simItemA, simItemB]).clusters := by
    rw [deduplicate_eval_witness]
    exact List.mem_singleton.mpr rfl
  exact ⟨⟨hmem, rfl⟩,
    similarity_clusters_never_exact (fun _ => 0) ((17 : ℚ)/20)
      [simItemA, simItemB] simCluster0 hmem rfl⟩

/-! ### C6 — string splitting and lower-casing lemmas -/

theorem splitFirst_some (sep : Char) :
    ∀ l a b, splitFirst sep l = some (a, b) → l = a ++ sep :: b ∧ sep ∉ a := by
  intro l
  induction l with
  | nil => intro a b h; simp [splitFirst] at h
  | cons c cs ih =>
      intro a b h
      by_cases hc : c = sep
      · rw [splitFirst, if_pos hc] at h
        simp only [Option.some.injEq, Prod.mk.injEq] at h
        obtain ⟨ha, hb⟩ := h
        subst hc; subst hb
        rw [← ha]
        exact ⟨rfl, by simp⟩
      · rw [splitFirst, if_neg hc] at h
        cases hsf : splitFirst sep cs with
        | none => rw [hsf] at h; simp at h
        | some p =>
            obtain ⟨x, y⟩ := p
            rw [hsf] at h
            simp only [Option.some.injEq, Prod.mk.injEq] at h
            obtain ⟨ha, hb⟩ := h
            obtain ⟨hcs, hnx⟩ := ih x y hsf
            subst hb
            rw [← ha, hcs]
            refine ⟨rfl, ?_⟩
            intro hmem
            rcases List.mem_cons.1 hmem with hh | hh
        
            · exact hc hh.symm
            · exact hnx hh

theorem splitFirst_none (sep : Char) :
    ∀ l, splitFirst sep l = none → sep ∉ l := by
  intro l
  induction l with
  | nil => intro _ ; simp
  | cons c cs ih =>
      intro h
      by_cases hc : c = sep
      · rw [splitFirst, if_pos hc] at h; simp at h
      · rw [splitFirst, if_neg hc] at h
        cases hsf : splitFirst sep cs with
        | none =>
            intro hmem
            rcases List.mem_cons.1 hmem with hh | hh
            · exact hc hh.symm
            · exact ih hsf hh
        | some p => obtain ⟨x, y⟩ := p; rw [hsf] at h; simp at h

theorem splitFirst_append (sep : Char) :
    ∀ a b, sep ∉ a → splitFirst sep (a ++ sep :: b) = some (a, b) := by
  intro a
  induction a with
  | nil => intro b _; simp [splitFirst]
  | cons c cs ih =>
      intro b hs
      have hc : ¬ c = sep := fun h => hs (by rw [h]; exact List.mem_cons_self _ _)
      have hcs : sep ∉ cs := fun h => hs (List.mem_cons_of_mem _ h)
      rw [List.cons_append, splitFirst, if_neg hc, ih b hcs]

theorem splitFirst_eq_none (sep : Char) :
    ∀ l, sep ∉ l → splitFirst sep l = none := by
  intro l
  induction l with
  | nil => intro _; rfl
  | cons c cs ih =>
      intro hs
      have hc : ¬ c = sep := fun h => hs (by rw [h]; exact List.mem_cons_self _ _)
      have hcs : sep ∉ cs := fun h => hs (List.mem_cons_of_mem _ h)
      rw [splitFirst, if_neg hc, ih hcs]

theorem pyLowerChar_eq_self (c : Char) (h : ¬ (65 ≤ charNat c ∧ charNat c ≤ 90)) :
    pyLowerChar c = c := by
  unfold pyLowerChar; rw [if_neg h]

theorem charNat_pyLowerChar_of_upper (c : Char) (h : 65 ≤ charNat c ∧ charNat c ≤ 90) :
    charNat (pyLowerChar c) = charNat c + 32 := by
  unfold pyLowerChar
  rw [if_pos h, charNat_ofNat_of_lt _ (by omega)]

theorem pyLowerChar_idem (c : Char) : pyLowerChar (pyLowerChar c) = pyLowerChar c := by
  by_cases h : 65 ≤ charNat c ∧ charNat c ≤ 90
  · exact pyLowerChar_eq_self _ (by rw [charNat_pyLowerChar_of_upper c h]; omega)
  · rw [pyLowerChar_eq_self c h, pyLowerChar_eq_self c h]

theorem lowerStr_idem (l : List Char) : lowerStr (lowerStr l) = lowerStr l := by
  unfold lowerStr
  rw [List.map_map]
  exact List.map_congr_left (fun c _ => pyLowerChar_idem c)

theorem notMem_lowerStr (t : Char) (ht : ¬ (97 ≤ charNat t ∧ charNat t ≤ 122))
    (l : List Char) (h : t ∉ l) : t ∉ lowerStr l := by
  intro hmem
  obtain ⟨c, hc, hceq⟩ := List.mem_map.1 hmem
  by_cases hu : 65 ≤ charNat c ∧ charNat c ≤ 90
  · have hv : charNat t = charNat c + 32 := by
      rw [← hceq, charNat_pyLowerChar_of_upper c hu]
    exact ht (by omega)
  · rw [pyLowerChar_eq_self c hu] at hceq
    exact h (hceq ▸ hc)

theorem mem_lowerStr_ascii (c : Char) (l : List Char)
    (hl : ∀ a ∈ l, charNat a < 128) (h : c ∈ lowerStr l) : charNat c < 128 := by
  obtain ⟨a, ha, haeq⟩ := List.mem_map.1 h
  exact haeq ▸ charNat_pyLowerChar_lt a (hl a ha)

/-! ### C6 — `quote_plus` structure and output alphabet -/

theorem charNat_lt_top (c : Char) : charNat c < 1114112 := by
  rcases c.valid with h | ⟨h1, h2⟩
  · exact Nat.lt_trans h (by norm_num)
  · exact h2

theorem quote_plus_eq_flatMap (s : List Char) :
    quote_plus s = s.flatMap (fun c => ((utf8EncodeChar c).map quoteByte).flatten) := by
  induction s with
  | nil => rfl
  | cons c cs ih =>
      show (((utf8EncodeChar c ++ utf8Encode cs).map quoteByte).flatten) = _
      rw [List.map_append, List.flatten_append, List.flatMap_cons, ← ih]
      rfl

theorem quoteUnit_space (c : Char) (h : charNat c = 32) :
    ((utf8EncodeChar c).map quoteByte).flatten = ['+'] := by
  unfold utf8EncodeChar
  rw [h]
  rfl

theorem char_ofNat_charNat (c : Char) : Char.ofNat (charNat c) = c := Char.ofNat_toNat c

theorem quoteUnit_safe (c : Char) (h : charNat c < 128)
    (hs : alwaysSafeByte (charNat c) = true) :
    ((utf8EncodeChar c).map quoteByte).flatten = [c] := by
  have h32 : ¬ charNat c == 32 := by
    intro hb
    have hb2 : charNat c = 32 := by simpa using hb
    rw [hb2] at hs
    exact absurd hs (by decide)
  unfold utf8EncodeChar
  rw [if_pos h]
  show quoteByte (charNat c) ++ [] = [c]
  unfold quoteByte
  rw [if_neg h32, if_pos hs, char_ofNat_charNat]
  rfl

theorem quoteByte_esc (b : ℕ) (h1 : ¬ b = 32) (h2 : ¬ alwaysSafeByte b = true) :
    quoteByte b = ['%', hexDigitUpper (b / 16), hexDigitUpper (b % 16)] := by
  unfold quoteByte
  rw [if_neg (by simpa using h1), if_neg h2]

theorem utf8EncodeChar_bytes_big (c : Char) (h : 128 ≤ charNat c) :
    ∀ b ∈ utf8EncodeChar c, 128 ≤ b := by
  intro b hb
  unfold utf8EncodeChar at hb
  dsimp only at hb
  split at hb
  · omega
  · split at hb
    · simp at hb; omega
    · split at hb
      · simp at hb; omega
      · simp at hb; omega

theorem utf8EncodeChar_bytes_lt256 (c : Char) : ∀ b ∈ utf8EncodeChar c, b < 256 := by
  intro b hb
  have htop := charNat_lt_top c
  unfold utf8EncodeChar at hb
  dsimp only at hb
  split at hb
  · simp at hb; omega
  · split at hb
    · simp at hb; omega
    · split at hb
      · simp at hb; omega
      · simp at hb; omega

theorem escSeq_of_all_big (bs : List ℕ) (h : ∀ b ∈ bs, 128 ≤ b) :
    (bs.map quoteByte).flatten = escSeq bs := by
  induction bs with
  | nil => rfl
  | cons x xs ih =>
      have hx : 128 ≤ x := h x (List.mem_cons_self _ _)
      have hns : ¬ alwaysSafeByte x = true := by
        intro hs
        unfold alwaysSafeByte at hs
        simp at hs
        omega
      rw [List.map_cons, List.flatten_cons, escSeq, List.flatMap_cons,
        quoteByte_esc x (by omega) hns,
        ih (fun y hy => h y (List.mem_cons_of_mem _ hy))]
      rfl

theorem quoteUnit_esc (c : Char)
    (h : ¬ (charNat c = 32 ∨ (charNat c < 128 ∧ alwaysSafeByte (charNat c) = true))) :
    ((utf8EncodeChar c).map quoteByte).flatten = escSeq (utf8EncodeChar c) := by
  push_neg at h
  obtain ⟨h32, hsafe⟩ := h
  by_cases hlt : charNat c < 128
  · have hs := hsafe hlt
    unfold utf8EncodeChar
    rw [if_pos hlt]
    show quoteByte (charNat c) ++ [] = _
    rw [quoteByte_esc _ h32 (by simpa using hs)]
    rfl
  · exact escSeq_of_all_big _ (utf8EncodeChar_bytes_big c (by omega))

theorem hexDigitUpper_charNat (n : ℕ) (h : n < 16) :
    charNat (hexDigitUpper n) = if n < 10 then 48 + n else 55 + n := by
  unfold hexDigitUpper
  split
  · exact charNat_ofNat_of_lt _ (by omega)
  · exact charNat_ofNat_of_lt _ (by omega)

theorem quoteByte_alphabet (b : ℕ) (hb : b < 256) :
    ∀ c ∈ quoteByte b, alwaysSafeByte (charNat c) = true ∨ charNat c = 43 ∨ charNat c = 37 := by
  intro c hc
  unfold quoteByte at hc
  split at hc
  · simp only [List.mem_singleton] at hc
    subst hc; right; left; rfl
  · split at hc
    · simp only [List.mem_singleton] at hc
      subst hc
      rw [charNat_ofNat_of_lt _ (by omega)]
      left; assumption
    · have hd1 : b / 16 < 16 := by omega
      have hd2 : b % 16 < 16 := by omega
      simp only [List.mem_cons, List.mem_singleton, List.not_mem_nil, or_false] at hc
      rcases hc with hc | hc | hc
      · subst hc; right; right; rfl
      · subst hc
        left
        rw [hexDigitUpper_charNat _ hd1]
        unfold alwaysSafeByte
        split <;> simp <;> omega
      · subst hc
        left
        rw [hexDigitUpper_charNat _ hd2]
        unfold alwaysSafeByte
        split <;> simp <;> omega

theorem mem_utf8Encode_lt256 (s : List Char) : ∀ b ∈ utf8Encode s, b < 256 := by
  intro b hb
  unfold utf8Encode at hb
  obtain ⟨piece, hp, hbp⟩ := List.mem_flatten.1 hb
  obtain ⟨c, _, hcp⟩ := List.mem_map.1 hp
  exact utf8EncodeChar_bytes_lt256 c b (hcp ▸ hbp)

theorem mem_quote_plus_alphabet (s : List Char) (c : Char) (h : c ∈ quote_plus s) :
    alwaysSafeByte (charNat c) = true ∨ charNat c = 43 ∨ charNat c = 37 := by
  unfold quote_plus at h
  obtain ⟨piece, hp, hcp⟩ := List.mem_flatten.1 h
  obtain ⟨b, hb, hbp⟩ := List.mem_map.1 hp
  exact quoteByte_alphabet b (mem_utf8Encode_lt256 s b hb) c (hbp ▸ hcp)

theorem quote_plus_no_char (s : List Char) (t : Char)
    (ht : alwaysSafeByte (charNat t) = false ∧ charNat t ≠ 43 ∧ charNat t ≠ 37) :
    t ∉ quote_plus s := by
  intro hmem
  rcases mem_quote_plus_alphabet s t hmem with h | h | h
  · rw [ht.1] at h; exact absurd h (by decide)
  · exact ht.2.1 h
  · exact ht.2.2 h

theorem quoteByte_ne_nil (b : ℕ) : quoteByte b ≠ [] := by
  unfold quoteByte
  split
  · simp
  · split <;> simp

theorem utf8EncodeChar_ne_nil (c : Char) : utf8EncodeChar c ≠ [] := by
  unfold utf8EncodeChar
  dsimp only
  split <;> [simp; skip]
  split <;> [simp; skip]
  split <;> simp

theorem quote_plus_ne_nil (c : Char) (cs : List Char) : quote_plus (c :: cs) ≠ [] := by
  unfold quote_plus utf8Encode
  intro h
  rw [List.map_cons, List.flatten_cons, List.map_append, List.flatten_append,
    List.append_eq_nil] at h
  cases hbytes : utf8EncodeChar c with
  | nil => exact utf8EncodeChar_ne_nil c hbytes
  | cons b bs =>
      have := h.1
      rw [hbytes, List.map_cons, List.flatten_cons, List.append_eq_nil] at this
      exact quoteByte_ne_nil b this.1

/-! ### C6 — UTF-8 decode is a left inverse of encode -/

theorem char_valid_ranges (c : Char) :
    charNat c < 55296 ∨ (57344 ≤ charNat c ∧ charNat c < 1114112) := c.valid

theorem utf8DecodeReplace_encodeChar (c : Char) (bs : List ℕ) :
    utf8DecodeReplace (utf8EncodeChar c ++ bs) = c :: utf8DecodeReplace bs := by
  have hval := char_valid_ranges c
  unfold utf8EncodeChar
  dsimp only
  by_cases h1 : charNat c < 128
  · rw [if_pos h1]
    show utf8DecodeReplace (charNat c :: bs) = _
    rw [utf8DecodeReplace.eq_def]
    dsimp only
    rw [if_pos h1, char_ofNat_charNat]
  · rw [if_neg h1]
    by_cases h2 : charNat c < 2048
    · rw [if_pos h2]
      show utf8DecodeReplace
          ((192 + charNat c / 64) :: (128 + charNat c % 64) :: bs) = _
      rw [utf8DecodeReplace.eq_def]
      dsimp only
      rw [if_neg (by omega), if_pos (by omega)]
      rw [if_pos (by unfold isCont; simp; omega)]
      have harg : (192 + charNat c / 64 - 192) * 64 + (128 + charNat c % 64 - 128) =
          charNat c := by omega
      rw [harg, char_ofNat_charNat]
    · rw [if_neg h2]
      by_cases h3 : charNat c < 65536
      · rw [if_pos h3]
        show utf8DecodeReplace
            ((224 + charNat c / 4096) :: (128 + charNat c / 64 % 64) ::
              (128 + charNat c % 64) :: bs) = _
        have hv3 : validSecond3 (224 + charNat c / 4096) (128 + charNat c / 64 % 64) =
            true := by
          unfold validSecond3 isCont
          split
          · simp only [Bool.and_eq_true, decide_eq_true_eq]
            omega
          · split
            · simp only [Bool.and_eq_true, decide_eq_true_eq]
              omega
            · simp only [Bool.and_eq_true, decide_eq_true_eq]
              omega
        rw [utf8DecodeReplace.eq_def]
        dsimp only
        rw [if_neg (by omega), if_neg (by omega), if_pos (by omega)]
        rw [if_pos hv3]
        rw [if_pos (by unfold isCont; simp; omega)]
        have harg : (224 + charNat c / 4096 - 224) * 4096 +
            (128 + charNat c / 64 % 64 - 128) * 64 + (128 + charNat c % 64 - 128) =
            charNat c := by omega
        rw [harg, char_ofNat_charNat]
      · rw [if_neg h3]
        have htop := charNat_lt_top c
        show utf8DecodeReplace
            ((240 + charNat c / 262144) :: (128 + charNat c / 4096 % 64) ::
              (128 + charNat c / 64 % 64) :: (128 + charNat c % 64) :: bs) = _
        have hv4 : validSecond4 (240 + charNat c / 262144) (128 + charNat c / 4096 % 64) =
            true := by
          unfold validSecond4 isCont
          split
          · simp only [Bool.and_eq_true, decide_eq_true_eq]
            omega
          · split
            · simp only [Bool.and_eq_true, decide_eq_true_eq]
              omega
            · simp only [Bool.and_eq_true, decide_eq_true_eq]
              omega
        rw [utf8DecodeReplace.eq_def]
        dsimp only
        rw [if_neg (by omega), if_neg (by omega), if_neg (by omega),
          if_pos (by omega)]
        rw [if_pos hv4]
        rw [if_pos (by unfold isCont; simp; omega)]
        rw [if_pos (by unfold isCont; simp; omega)]
        have harg : (240 + charNat c / 262144 - 240) * 262144 +
            (128 + charNat c / 4096 % 64 - 128) * 4096 +
            (128 + charNat c / 64 % 64 - 128) * 64 + (128 + charNat c % 64 - 128) =
            charNat c := by omega
        rw [harg, char_ofNat_charNat]

theorem utf8DecodeReplace_encode (s : List Char) :
    utf8DecodeReplace (utf8Encode s) = s := by
  induction s with
  | nil => rfl
  | cons c cs ih =>
      show utf8DecodeReplace (utf8EncodeChar c ++ utf8Encode cs) = _
      rw [utf8DecodeReplace_encodeChar, ih]

/-! ### C6 — `unquote_plus` is a left inverse of `quote_plus` -/

theorem ne_plus_of_charNat (c : Char) (h : charNat c ≠ 43) : c ≠ '+' := by
  intro hc
  rw [hc] at h
  exact h rfl

theorem plusToSpace_of_ne (c : Char) (h : c ≠ '+') : plusToSpace c = c := if_neg h

theorem escSeq_map_plusToSpace (bs : List ℕ) (h : ∀ b ∈ bs, b < 256) :
    (escSeq bs).map plusToSpace = escSeq bs := by
  induction bs with
  | nil => rfl
  | cons b bs2 ih =>
      have hb := h b (List.mem_cons_self _ _)
      have hstep : escSeq (b :: bs2) =
          ['%', hexDigitUpper (b / 16), hexDigitUpper (b % 16)] ++ escSeq bs2 := rfl
      rw [hstep, List.map_append, ih (fun y hy => h y (List.mem_cons_of_mem _ hy))]
      congr 1
      rw [List.map_cons, List.map_cons, List.map_cons, List.map_nil,
        plusToSpace_of_ne _ (by decide),
        plusToSpace_of_ne _ (ne_plus_of_charNat _ (by
          rw [hexDigitUpper_charNat (b / 16) (by omega)]; split <;> omega)),
        plusToSpace_of_ne _ (ne_plus_of_charNat _ (by
          rw [hexDigitUpper_charNat (b % 16) (by omega)]; split <;> omega))]

theorem map_plusToSpace_quote_plus (s : List Char) :
    (quote_plus s).map plusToSpace = s.flatMap qunit := by
  induction s with
  | nil => rfl
  | cons c cs ih =>
      have hstep : quote_plus (c :: cs) =
          ((utf8EncodeChar c).map quoteByte).flatten ++ quote_plus cs := by
        rw [quote_plus_eq_flatMap, List.flatMap_cons, ← quote_plus_eq_flatMap]
      rw [hstep, List.map_append, ih, List.flatMap_cons]
      congr 1
      unfold qunit
      by_cases h32 : charNat c = 32
      · rw [if_pos h32, quoteUnit_space c h32]
        rfl
      · rw [if_neg h32]
        by_cases hsafe : charNat c < 128 ∧ alwaysSafeByte (charNat c) = true
        · rw [if_pos hsafe, quoteUnit_safe c hsafe.1 hsafe.2, List.map_cons, List.map_nil,
            plusToSpace_of_ne c (ne_plus_of_charNat c (by
              intro h43
              have := hsafe.2
              rw [h43] at this
              exact absurd this (by decide)))]
        · rw [if_neg hsafe, quoteUnit_esc c (by
            intro hor
            rcases hor with hor | hor
            · exact h32 hor
            · exact hsafe hor),
            escSeq_map_plusToSpace _ (utf8EncodeChar_bytes_lt256 c)]

theorem isHexDigit_hexDigitUpper (n : ℕ) (h : n < 16) :
    isHexDigitChar (hexDigitUpper n) = true := by
  unfold isHexDigitChar
  rw [hexDigitUpper_charNat n h]
  split <;> (simp; omega)

theorem hexVal_hexDigitUpper (n : ℕ) (h : n < 16) : hexVal (hexDigitUpper n) = n := by
  unfold hexVal
  rw [hexDigitUpper_charNat n h]
  split
  · split <;> omega
  · split <;> (try split) <;> omega

theorem pctTokens_cons_pct (a b : Char) (rest : List Char)
    (ha : isHexDigitChar a = true) (hb : isHexDigitChar b = true) :
    pctTokens ('%' :: a :: b :: rest) =
      Sum.inr (hexVal a * 16 + hexVal b) :: pctTokens rest := by
  rw [pctTokens]
  rw [if_pos (by rw [ha, hb]; rfl)]

theorem pctTokens_escSeq (bs : List ℕ) (h : ∀ b ∈ bs, b < 256) (r : List Char) :
    pctTokens (escSeq bs ++ r) = bs.map Sum.inr ++ pctTokens r := by
  induction bs with
  | nil => rfl
  | cons b bs2 ih =>
      have hb := h b (List.mem_cons_self _ _)
      rw [escSeq, List.flatMap_cons]
      show pctTokens ('%' :: hexDigitUpper (b / 16) :: hexDigitUpper (b % 16) ::
        (escSeq bs2 ++ r)) = _
      rw [pctTokens_cons_pct _ _ _ (isHexDigit_hexDigitUpper _ (by omega))
          (isHexDigit_hexDigitUpper _ (by omega)),
        hexVal_hexDigitUpper _ (by omega), hexVal_hexDigitUpper _ (by omega),
        ih (fun y hy => h y (List.mem_cons_of_mem _ hy))]
      have harg : b / 16 * 16 + b % 16 = b := by omega
      rw [harg]
      rfl

theorem pctTokens_literal (c : Char) (hc : c ≠ '%') (r : List Char) :
    pctTokens (c :: r) = Sum.inl c :: pctTokens r := by
  rw [pctTokens.eq_def]
  split
  · rename_i heq
    exact absurd heq (by simp)
  · rename_i a b rest heq
    exact absurd (List.cons.inj heq).1 hc
  · rename_i c2 rest2 hno heq
    obtain ⟨h1, h2⟩ := List.cons.inj heq
    rw [h1, h2]

theorem decodeTokens_inr_run (bs : List ℕ) (toks : List (Char ⊕ ℕ)) :
    ∀ acc, decodeTokens (bs.map Sum.inr ++ toks) acc =
      decodeTokens toks (bs.reverse ++ acc) := by
  induction bs with
  | nil => intro acc; rfl
  | cons b bs2 ih =>
      intro acc
      rw [List.map_cons, List.cons_append]
      show decodeTokens (bs2.map Sum.inr ++ toks) (b :: acc) = _
      rw [ih (b :: acc), List.reverse_cons, List.append_assoc]
      rfl

theorem utf8Encode_append (a b : List Char) :
    utf8Encode (a ++ b) = utf8Encode a ++ utf8Encode b := by
  unfold utf8Encode
  rw [List.map_append, List.flatten_append]

theorem qunit_literal (c : Char) (h : isEscClass c = false) : qunit c = [c] := by
  unfold isEscClass at h
  simp only [Bool.not_eq_false', Bool.or_eq_true, beq_iff_eq, Bool.and_eq_true,
    decide_eq_true_eq] at h
  unfold qunit
  rcases h with h | h
  · rw [if_pos h]
    have hc : c = ' ' := by rw [← char_ofNat_charNat c, h]
    rw [hc]
  · have h32 : ¬ charNat c = 32 := by
      intro h32
      have := h.2
      rw [h32] at this
      exact absurd this (by decide)
    rw [if_neg h32, if_pos h]

theorem isEscClass_charNat (c : Char) (h : isEscClass c = false) :
    charNat c = 32 ∨ alwaysSafeByte (charNat c) = true := by
  unfold isEscClass at h
  simp only [Bool.not_eq_false', Bool.or_eq_true, beq_iff_eq, Bool.and_eq_true,
    decide_eq_true_eq] at h
  rcases h with h | h
  · exact Or.inl h
  · exact Or.inr h.2

theorem ne_pct_of_not_esc (c : Char) (h : isEscClass c = false) : c ≠ '%' := by
  intro hc
  rcases isEscClass_charNat c h with h2 | h2 <;> rw [hc] at h2
  · exact absurd h2 (by decide)
  · exact absurd h2 (by decide)

theorem qunit_esc (c : Char) (h : isEscClass c = true) :
    qunit c = escSeq (utf8EncodeChar c) := by
  unfold isEscClass at h
  simp only [Bool.not_eq_true', Bool.or_eq_false_iff, beq_eq_false_iff_ne, ne_eq,
    Bool.and_eq_false_iff, decide_eq_false_iff_not] at h
  unfold qunit
  rw [if_neg h.1]
  rcases h.2 with h2 | h2
  · rw [if_neg (fun hand => h2 hand.1)]
  · rw [if_neg (fun hand => by rw [hand.2] at h2; exact absurd h2 (by decide))]

theorem flatMap_qunit_esc (e : List Char) (he : ∀ c ∈ e, isEscClass c = true) :
    e.flatMap qunit = escSeq (utf8Encode e) := by
  induction e with
  | nil => rfl
  | cons c e2 ih =>
      rw [List.flatMap_cons, qunit_esc c (he c (List.mem_cons_self _ _)),
        ih (fun x hx => he x (List.mem_cons_of_mem _ hx))]
      show _ = escSeq (utf8EncodeChar c ++ utf8Encode e2)
      unfold escSeq
      rw [List.flatMap_append]

theorem decode_pctTokens_flatMap_qunit :
    ∀ (n : ℕ) (s w : List Char), s.length ≤ n →
      decodeTokens (pctTokens (s.flatMap qunit)) ((utf8Encode w).reverse) = w ++ s := by
  intro n
  induction n with
  | zero =>
      intro s w hs
      have hnil : s = [] := List.eq_nil_of_length_eq_zero (Nat.le_zero.1 hs)
      subst hnil
      show decodeTokens [] ((utf8Encode w).reverse) = w ++ []
      show utf8DecodeReplace (utf8Encode w).reverse.reverse = w ++ []
      rw [List.reverse_reverse, utf8DecodeReplace_encode, List.append_nil]
  | succ n ih =>
      intro s w hs
      cases s with
      | nil =>
          show decodeTokens [] ((utf8Encode w).reverse) = w ++ []
          show utf8DecodeReplace (utf8Encode w).reverse.reverse = w ++ []
          rw [List.reverse_reverse, utf8DecodeReplace_encode, List.append_nil]
      | cons c s2 =>
          have hlen : s2.length ≤ n := by
            have := hs
            simp only [List.length_cons] at this
            omega
          by_cases hc : isEscClass c = true
          · rw [List.flatMap_cons, qunit_esc c hc,
              pctTokens_escSeq _ (utf8EncodeChar_bytes_lt256 c),
              decodeTokens_inr_run]
            have hacc : (utf8EncodeChar c).reverse ++ (utf8Encode w).reverse =
                (utf8Encode (w ++ [c])).reverse := by
              rw [utf8Encode_append, List.reverse_append]
              show _ = ((utf8EncodeChar c ++ []).reverse) ++ _
              rw [List.append_nil]
            rw [hacc, ih s2 (w ++ [c]) hlen, List.append_assoc]
            rfl
          · have hcf : isEscClass c = false := by simpa using hc
            rw [List.flatMap_cons, qunit_literal c hcf]
            rw [List.singleton_append,
              pctTokens_literal c (ne_pct_of_not_esc c hcf)]
            show utf8DecodeReplace (utf8Encode w).reverse.reverse ++
              c :: decodeTokens (pctTokens (s2.flatMap qunit)) [] = w ++ c :: s2
            have hnil : decodeTokens (pctTokens (s2.flatMap qunit)) [] = [] ++ s2 :=
              ih s2 [] hlen
            rw [List.reverse_reverse, utf8DecodeReplace_encode, hnil]
            rfl

theorem unquote_flatMap_qunit (s : List Char) : unquote (s.flatMap qunit) = s := by
  have h := decode_pctTokens_flatMap_qunit s.length s [] (Nat.le_refl _)
  unfold unquote
  rw [show ((utf8Encode []).reverse : List ℕ) = [] from rfl] at h
  rw [h]
  rfl

theorem unquote_plus_quote_plus (s : List Char) : unquote_plus (quote_plus s) = s := by
  unfold unquote_plus
  rw [map_plusToSpace_quote_plus, unquote_flatMap_qunit]

/-! ### C6 — `unquote_plus` and `quote_plus` preserve nonemptiness -/

theorem utf8DecodeReplace_ne_nil (b : ℕ) (bs : List ℕ) :
    utf8DecodeReplace (b :: bs) ≠ [] := by
  rw [utf8DecodeReplace.eq_def]
  dsimp only
  repeat' split
  all_goals simp

theorem decodeTokens_ne_nil :
    ∀ (toks : List (Char ⊕ ℕ)) (acc : List ℕ), toks ≠ [] ∨ acc ≠ [] →
      decodeTokens toks acc ≠ [] := by
  intro toks
  induction toks with
  | nil =>
      intro acc h
      rcases h with h | h
      · exact absurd rfl h
      · cases acc with
        | nil => exact absurd rfl h
        | cons a as =>
            show utf8DecodeReplace (a :: as).reverse ≠ []
            cases hrev : (a :: as).reverse with
            | nil => exact absurd hrev (by simp)
            | cons b bs => exact utf8DecodeReplace_ne_nil b bs
  | cons tk rest ih =>
      intro acc _
      cases tk with
      | inl c =>
          show utf8DecodeReplace acc.reverse ++ c :: decodeTokens rest [] ≠ []
          simp
      | inr b =>
          show decodeTokens rest (b :: acc) ≠ []
          exact ih (b :: acc) (Or.inr (by simp))

theorem pctTokens_ne_nil (c : Char) (r : List Char) : pctTokens (c :: r) ≠ [] := by
  rw [pctTokens.eq_def]
  split
  · rename_i heq
    exact absurd heq (by simp)
  · split <;> simp
  · simp

theorem unquote_plus_ne_nil (c : Char) (r : List Char) :
    unquote_plus (c :: r) ≠ [] := by
  unfold unquote_plus unquote
  rw [List.map_cons]
  exact decodeTokens_ne_nil _ [] (Or.inl (pctTokens_ne_nil _ _))

/-! ### C6 — splitting on `&` undoes joining with `&` -/

theorem splitOnChar_no_sep (sep : Char) :
    ∀ w, sep ∉ w → splitOnChar sep w = [w] := by
  intro w
  induction w with
  | nil => intro _; rfl
  | cons c cs ih =>
      intro h
      have hc : ¬ c = sep := fun hh => h (by rw [hh]; exact List.mem_cons_self _ _)
      have hcs : sep ∉ cs := fun hh => h (List.mem_cons_of_mem _ hh)
      rw [splitOnChar]
      rw [if_neg hc, ih hcs]

theorem splitOnChar_append_sep (sep : Char) :
    ∀ w r, sep ∉ w →
      splitOnChar sep (w ++ sep :: r) = w :: splitOnChar sep r := by
  intro w
  induction w with
  | nil =>
      intro r _
      show splitOnChar sep (sep :: r) = _
      rw [splitOnChar]
      rw [if_pos rfl]
  | cons c cs ih =>
      intro r h
      have hc : ¬ c = sep := fun hh => h (by rw [hh]; exact List.mem_cons_self _ _)
      have hcs : sep ∉ cs := fun hh => h (List.mem_cons_of_mem _ hh)
      rw [List.cons_append, splitOnChar]
      rw [if_neg hc, ih r hcs]

theorem splitOnChar_joinChar (sep : Char) :
    ∀ pieces : List (List Char), pieces ≠ [] → (∀ p ∈ pieces, sep ∉ p) →
      splitOnChar sep (joinChar sep pieces) = pieces := by
  intro pieces
  induction pieces with
  | nil => intro h _; exact absurd rfl h
  | cons w ws ih =>
      intro _ hall
      cases ws with
      | nil =>
          show splitOnChar sep w = [w]
          exact splitOnChar_no_sep sep w (hall w (List.mem_cons_self _ _))
      | cons w2 ws2 =>
          show splitOnChar sep (w ++ sep :: joinChar sep (w2 :: ws2)) = _
          rw [splitOnChar_append_sep sep w _ (hall w (List.mem_cons_self _ _)),
            ih (by simp) (fun p hp => hall p (List.mem_cons_of_mem _ hp))]

/-! ### C6 — `parse_qsl` is a left inverse of `urlencode` -/

theorem eq_char_of_charNat (c t : Char) (h : charNat c = charNat t) : c = t := by
  rw [← char_ofNat_charNat c, h, char_ofNat_charNat]

theorem quote_plus_no_eq_sign (s : List Char) : '=' ∉ quote_plus s :=
  quote_plus_no_char s '=' (by refine ⟨by decide, by decide, by decide⟩)

theorem quote_plus_no_amp (s : List Char) : '&' ∉ quote_plus s :=
  quote_plus_no_char s '&' (by refine ⟨by decide, by decide, by decide⟩)

theorem quote_plus_ne_nil_of_ne_nil (v : List Char) (h : v ≠ []) :
    quote_plus v ≠ [] := by
  cases v with
  | nil => exact absurd rfl h
  | cons c cs => exact quote_plus_ne_nil c cs

theorem urlencode_eq_joinChar (G : List (List Char × List (List Char))) :
    urlencode G = joinChar '&'
      ((flattenGroups G).map (fun q => quote_plus q.1 ++ '=' :: quote_plus q.2)) := by
  unfold urlencode flattenGroups
  congr 1
  induction G with
  | nil => rfl
  | cons g gs ih =>
      rw [List.map_cons, List.flatten_cons, List.flatMap_cons, List.map_append, ih,
        List.map_map]
      rfl

theorem amp_notMem_piece (k v : List Char) :
    '&' ∉ quote_plus k ++ '=' :: quote_plus v := by
  intro h
  rcases List.mem_append.1 h with h | h
  · exact quote_plus_no_amp k h
  · rcases List.mem_cons.1 h with h | h
    · exact absurd h (by decide)
    · exact quote_plus_no_amp v h

theorem parse_qsl_field (k v : List Char) (hv : v ≠ []) :
    (if (quote_plus k ++ '=' :: quote_plus v) = [] then none
     else
       match splitFirst '=' (quote_plus k ++ '=' :: quote_plus v) with
       | none => none
       | some (n, w) =>
           if w = [] then none else some (unquote_plus n, unquote_plus w)) =
      some (k, v) := by
  rw [if_neg (by simp), splitFirst_append '=' _ _ (quote_plus_no_eq_sign k)]
  dsimp only
  rw [if_neg (quote_plus_ne_nil_of_ne_nil v hv), unquote_plus_quote_plus,
    unquote_plus_quote_plus]

theorem filterMap_parse_qsl_pieces :
    ∀ (l : List (List Char × List Char)), (∀ p ∈ l, p.2 ≠ []) →
      (l.map (fun r => quote_plus r.1 ++ '=' :: quote_plus r.2)).filterMap
        (fun nv =>
          if nv = [] then none
          else
            match splitFirst '=' nv with
            | none => none
            | some (n, v) =>
                if v = [] then none else some (unquote_plus n, unquote_plus v)) = l := by
  intro l
  induction l with
  | nil => intro _; rfl
  | cons r rs ih =>
      intro h
      rw [List.map_cons, List.filterMap_cons]
      rw [parse_qsl_field r.1 r.2 (h r (List.mem_cons_self _ _))]
      dsimp only
      rw [Prod.mk.eta, ih (fun p hp => h p (List.mem_cons_of_mem _ hp))]

theorem parse_qsl_urlencode (G : List (List Char × List (List Char)))
    (hv : ∀ p ∈ flattenGroups G, p.2 ≠ []) :
    parse_qsl (urlencode G) = flattenGroups G := by
  rw [urlencode_eq_joinChar]
  cases hfg : flattenGroups G with
  | nil => rfl
  | cons q qs =>
      rw [hfg] at hv
      have hpieces : ∀ p ∈ (q :: qs).map
          (fun r => quote_plus r.1 ++ '=' :: quote_plus r.2), '&' ∉ p := by
        intro p hp
        obtain ⟨r, _, hr⟩ := List.mem_map.1 hp
        rw [← hr]
        exact amp_notMem_piece r.1 r.2
      have hjoin_ne : joinChar '&'
          ((q :: qs).map (fun r => quote_plus r.1 ++ '=' :: quote_plus r.2)) ≠ [] := by
        cases qs with
        | nil =>
            show quote_plus q.1 ++ '=' :: quote_plus q.2 ≠ []
            simp
        | cons q2 qs2 =>
            show quote_plus q.1 ++ '=' :: quote_plus q.2 ++ '&' :: _ ≠ []
            simp
      unfold parse_qsl
      rw [if_neg hjoin_ne,
        splitOnChar_joinChar '&' _ (by simp) hpieces]
      exact filterMap_parse_qsl_pieces (q :: qs) hv

/-! ### C6 — `parse_qs` grouping: invariants and inversion -/

theorem parse_qsl_values_ne_nil (qs : List Char) :
    ∀ p ∈ parse_qsl qs, p.2 ≠ [] := by
  intro p hp
  unfold parse_qsl at hp
  split at hp
  · exact absurd hp (List.not_mem_nil p)
  · obtain ⟨a, ha, hfa⟩ := List.mem_filterMap.1 hp
    by_cases hae : a = []
    · rw [if_pos hae] at hfa
      exact absurd hfa (by simp)
    · rw [if_neg hae] at hfa
      cases hsf : splitFirst '=' a with
      | none => rw [hsf] at hfa; simp at hfa
      | some nv =>
          obtain ⟨nn, vv⟩ := nv
          rw [hsf] at hfa
          dsimp only at hfa
          by_cases hve : vv = []
          · rw [if_pos hve] at hfa
            simp at hfa
          · rw [if_neg hve] at hfa
            have hep := Option.some.inj hfa
            rw [← hep]
            cases vv with
            | nil => exact absurd rfl hve
            | cons c r =>
                show unquote_plus (c :: r) ≠ []
                exact unquote_plus_ne_nil c r

theorem addPair_notMem (acc : List (List Char × List (List Char))) (n : List Char)
    (v : List Char) (h : ∀ p ∈ acc, ¬ p.1 = n) :
    addPair acc n v = acc ++ [(n, [v])] := by
  unfold addPair
  rw [if_neg (fun hany => by
    obtain ⟨p, hp, hd⟩ := List.any_eq_true.1 hany
    exact h p hp (of_decide_eq_true hd))]

theorem addPair_found (acc : List (List Char × List (List Char))) (n : List Char)
    (l : List (List Char)) (v : List Char) (h : ∀ p ∈ acc, ¬ p.1 = n) :
    addPair (acc ++ [(n, l)]) n v = acc ++ [(n, l ++ [v])] := by
  unfold addPair
  rw [if_pos (List.any_eq_true.2 ⟨(n, l), by simp, by simp⟩)]
  rw [List.map_append]
  congr 1
  · have hfix : ∀ p ∈ acc,
        (if p.1 = n then (p.1, p.2 ++ [v]) else p) = p := fun p hp => if_neg (h p hp)
    exact (List.map_congr_left hfix).trans (List.map_id acc)
  · simp

theorem foldl_addPair_run (k : List Char) (vrest : List (List Char)) :
    ∀ (acc : List (List Char × List (List Char))) (l : List (List Char)),
      (∀ p ∈ acc, ¬ p.1 = k) →
      List.foldl (fun acc p => addPair acc p.1 p.2) (acc ++ [(k, l)])
        (vrest.map (fun v => (k, v))) = acc ++ [(k, l ++ vrest)] := by
  induction vrest with
  | nil => intro acc l _; simp
  | cons v vr ih =>
      intro acc l h
      rw [List.map_cons, List.foldl_cons]
      dsimp only
      rw [addPair_found acc k l v h, ih acc (l ++ [v]) h, List.append_assoc]
      rfl

theorem mem_flattenGroups (G : List (List Char × List (List Char)))
    (p : List Char × List Char) (hp : p ∈ flattenGroups G) :
    ∃ g ∈ G, p.1 = g.1 ∧ p.2 ∈ g.2 := by
  unfold flattenGroups at hp
  obtain ⟨g, hg, hpg⟩ := List.mem_flatMap.1 hp
  obtain ⟨v, hv, hvp⟩ := List.mem_map.1 hpg
  exact ⟨g, hg, by rw [← hvp], by rw [← hvp]; exact hv⟩

theorem foldl_addPair_flattenGroups :
    ∀ (G : List (List Char × List (List Char)))
      (acc : List (List Char × List (List Char))),
      (∀ p ∈ acc, ∀ g ∈ G, ¬ p.1 = g.1) →
      List.Pairwise (fun a b => a.1 ≠ b.1) G →
      (∀ g ∈ G, g.2 ≠ []) →
      List.foldl (fun acc p => addPair acc p.1 p.2) acc (flattenGroups G) =
        acc ++ G := by
  intro G
  induction G with
  | nil => intro acc _ _ _; simp [flattenGroups]
  | cons g G2 ih =>
      intro acc hdisj hpw hvals
      obtain ⟨k, vs⟩ := g
      have hkacc : ∀ p ∈ acc, ¬ p.1 = k :=
        fun p hp => hdisj p hp (k, vs) (List.mem_cons_self _ _)
      have hvs := hvals (k, vs) (List.mem_cons_self _ _)
      cases vs with
      | nil => exact absurd rfl hvs
      | cons v1 vr =>
          have hfg : flattenGroups ((k, v1 :: vr) :: G2) =
              ((v1 :: vr).map (fun v => (k, v))) ++ flattenGroups G2 := by
            unfold flattenGroups
            rw [List.flatMap_cons]
          rw [hfg, List.foldl_append, List.map_cons, List.foldl_cons]
          dsimp only
          rw [addPair_notMem acc k v1 hkacc, foldl_addPair_run k vr acc [v1] hkacc]
          have hdisj2 : ∀ p ∈ acc ++ [(k, [v1] ++ vr)], ∀ g2 ∈ G2, ¬ p.1 = g2.1 := by
            intro p hp g2 hg2
            rcases List.mem_append.1 hp with hp | hp
            · exact hdisj p hp g2 (List.mem_cons_of_mem _ hg2)
            · simp only [List.mem_singleton] at hp
              rw [hp]
              exact List.rel_of_pairwise_cons hpw hg2
          rw [ih (acc ++ [(k, [v1] ++ vr)]) hdisj2 (List.Pairwise.of_cons hpw)
            (fun g2 hg2 => hvals g2 (List.mem_cons_of_mem _ hg2)),
            List.append_assoc]
          rfl

theorem parse_qs_urlencode (G : List (List Char × List (List Char)))
    (hpw : List.Pairwise (fun a b => a.1 ≠ b.1) G)
    (hvl : ∀ g ∈ G, g.2 ≠ []) (hve : ∀ g ∈ G, ∀ v ∈ g.2, v ≠ []) :
    parse_qs (urlencode G) = G := by
  unfold parse_qs
  rw [parse_qsl_urlencode G (fun p hp => by
    obtain ⟨g, hg, _, hv⟩ := mem_flattenGroups G p hp
    exact hve g hg p.2 hv)]
  rw [foldl_addPair_flattenGroups G [] (by simp) hpw hvl]
  rfl

theorem addPair_inv (acc : List (List Char × List (List Char))) (n v : List Char)
    (hpw : List.Pairwise (fun a b => a.1 ≠ b.1) acc)
    (hval : ∀ g ∈ acc, g.2 ≠ [] ∧ ∀ w ∈ g.2, w ≠ []) (hv : v ≠ []) :
    List.Pairwise (fun a b => a.1 ≠ b.1) (addPair acc n v) ∧
      ∀ g ∈ addPair acc n v, g.2 ≠ [] ∧ ∀ w ∈ g.2, w ≠ [] := by
  unfold addPair
  split
  · constructor
    · refine List.Pairwise.map _ (fun a b hab => ?_) hpw
      have hfst : ∀ p : List Char × List (List Char),
          ((if p.1 = n then (p.1, p.2 ++ [v]) else p) : _ × _).1 = p.1 := by
        intro p
        split <;> rfl
      rw [hfst a, hfst b]
      exact hab
    · intro g hg
      obtain ⟨p, hp, hpg⟩ := List.mem_map.1 hg
      by_cases hpn : p.1 = n
      · rw [if_pos hpn] at hpg
        rw [← hpg]
        refine ⟨by simp, fun w hw => ?_⟩
        rcases List.mem_append.1 hw with hw | hw
        · exact (hval p hp).2 w hw
        · simp only [List.mem_singleton] at hw
          rw [hw]
          exact hv
      · rw [if_neg hpn] at hpg
        rw [← hpg]
        exact hval p hp
  · rename_i hany
    have hnotin : ∀ p ∈ acc, ¬ p.1 = n := by
      intro p hp hpn
      exact hany (List.any_eq_true.2 ⟨p, hp, decide_eq_true hpn⟩)
    constructor
    · rw [List.pairwise_append]
      refine ⟨hpw, by simp, fun a ha b hb => ?_⟩
      simp only [List.mem_singleton] at hb
      rw [hb]
      exact hnotin a ha
    · intro g hg
      rcases List.mem_append.1 hg with hg | hg
      · exact hval g hg
      · simp only [List.mem_singleton] at hg
        rw [hg]
        exact ⟨by simp, fun w hw => by
          simp only [List.mem_singleton] at hw
          rw [hw]
          exact hv⟩

theorem foldl_addPair_inv :
    ∀ (pairs : List (List Char × List Char))
      (acc : List (List Char × List (List Char))),
      (∀ p ∈ pairs, p.2 ≠ []) →
      List.Pairwise (fun a b => a.1 ≠ b.1) acc →
      (∀ g ∈ acc, g.2 ≠ [] ∧ ∀ w ∈ g.2, w ≠ []) →
      List.Pairwise (fun a b => a.1 ≠ b.1)
        (List.foldl (fun acc p => addPair acc p.1 p.2) acc pairs) ∧
      ∀ g ∈ List.foldl (fun acc p => addPair acc p.1 p.2) acc pairs,
        g.2 ≠ [] ∧ ∀ w ∈ g.2, w ≠ [] := by
  intro pairs
  induction pairs with
  | nil => intro acc _ hpw hval; exact ⟨hpw, hval⟩
  | cons p pr ih =>
      intro acc hpv hpw hval
      rw [List.foldl_cons]
      obtain ⟨hpw2, hval2⟩ := addPair_inv acc p.1 p.2 hpw hval
        (hpv p (List.mem_cons_self _ _))
      exact ih (addPair acc p.1 p.2) (fun q hq => hpv q (List.mem_cons_of_mem _ hq))
        hpw2 hval2

theorem parse_qs_inv (qs : List Char) :
    List.Pairwise (fun a b => a.1 ≠ b.1) (parse_qs qs) ∧
      ∀ g ∈ parse_qs qs, g.2 ≠ [] ∧ ∀ w ∈ g.2, w ≠ [] := by
  unfold parse_qs
  exact foldl_addPair_inv (parse_qsl qs) [] (parse_qsl_values_ne_nil qs)
    (by simp) (by simp)

theorem filterTracking_mem (G : List (List Char × List (List Char)))
    (p : List Char × List (List Char)) (hp : p ∈ filterTracking G) :
    p ∈ G ∧ ¬ lowerStr p.1 ∈ TRACKING_PARAMS := by
  unfold filterTracking at hp
  have h := List.mem_filter.1 hp
  exact ⟨h.1, of_decide_eq_true h.2⟩

theorem filterTracking_pairwise (G : List (List Char × List (List Char)))
    (h : List.Pairwise (fun a b => a.1 ≠ b.1) G) :
    List.Pairwise (fun a b => a.1 ≠ b.1) (filterTracking G) :=
  h.sublist (List.filter_sublist G)

theorem filterTracking_eq_self (G : List (List Char × List (List Char)))
    (h : ∀ p ∈ G, ¬ lowerStr p.1 ∈ TRACKING_PARAMS) : filterTracking G = G := by
  unfold filterTracking
  exact List.filter_eq_self.2 (fun p hp => decide_eq_true (h p hp))

theorem parse_qs_canonical_query (q : List Char) :
    parse_qs (urlencode (filterTracking (parse_qs q))) =
      filterTracking (parse_qs q) := by
  obtain ⟨hpw, hval⟩ := parse_qs_inv q
  refine parse_qs_urlencode _ (filterTracking_pairwise _ hpw) ?_ ?_
  · intro g hg
    exact (hval g (filterTracking_mem _ g hg).1).1
  · intro g hg
    exact (hval g (filterTracking_mem _ g hg).1).2

theorem canonical_query_fixed (q : List Char) :
    urlencode (filterTracking (parse_qs (urlencode (filterTracking (parse_qs q))))) =
      urlencode (filterTracking (parse_qs q)) := by
  rw [parse_qs_canonical_query q,
    filterTracking_eq_self _ (fun p hp => (filterTracking_mem _ p hp).2)]

/-! ### C6 — utility lemmas for the URL component analysis -/

theorem pyLower_alpha (c : Char) (h : isAsciiAlpha c = true) :
    isAsciiAlpha (pyLowerChar c) = true := by
  unfold isAsciiAlpha at h ⊢
  simp only [Bool.or_eq_true, Bool.and_eq_true, decide_eq_true_eq] at h ⊢
  by_cases hu : 65 ≤ charNat c ∧ charNat c ≤ 90
  · rw [charNat_pyLowerChar_of_upper c hu]
    omega
  · rw [pyLowerChar_eq_self c hu]
    exact h

theorem pyLower_schemeChar (c : Char) (h : isSchemeChar c = true) :
    isSchemeChar (pyLowerChar c) = true := by
  unfold isSchemeChar at h ⊢
  simp only [Bool.or_eq_true, Bool.and_eq_true, decide_eq_true_eq, beq_iff_eq] at h ⊢
  by_cases hu : 65 ≤ charNat c ∧ charNat c ≤ 90
  · rw [charNat_pyLowerChar_of_upper c hu]
    omega
  · rw [pyLowerChar_eq_self c hu]
    exact h

theorem scheme_no_colon (s : List Char) (h : ∀ c ∈ s, isSchemeChar c = true) :
    ':' ∉ s := by
  intro hmem
  have := h ':' hmem
  exact absurd this (by decide)

theorem dropWhile_head (p : Char → Bool) :
    ∀ l : List Char, l.dropWhile p = [] ∨
      ∃ c cs, l.dropWhile p = c :: cs ∧ p c = false := by
  intro l
  induction l with
  | nil => left; rfl
  | cons c cs ih =>
      by_cases hc : p c = true
      · rw [List.dropWhile_cons_of_pos hc]
        exact ih
      · right
        refine ⟨c, cs, ?_, by simpa using hc⟩
        rw [List.dropWhile_cons_of_neg (by simpa using hc)]

theorem rstripSlash_prefix (l : List Char) : ∃ t, rstripSlash l ++ t = l := by
  unfold rstripSlash
  obtain ⟨t, ht⟩ := List.dropWhile_suffix (l := l.reverse) (p := fun c => c == '/')
  refine ⟨t.reverse, ?_⟩
  have := congrArg List.reverse ht
  rw [List.reverse_append] at this
  rw [this, List.reverse_reverse]

theorem rstripSlash_mem (l : List Char) (c : Char) (h : c ∈ rstripSlash l) : c ∈ l := by
  obtain ⟨t, ht⟩ := rstripSlash_prefix l
  rw [← ht]
  exact List.mem_append_left t h

theorem rstripSlash_head (l t0 : List Char) (c0 : Char) (h : l = c0 :: t0) :
    rstripSlash l = [] ∨ ∃ t, rstripSlash l = c0 :: t := by
  obtain ⟨t, ht⟩ := rstripSlash_prefix l
  cases hr : rstripSlash l with
  | nil => left; rfl
  | cons x xs =>
      right
      rw [hr] at ht
      rw [h] at ht
      exact ⟨xs, by rw [(List.cons.inj ht).1]⟩

theorem dropWhile_self_of_head_neg (p : Char → Bool) (l : List Char)
    (h : l = [] ∨ ∃ c cs, l = c :: cs ∧ p c = false) : l.dropWhile p = l := by
  rcases h with h | ⟨c, cs, hl, hc⟩
  · rw [h]; rfl
  · rw [hl, List.dropWhile_cons_of_neg (by simp [hc])]

theorem rstripSlash_idem (l : List Char) : rstripSlash (rstripSlash l) = rstripSlash l := by
  unfold rstripSlash
  rw [List.reverse_reverse]
  congr 1
  apply dropWhile_self_of_head_neg
  rcases dropWhile_head (fun c => c == '/') l.reverse with h | ⟨c, cs, hd, hc⟩
  · left; exact h
  · right; exact ⟨c, cs, hd, hc⟩

theorem lowerStr_ne_nil (l : List Char) (h : l ≠ []) : lowerStr l ≠ [] := by
  cases l with
  | nil => exact absurd rfl h
  | cons c cs => simp [lowerStr]

theorem mem_joinChar (sep : Char) :
    ∀ (pieces : List (List Char)) (c : Char), c ∈ joinChar sep pieces →
      c = sep ∨ ∃ p ∈ pieces, c ∈ p := by
  intro pieces
  induction pieces with
  | nil => intro c hc; exact absurd hc (List.not_mem_nil c)
  | cons w ws ih =>
      intro c hc
      cases ws with
      | nil => exact Or.inr ⟨w, List.mem_cons_self _ _, hc⟩
      | cons w2 ws2 =>
          rw [show joinChar sep (w :: w2 :: ws2) =
            w ++ sep :: joinChar sep (w2 :: ws2) from rfl] at hc
          rcases List.mem_append.1 hc with hc | hc
          · exact Or.inr ⟨w, List.mem_cons_self _ _, hc⟩
          · rcases List.mem_cons.1 hc with hc | hc
            · exact Or.inl hc
            · rcases ih c hc with hc | ⟨p, hp, hcp⟩
              · exact Or.inl hc
              · exact Or.inr ⟨p, List.mem_cons_of_mem _ hp, hcp⟩

theorem mem_urlencode (G : List (List Char × List (List Char))) (c : Char)
    (h : c ∈ urlencode G) :
    c = '&' ∨ c = '=' ∨ alwaysSafeByte (charNat c) = true ∨
      charNat c = 43 ∨ charNat c = 37 := by
  unfold urlencode at h
  rcases mem_joinChar '&' _ c h with h | ⟨p, hp, hcp⟩
  · exact Or.inl h
  · obtain ⟨vs, hvs, hvsp⟩ := List.mem_flatten.1 hp
    obtain ⟨g, _, hg⟩ := List.mem_map.1 hvs
    rw [← hg] at hvsp
    obtain ⟨v, _, hv⟩ := List.mem_map.1 hvsp
    rw [← hv] at hcp
    rcases List.mem_append.1 hcp with hc | hc
    · exact Or.inr (Or.inr (mem_quote_plus_alphabet _ c hc))
    · rcases List.mem_cons.1 hc with hc | hc
      · exact Or.inr (Or.inl hc)
      · exact Or.inr (Or.inr (mem_quote_plus_alphabet _ c hc))

theorem urlencode_no_hash (G : List (List Char × List (List Char))) :
    '#' ∉ urlencode G := by
  intro h
  rcases mem_urlencode G '#' h with h | h | h | h | h
  · exact absurd h (by decide)
  · exact absurd h (by decide)
  · exact absurd h (by decide)
  · exact absurd h (by decide)
  · exact absurd h (by decide)

theorem urlencode_not_unsafe (G : List (List Char × List (List Char))) (c : Char)
    (h : c ∈ urlencode G) : isUnsafeUrlByte c = false := by
  rcases mem_urlencode G c h with h | h | h | h | h
  · rw [h]; decide
  · rw [h]; decide
  · unfold isUnsafeUrlByte
    unfold alwaysSafeByte at h
    simp only [Bool.or_eq_true, Bool.and_eq_true, decide_eq_true_eq, beq_iff_eq] at h
    simp only [Bool.or_eq_false_iff, decide_eq_false_iff_not]
    refine ⟨⟨?_, ?_⟩, ?_⟩ <;> (intro hc; rw [hc] at h; revert h; decide)
  · unfold isUnsafeUrlByte
    simp only [Bool.or_eq_false_iff, decide_eq_false_iff_not]
    refine ⟨⟨?_, ?_⟩, ?_⟩ <;> (intro hc; rw [hc] at h; revert h; decide)
  · unfold isUnsafeUrlByte
    simp only [Bool.or_eq_false_iff, decide_eq_false_iff_not]
    refine ⟨⟨?_, ?_⟩, ?_⟩ <;> (intro hc; rw [hc] at h; revert h; decide)

theorem pyLowerChar_eq_of_small (c t : Char) (ht : charNat t < 97)
    (h : pyLowerChar c = t) : c = t := by
  by_cases hu : 65 ≤ charNat c ∧ charNat c ≤ 90
  · have hv := charNat_pyLowerChar_of_upper c hu
    rw [h] at hv
    omega
  · rw [pyLowerChar_eq_self c hu] at h
    exact h

theorem pyLower_not_unsafe (c : Char) (h : isUnsafeUrlByte c = false) :
    isUnsafeUrlByte (pyLowerChar c) = false := by
  unfold isUnsafeUrlByte at h ⊢
  simp only [Bool.or_eq_false_iff, decide_eq_false_iff_not] at h ⊢
  obtain ⟨⟨h1, h2⟩, h3⟩ := h
  refine ⟨⟨?_, ?_⟩, ?_⟩
  · intro hc; exact h1 (pyLowerChar_eq_of_small c _ (by decide) hc)
  · intro hc; exact h2 (pyLowerChar_eq_of_small c _ (by decide) hc)
  · intro hc; exact h3 (pyLowerChar_eq_of_small c _ (by decide) hc)

theorem pyLower_not_netlocDelim (c : Char) (h : isNetlocDelim c = false) :
    isNetlocDelim (pyLowerChar c) = false := by
  unfold isNetlocDelim at h ⊢
  simp only [Bool.or_eq_false_iff, decide_eq_false_iff_not] at h ⊢
  obtain ⟨⟨h1, h2⟩, h3⟩ := h
  refine ⟨⟨?_, ?_⟩, ?_⟩
  · intro hc; exact h1 (pyLowerChar_eq_of_small c _ (by decide) hc)
  · intro hc; exact h2 (pyLowerChar_eq_of_small c _ (by decide) hc)
  · intro hc; exact h3 (pyLowerChar_eq_of_small c _ (by decide) hc)

/-! ### C6 — anatomy of `urlsplitModel` -/

theorem splitScheme_spec (l : List Char) :
    splitScheme l = ([], l) ∨
    ∃ s0 rest, splitFirst ':' l = some (s0, rest) ∧ s0 ≠ [] ∧
      (∀ c ∈ s0, isSchemeChar c = true) ∧
      (∃ c0 s1, s0 = c0 :: s1 ∧ isAsciiAlpha c0 = true) ∧
      splitScheme l = (lowerStr s0, rest) := by
  unfold splitScheme
  cases hsf : splitFirst ':' l with
  | none => left; rfl
  | some pr =>
      obtain ⟨before, after⟩ := pr
      dsimp only
      split
      · rename_i hcond
        right
        simp only [Bool.and_eq_true] at hcond
        obtain ⟨⟨h1, h2⟩, h3⟩ := hcond
        refine ⟨before, after, rfl, ?_, ?_, ?_, rfl⟩
        · intro hb
          rw [hb] at h1
          exact absurd h1 (by decide)
        · intro c hc
          exact List.all_eq_true.1 h3 c hc
        · cases before with
          | nil => exact absurd h1 (by decide)
          | cons c0 s1 =>
              dsimp only at h2
              exact ⟨c0, s1, rfl, h2⟩
      · left
        rfl

theorem splitScheme_snd_mem (l : List Char) (c : Char)
    (h : c ∈ (splitScheme l).2) : c ∈ l := by
  rcases splitScheme_spec l with hs | ⟨s0, rest, hsf, _, _, _, hs⟩
  · rw [hs] at h
    exact h
  · rw [hs] at h
    obtain ⟨heq, _⟩ := splitFirst_some ':' l s0 rest hsf
    rw [heq]
    exact List.mem_append_right s0 (List.mem_cons_of_mem _ h)

theorem splitFragment_fst_prefix (l : List Char) :
    ∃ t, (splitFragment l).1 ++ t = l := by
  unfold splitFragment
  cases hsf : splitFirst '#' l with
  | none => exact ⟨[], List.append_nil _⟩
  | some pr =>
      obtain ⟨a, b⟩ := pr
      obtain ⟨heq, _⟩ := splitFirst_some '#' l a b hsf
      exact ⟨'#' :: b, heq.symm⟩

theorem splitFragment_no_hash (l : List Char) : '#' ∉ (splitFragment l).1 := by
  unfold splitFragment
  cases hsf : splitFirst '#' l with
  | none =>
      show '#' ∉ l
      exact splitFirst_none '#' l hsf
  | some pr =>
      obtain ⟨a, b⟩ := pr
      exact (splitFirst_some '#' l a b hsf).2

theorem splitQuery_fst_prefix (l : List Char) :
    ∃ t, (splitQuery l).1 ++ t = l := by
  unfold splitQuery
  cases hsf : splitFirst '?' l with
  | none => exact ⟨[], List.append_nil _⟩
  | some pr =>
      obtain ⟨a, b⟩ := pr
      obtain ⟨heq, _⟩ := splitFirst_some '?' l a b hsf
      exact ⟨'?' :: b, heq.symm⟩

theorem splitQuery_no_q (l : List Char) : '?' ∉ (splitQuery l).1 := by
  unfold splitQuery
  cases hsf : splitFirst '?' l with
  | none =>
      show '?' ∉ l
      exact splitFirst_none '?' l hsf
  | some pr =>
      obtain ⟨a, b⟩ := pr
      exact (splitFirst_some '?' l a b hsf).2

theorem splitQuery_snd_mem (l : List Char) (c : Char)
    (h : c ∈ (splitQuery l).2) : c ∈ l := by
  unfold splitQuery at h
  cases hsf : splitFirst '?' l with
  | none =>
      rw [hsf] at h
      exact absurd h (List.not_mem_nil c)
  | some pr =>
      obtain ⟨a, b⟩ := pr
      rw [hsf] at h
      obtain ⟨heq, _⟩ := splitFirst_some '?' l a b hsf
      rw [heq]
      exact List.mem_append_right a (List.mem_cons_of_mem _ h)

theorem prefix_mem (a t l : List Char) (h : a ++ t = l) (c : Char) (hc : c ∈ a) :
    c ∈ l := by
  rw [← h]
  exact List.mem_append_left t hc

theorem prefix_head (a t l : List Char) (h : a ++ t = l) (c0 : Char) (t0 : List Char)
    (hl : l = c0 :: t0) : a = [] ∨ ∃ r, a = c0 :: r := by
  cases a with
  | nil => left; rfl
  | cons x xs =>
      right
      rw [hl] at h
      exact ⟨xs, by rw [(List.cons.inj h).1]⟩

theorem mem_cleanUrl (u : List Char) (c : Char) (h : c ∈ cleanUrl u) :
    c ∈ u ∧ isUnsafeUrlByte c = false := by
  unfold cleanUrl at h
  have h2 := List.mem_filter.1 h
  refine ⟨(List.dropWhile_sublist isC0OrSpace).subset h2.1, by simpa using h2.2⟩

theorem urlsplit_anatomy (u : List Char) (hnet : (urlsplitModel u).netloc ≠ []) :
    ∃ rest2,
      (splitScheme (cleanUrl u)).2 = '/' :: '/' :: rest2 ∧
      (urlsplitModel u).scheme = (splitScheme (cleanUrl u)).1 ∧
      (urlsplitModel u).netloc = rest2.takeWhile (fun c => !(isNetlocDelim c)) ∧
      (urlsplitModel u).path =
        (splitQuery (splitFragment
          (rest2.dropWhile (fun c => !(isNetlocDelim c)))).1).1 ∧
      (urlsplitModel u).query =
        (splitQuery (splitFragment
          (rest2.dropWhile (fun c => !(isNetlocDelim c)))).1).2 := by
  have hsplit : urlsplitModel u =
      ⟨(splitScheme (cleanUrl u)).1, (urlsplitNetloc (splitScheme (cleanUrl u)).2).1,
        (splitQuery (splitFragment (urlsplitNetloc (splitScheme (cleanUrl u)).2).2).1).1,
        (splitQuery (splitFragment (urlsplitNetloc (splitScheme (cleanUrl u)).2).2).1).2,
        (splitFragment (urlsplitNetloc (splitScheme (cleanUrl u)).2).2).2⟩ := rfl
  by_cases htake : (splitScheme (cleanUrl u)).2.take 2 = ['/', '/']
  · have hnl : urlsplitNetloc (splitScheme (cleanUrl u)).2 =
        (((splitScheme (cleanUrl u)).2.drop 2).takeWhile (fun c => !(isNetlocDelim c)),
         ((splitScheme (cleanUrl u)).2.drop 2).dropWhile (fun c => !(isNetlocDelim c))) := by
      unfold urlsplitNetloc
      rw [if_pos htake]
    have hrest : (splitScheme (cleanUrl u)).2 =
        '/' :: '/' :: (splitScheme (cleanUrl u)).2.drop 2 := by
      cases hr : (splitScheme (cleanUrl u)).2 with
      | nil => rw [hr] at htake; simp at htake
      | cons x xs =>
          cases hxs : xs with
          | nil => rw [hr, hxs] at htake; simp at htake
          | cons y ys =>
              rw [hr, hxs] at htake
              simp only [List.take] at htake
              have hx := (List.cons.inj htake).1
              have hy := (List.cons.inj (List.cons.inj htake).2).1
              rw [hx, hy]
              rfl
    refine ⟨(splitScheme (cleanUrl u)).2.drop 2, hrest, ?_, ?_, ?_, ?_⟩ <;>
      rw [hsplit, hnl]
  · exfalso
    apply hnet
    rw [hsplit]
    show (urlsplitNetloc (splitScheme (cleanUrl u)).2).1 = []
    unfold urlsplitNetloc
    rw [if_neg htake]

theorem splitQuery_qmark (x : List Char) : splitQuery ('?' :: x) = ([], x) := by
  unfold splitQuery
  rw [splitFirst, if_pos rfl]

theorem urlsplit_props (u : List Char) (hnet : (urlsplitModel u).netloc ≠ []) :
    ((urlsplitModel u).scheme = [] ∨
      ((∃ c0 s1, (urlsplitModel u).scheme = c0 :: s1 ∧ isAsciiAlpha c0 = true) ∧
        (∀ c ∈ (urlsplitModel u).scheme, isSchemeChar c = true) ∧
        lowerStr (urlsplitModel u).scheme = (urlsplitModel u).scheme)) ∧
    (∀ c ∈ (urlsplitModel u).netloc, isNetlocDelim c = false) ∧
    ((urlsplitModel u).path = [] ∨ ∃ t, (urlsplitModel u).path = '/' :: t) ∧
    '#' ∉ (urlsplitModel u).path ∧
    '?' ∉ (urlsplitModel u).path ∧
    '#' ∉ (urlsplitModel u).query ∧
    (∀ c ∈ (urlsplitModel u).netloc, c ∈ cleanUrl u) ∧
    (∀ c ∈ (urlsplitModel u).path, c ∈ cleanUrl u) ∧
    (∀ c ∈ (urlsplitModel u).query, c ∈ cleanUrl u) := by
  obtain ⟨rest2, hrest, hs, hn, hp, hq⟩ := urlsplit_anatomy u hnet
  have hmem_rest2 : ∀ c ∈ rest2, c ∈ cleanUrl u := by
    intro c hc
    exact splitScheme_snd_mem (cleanUrl u) c
      (by rw [hrest]; exact List.mem_cons_of_mem _ (List.mem_cons_of_mem _ hc))
  have hmem_u2 : ∀ c ∈ rest2.dropWhile (fun c => !(isNetlocDelim c)), c ∈ rest2 :=
    fun c hc => (List.dropWhile_sublist _).subset hc
  obtain ⟨tq, htq⟩ := splitQuery_fst_prefix
    (splitFragment (rest2.dropWhile (fun c => !(isNetlocDelim c)))).1
  obtain ⟨tf, htf⟩ := splitFragment_fst_prefix
    (rest2.dropWhile (fun c => !(isNetlocDelim c)))
  have hpath_pref : (urlsplitModel u).path ++ (tq ++ tf) =
      rest2.dropWhile (fun c => !(isNetlocDelim c)) := by
    rw [hp, ← List.append_assoc, htq, htf]
  refine ⟨?_, ?_, ?_, ?_, ?_, ?_, ?_, ?_, ?_⟩
  · rcases splitScheme_spec (cleanUrl u) with hspec | ⟨s0, rest, _, _, hall, ⟨c0, s1, hs0, halpha⟩, hspec⟩
    · left
      rw [hs, hspec]
    · right
      rw [hs, hspec]
      refine ⟨⟨pyLowerChar c0, lowerStr s1, by rw [hs0]; rfl, pyLower_alpha c0 halpha⟩,
        ?_, lowerStr_idem s0⟩
      intro c hc
      obtain ⟨a, ha, hac⟩ := List.mem_map.1 hc
      rw [← hac]
      exact pyLower_schemeChar a (hall a ha)
  · intro c hc
    rw [hn] at hc
    have := List.mem_takeWhile_imp hc
    simpa using this
  · rcases dropWhile_head (fun c => !(isNetlocDelim c)) rest2 with hu2 | ⟨c, cs, hu2, hcd⟩
    · left
      have : (urlsplitModel u).path ++ (tq ++ tf) = [] := by rw [hpath_pref, hu2]
      exact (List.append_eq_nil.1 this).1
    · have hdelim : isNetlocDelim c = true := by simpa using hcd
      unfold isNetlocDelim at hdelim
      simp only [Bool.or_eq_true, decide_eq_true_eq] at hdelim
      rcases hdelim with (hc | hc) | hc
      · subst hc
        exact prefix_head _ _ _ hpath_pref '/' cs hu2
      · subst hc
        left
        rw [hu2] at htf
        rcases prefix_head _ _ _ htf '?' cs rfl with hfr | ⟨r, hfr⟩
        · rw [hp, hu2, hfr, splitQuery]
          rfl
        · rw [hp, hu2, hfr, splitQuery_qmark]
      · subst hc
        left
        rw [hu2] at htf
        have hfr : (splitFragment ('#' :: cs)).1 = [] := by
          unfold splitFragment
          rw [splitFirst, if_pos rfl]
        rw [hp, hu2, hfr, splitQuery]
        rfl
  · rw [hp]
    intro hc
    exact splitFragment_no_hash _ (prefix_mem _ _ _ htq '#' hc)
  · rw [hp]
    exact splitQuery_no_q _
  · rw [hq]
    intro hc
    exact splitFragment_no_hash _ (splitQuery_snd_mem _ '#' hc)
  · intro c hc
    rw [hn] at hc
    exact hmem_rest2 c ((List.takeWhile_sublist _).subset hc)
  · intro c hc
    rw [hp] at hc
    exact hmem_rest2 c (hmem_u2 c
      (prefix_mem _ _ _ htf c (prefix_mem _ _ _ htq c hc)))
  · intro c hc
    rw [hq] at hc
    exact hmem_rest2 c (hmem_u2 c
      (prefix_mem _ _ _ htf c (splitQuery_snd_mem _ c hc)))

/-! ### C6 — re-splitting the rebuilt URL -/

theorem takeWhile_append_all (pr : Char → Bool) :
    ∀ (a b : List Char), (∀ c ∈ a, pr c = true) →
      (a ++ b).takeWhile pr = a ++ b.takeWhile pr := by
  intro a
  induction a with
  | nil => intro b _; rfl
  | cons c cs ih =>
      intro b h
      rw [List.cons_append, List.takeWhile_cons_of_pos (h c (List.mem_cons_self _ _)),
        ih b (fun x hx => h x (List.mem_cons_of_mem _ hx)), List.cons_append]

theorem dropWhile_append_all (pr : Char → Bool) :
    ∀ (a b : List Char), (∀ c ∈ a, pr c = true) →
      (a ++ b).dropWhile pr = b.dropWhile pr := by
  intro a
  induction a with
  | nil => intro b _; rfl
  | cons c cs ih =>
      intro b h
      rw [List.cons_append, List.dropWhile_cons_of_pos (h c (List.mem_cons_self _ _)),
        ih b (fun x hx => h x (List.mem_cons_of_mem _ hx))]

theorem takeWhile_nil_of_head_neg (pr : Char → Bool) (l : List Char)
    (h : l = [] ∨ ∃ c cs, l = c :: cs ∧ pr c = false) : l.takeWhile pr = [] := by
  rcases h with h | ⟨c, cs, hl, hc⟩
  · rw [h]; rfl
  · rw [hl, List.takeWhile_cons_of_neg (by simp [hc])]

theorem splitScheme_slash (l : List Char) : splitScheme ('/' :: l) = ([], '/' :: l) := by
  unfold splitScheme
  cases hsf : splitFirst ':' ('/' :: l) with
  | none => rfl
  | some pr =>
      obtain ⟨a, b⟩ := pr
      obtain ⟨heq, _⟩ := splitFirst_some ':' _ a b hsf
      dsimp only
      cases a with
      | nil => exact absurd (List.cons.inj heq).1 (by decide)
      | cons a0 a2 =>
          have ha0 : a0 = '/' := ((List.cons.inj heq).1).symm
          rw [if_neg (by
            rw [ha0]
            intro hcond
            simp only [Bool.and_eq_true] at hcond
            have h2 : isAsciiAlpha '/' = true := hcond.1.2
            exact absurd h2 (by decide))]

theorem splitScheme_of_scheme (s rest : List Char)
    (hs0 : ∃ c0 s1, s = c0 :: s1 ∧ isAsciiAlpha c0 = true)
    (hall : ∀ c ∈ s, isSchemeChar c = true) (hls : lowerStr s = s) :
    splitScheme (s ++ ':' :: rest) = (s, rest) := by
  unfold splitScheme
  rw [splitFirst_append ':' s rest (scheme_no_colon s hall)]
  obtain ⟨c0, s1, hs0, halpha⟩ := hs0
  dsimp only
  rw [if_pos (by
    rw [hs0]
    simp only [Bool.and_eq_true]
    refine ⟨⟨by simp, halpha⟩, ?_⟩
    exact List.all_eq_true.2 (fun c hc => hall c (hs0 ▸ hc))), hls]

theorem schemeChar_not_unsafe (c : Char) (h : isSchemeChar c = true) :
    isUnsafeUrlByte c = false := by
  unfold isSchemeChar at h
  simp only [Bool.or_eq_true, Bool.and_eq_true, decide_eq_true_eq, beq_iff_eq] at h
  unfold isUnsafeUrlByte
  simp only [Bool.or_eq_false_iff, decide_eq_false_iff_not]
  refine ⟨⟨?_, ?_⟩, ?_⟩ <;> intro hc <;> rw [hc] at h <;> revert h <;> decide

theorem schemeChar_not_c0 (c : Char) (h : isSchemeChar c = true) :
    isC0OrSpace c = false := by
  unfold isSchemeChar at h
  simp only [Bool.or_eq_true, Bool.and_eq_true, decide_eq_true_eq, beq_iff_eq] at h
  unfold isC0OrSpace
  simp only [decide_eq_false_iff_not, not_le]
  rcases h with ((((h | h) | h) | h) | h) | h
  · omega
  · omega
  · omega
  · rw [h]; decide
  · rw [h]; decide
  · rw [h]; decide

theorem cleanUrl_eq_self (l : List Char)
    (hhead : l = [] ∨ ∃ c cs, l = c :: cs ∧ isC0OrSpace c = false)
    (hwsfree : ∀ c ∈ l, isUnsafeUrlByte c = false) : cleanUrl l = l := by
  unfold cleanUrl
  rw [dropWhile_self_of_head_neg _ _ hhead]
  exact List.filter_eq_self.2 (fun c hc => by simp [hwsfree c hc])

theorem alpha_not_c0 (c : Char) (h : isAsciiAlpha c = true) : isC0OrSpace c = false := by
  unfold isAsciiAlpha at h
  simp only [Bool.or_eq_true, Bool.and_eq_true, decide_eq_true_eq] at h
  unfold isC0OrSpace
  simp only [decide_eq_false_iff_not, not_le]
  omega

theorem urlsplitModel_unsplit (s n p q : List Char)
    (hs : s = [] ∨ ((∃ c0 s1, s = c0 :: s1 ∧ isAsciiAlpha c0 = true) ∧
      (∀ c ∈ s, isSchemeChar c = true) ∧ lowerStr s = s))
    (hn : n ≠ []) (hnd : ∀ c ∈ n, isNetlocDelim c = false)
    (hp : p = [] ∨ ∃ t, p = '/' :: t)
    (hph : '#' ∉ p) (hpq : '?' ∉ p) (hqh : '#' ∉ q)
    (hnu : ∀ c ∈ n, isUnsafeUrlByte c = false)
    (hpu : ∀ c ∈ p, isUnsafeUrlByte c = false)
    (hqu : ∀ c ∈ q, isUnsafeUrlByte c = false) :
    urlsplitModel (urlunsplitModel s n p q []) = ⟨s, n, p, q, []⟩ := by
  set qtail := (if q = [] then [] else '?' :: q) with hqtail
  have hX : (if p ≠ [] ∧ p.take 1 ≠ ['/'] then '/' :: p else p) = p := by
    rcases hp with hp0 | ⟨t, hp0⟩
    · rw [hp0, if_neg (fun hand => hand.1 rfl)]
    · rw [hp0, if_neg (fun hand => hand.2 rfl)]
  have hout : urlunsplitModel s n p q [] =
      (if s = [] then ('/' :: '/' :: (n ++ p)) ++ qtail
       else s ++ ':' :: (('/' :: '/' :: (n ++ p)) ++ qtail)) := by
    unfold urlunsplitModel
    dsimp only
    rw [if_pos (Or.inl hn), hX, if_neg (by simp : ¬(([] : List Char) ≠ []))]
    by_cases hse : s = [] <;> by_cases hqe : q = [] <;>
      simp [hse, hqe, hqtail, List.append_assoc, List.cons_append]
  have hRmem : ∀ c ∈ ('/' :: '/' :: (n ++ p)) ++ qtail, isUnsafeUrlByte c = false := by
    intro c hc
    rcases List.mem_append.1 hc with hc | hc
    · rcases List.mem_cons.1 hc with hc | hc
      · rw [hc]; decide
      · rcases List.mem_cons.1 hc with hc | hc
        · rw [hc]; decide
        · rcases List.mem_append.1 hc with hc | hc
          · exact hnu c hc
          · exact hpu c hc
    · rw [hqtail] at hc
      by_cases hqe : q = []
      · rw [if_pos hqe] at hc
        exact absurd hc (List.not_mem_nil c)
      · rw [if_neg hqe] at hc
        rcases List.mem_cons.1 hc with hc | hc
        · rw [hc]; decide
        · exact hqu c hc
  have hclean : cleanUrl (urlunsplitModel s n p q []) = urlunsplitModel s n p q [] := by
    apply cleanUrl_eq_self
    · rw [hout]
      by_cases hse : s = []
      · rw [if_pos hse]
        right
        exact ⟨'/', ('/' :: (n ++ p)) ++ qtail, by rw [List.cons_append], by decide⟩
      · rw [if_neg hse]
        rcases hs with hs0 | ⟨⟨c0, s1, hs0, halpha⟩, hall, _⟩
        · exact absurd hs0 hse
        · right
          refine ⟨c0, s1 ++ ':' :: (('/' :: '/' :: (n ++ p)) ++ qtail), ?_, ?_⟩
          · rw [hs0, List.cons_append]
          · exact alpha_not_c0 c0 halpha
    · intro c hc
      rw [hout] at hc
      by_cases hse : s = []
      · rw [if_pos hse] at hc
        exact hRmem c hc
      · rw [if_neg hse] at hc
        rcases hs with hs0 | ⟨_, hall, _⟩
        · exact absurd hs0 hse
        · rcases List.mem_append.1 hc with hc | hc
          · exact schemeChar_not_unsafe c (hall c hc)
          · rcases List.mem_cons.1 hc with hc | hc
            · rw [hc]; decide
            · exact hRmem c hc
  have hscheme : splitScheme (urlunsplitModel s n p q []) =
      (s, ('/' :: '/' :: (n ++ p)) ++ qtail) := by
    rw [hout]
    by_cases hse : s = []
    · rw [if_pos hse, hse]
      rw [List.cons_append]
      exact splitScheme_slash _
    · rw [if_neg hse]
      rcases hs with hs0 | ⟨hs0, hall, hls⟩
      · exact absurd hs0 hse
      · exact splitScheme_of_scheme s _ hs0 hall hls
  have hXhead : p ++ qtail = [] ∨
      ∃ c cs, p ++ qtail = c :: cs ∧ (fun c => !(isNetlocDelim c)) c = false := by
    rcases hp with hp0 | ⟨t, hp0⟩
    · rw [hp0, List.nil_append, hqtail]
      by_cases hqe : q = []
      · rw [if_pos hqe]
        left
        rfl
      · rw [if_neg hqe]
        right
        exact ⟨'?', q, rfl, by decide⟩
    · rw [hp0, List.cons_append]
      right
      exact ⟨'/', t ++ qtail, rfl, by decide⟩
  have hnall : ∀ c ∈ n, (fun c => !(isNetlocDelim c)) c = true :=
    fun c hc => by simp [hnd c hc]
  have hnet2 : urlsplitNetloc (('/' :: '/' :: (n ++ p)) ++ qtail) = (n, p ++ qtail) := by
    rw [show ('/' :: '/' :: (n ++ p)) ++ qtail = '/' :: '/' :: ((n ++ p) ++ qtail) from by
      rw [List.cons_append, List.cons_append]]
    unfold urlsplitNetloc
    rw [if_pos (show List.take 2 ('/' :: '/' :: ((n ++ p) ++ qtail)) = ['/', '/']
      from rfl)]
    show (((n ++ p) ++ qtail).takeWhile (fun c => !(isNetlocDelim c)),
      ((n ++ p) ++ qtail).dropWhile (fun c => !(isNetlocDelim c))) = (n, p ++ qtail)
    rw [List.append_assoc,
      takeWhile_append_all _ _ _ hnall, takeWhile_nil_of_head_neg _ _ hXhead,
      List.append_nil,
      dropWhile_append_all _ _ _ hnall, dropWhile_self_of_head_neg _ _ hXhead]
  have hfrag : splitFragment (p ++ qtail) = (p ++ qtail, []) := by
    unfold splitFragment
    rw [splitFirst_eq_none '#' _ (by
      intro hc
      rcases List.mem_append.1 hc with hc | hc
      · exact hph hc
      · rw [hqtail] at hc
        by_cases hqe : q = []
        · rw [if_pos hqe] at hc
          exact absurd hc (List.not_mem_nil _)
        · rw [if_neg hqe] at hc
          rcases List.mem_cons.1 hc with hc | hc
          · exact absurd hc (by decide)
          · exact hqh hc)]
  have hquery : splitQuery (p ++ qtail) = (p, q) := by
    rw [hqtail]
    by_cases hqe : q = []
    · rw [if_pos hqe, List.append_nil]
      unfold splitQuery
      rw [splitFirst_eq_none '?' _ hpq, hqe]
    · rw [if_neg hqe]
      unfold splitQuery
      rw [splitFirst_append '?' _ _ hpq]
  unfold urlsplitModel
  dsimp only
  rw [hclean, hscheme]
  dsimp only
  rw [hnet2]
  dsimp only
  rw [hfrag]
  dsimp only
  rw [hquery]

/-! ### C6 — `canonicalize_url` in terms of the split components -/

theorem canonicalize_components (u : List Char)
    (hnet : (urlsplitModel u).netloc ≠ []) (hsemi : ';' ∉ (urlsplitModel u).path) :
    canonicalize_url u =
      urlunsplitModel (lowerStr (urlsplitModel u).scheme)
        (lowerStr (urlsplitModel u).netloc) (rstripSlash (urlsplitModel u).path)
        (if (urlsplitModel u).query ≠ []
         then urlencode (filterTracking (parse_qs (urlsplitModel u).query)) else [])
        [] := by
  have hune : u ≠ [] := by
    intro h
    apply hnet
    rw [h]
    decide
  have hparse : urlparseModel u = ⟨(urlsplitModel u).scheme, (urlsplitModel u).netloc,
      (urlsplitModel u).path, [], (urlsplitModel u).query,
      (urlsplitModel u).fragment⟩ := by
    unfold urlparseModel
    dsimp only
    rw [if_neg (fun hand => hsemi hand.2)]
  unfold canonicalize_url
  rw [if_neg hune]
  dsimp only
  rw [hparse]
  unfold urlunparseModel
  dsimp only
  rw [if_neg (by simp : ¬(([] : List Char) ≠ []))]

theorem mem_urlunsplit (s n p q : List Char) (c : Char)
    (h : c ∈ urlunsplitModel s n p q []) :
    c ∈ s ∨ c = ':' ∨ c = '/' ∨ c ∈ n ∨ c ∈ p ∨ c = '?' ∨ c ∈ q := by
  unfold urlunsplitModel at h
  dsimp only at h
  rw [if_neg (by simp : ¬(([] : List Char) ≠ []))] at h
  have hurl1 : ∀ x, x ∈ (if n ≠ [] ∨ (s ≠ [] ∧ s ∈ uses_netloc ∧ p.take 2 ≠ ['/', '/'])
      then '/' :: '/' :: (n ++ (if p ≠ [] ∧ p.take 1 ≠ ['/'] then '/' :: p else p))
      else p) → x = '/' ∨ x ∈ n ∨ x ∈ p := by
    intro x hx
    split at hx
    · rcases List.mem_cons.1 hx with hx | hx
      · exact Or.inl hx
      · rcases List.mem_cons.1 hx with hx | hx
        · exact Or.inl hx
        · rcases List.mem_append.1 hx with hx | hx
          · exact Or.inr (Or.inl hx)
          · split at hx
            · rcases List.mem_cons.1 hx with hx | hx
              · exact Or.inl hx
              · exact Or.inr (Or.inr hx)
            · exact Or.inr (Or.inr hx)
    · exact Or.inr (Or.inr hx)
  split at h
  · rcases List.mem_append.1 h with h | h
    · split at h
      · rcases List.mem_append.1 h with h | h
        · exact Or.inl h
        · rcases List.mem_cons.1 h with h | h
          · exact Or.inr (Or.inl h)
          · rcases hurl1 c h with h | h | h
            · exact Or.inr (Or.inr (Or.inl h))
            · exact Or.inr (Or.inr (Or.inr (Or.inl h)))
            · exact Or.inr (Or.inr (Or.inr (Or.inr (Or.inl h))))
      · rcases hurl1 c h with h | h | h
        · exact Or.inr (Or.inr (Or.inl h))
        · exact Or.inr (Or.inr (Or.inr (Or.inl h)))
        · exact Or.inr (Or.inr (Or.inr (Or.inr (Or.inl h))))
    · rcases List.mem_cons.1 h with h | h
      · exact Or.inr (Or.inr (Or.inr (Or.inr (Or.inr (Or.inl h)))))
      · exact Or.inr (Or.inr (Or.inr (Or.inr (Or.inr (Or.inr h)))))
  · split at h
    · rcases List.mem_append.1 h with h | h
      · exact Or.inl h
      · rcases List.mem_cons.1 h with h | h
        · exact Or.inr (Or.inl h)
        · rcases hurl1 c h with h | h | h
          · exact Or.inr (Or.inr (Or.inl h))
          · exact Or.inr (Or.inr (Or.inr (Or.inl h)))
          · exact Or.inr (Or.inr (Or.inr (Or.inr (Or.inl h))))
    · rcases hurl1 c h with h | h | h
      · exact Or.inr (Or.inr (Or.inl h))
      · exact Or.inr (Or.inr (Or.inr (Or.inl h)))
      · exact Or.inr (Or.inr (Or.inr (Or.inr (Or.inl h))))

theorem lowerStr_no_upper (l : List Char) :
    ∀ c ∈ lowerStr l, isAsciiUpper c = false := by
  intro c hc
  obtain ⟨a, _, hac⟩ := List.mem_map.1 hc
  have := pyLowerChar_not_upper a
  rw [hac] at this
  unfold isAsciiUpper
  simp only [Bool.and_eq_false_iff, decide_eq_false_iff_not]
  by_cases h1 : 65 ≤ charNat c
  · exact Or.inr (fun h2 => this ⟨h1, h2⟩)
  · exact Or.inl h1

theorem scheme_no_hash (s : List Char) (h : ∀ c ∈ s, isSchemeChar c = true) :
    '#' ∉ s := by
  intro hmem
  exact absurd (h '#' hmem) (by decide)

/-- C6 (amended): on ASCII URLs without `;`, `[` or `]` (the scope on which
the model matches CPython exactly and no `ValueError` path is taken) that
parse with a nonempty netloc, `canonicalize_url` is idempotent; moreover its
output contains no `#` at all, re-parsing it yields an empty fragment, its
scheme and netloc contain no ASCII upper-case letter, and no query parameter
of the output has a (case-insensitively) tracking name.  The claim as
written — idempotence for every URL string — is false, see the
counterexample: stripping trailing slashes can expose a `;` to the
params-splitting of `urlparse` on the second pass. -/
theorem canonicalize_url_scoped_props (u : List Char)
    (hascii : ∀ c ∈ u, charNat c < 128)
    (hsemi : ';' ∉ u) (hbr1 : '[' ∉ u) (hbr2 : ']' ∉ u)
    (hnet : (urlsplitModel u).netloc ≠ []) :
    canonicalize_url (canonicalize_url u) = canonicalize_url u ∧
    '#' ∉ canonicalize_url u ∧
    (urlparseModel (canonicalize_url u)).fragment = [] ∧
    (∀ c ∈ (urlparseModel (canonicalize_url u)).scheme, isAsciiUpper c = false) ∧
    (∀ c ∈ (urlparseModel (canonicalize_url u)).netloc, isAsciiUpper c = false) ∧
    (∀ g ∈ parse_qs ((urlparseModel (canonicalize_url u)).query),
      ¬ lowerStr g.1 ∈ TRACKING_PARAMS) := by
  obtain ⟨hs_props, hnd, hp_head, hph, hpq, hqh, hnmem, hpmem, hqmem⟩ :=
    urlsplit_props u hnet
  have hsemiP : ';' ∉ (urlsplitModel u).path :=
    fun hc => hsemi (mem_cleanUrl u ';' (hpmem ';' hc)).1
  have h1 := canonicalize_components u hnet hsemiP
  have hs2 : lowerStr (urlsplitModel u).scheme = [] ∨
      ((∃ c0 s1, lowerStr (urlsplitModel u).scheme = c0 :: s1 ∧ isAsciiAlpha c0 = true) ∧
        (∀ c ∈ lowerStr (urlsplitModel u).scheme, isSchemeChar c = true) ∧
        lowerStr (lowerStr (urlsplitModel u).scheme) =
          lowerStr (urlsplitModel u).scheme) := by
    rcases hs_props with h | ⟨h0, hall, hidem⟩
    · left
      rw [h]
      rfl
    · right
      rw [hidem]
      exact ⟨h0, hall, hidem⟩
  have hn2 : lowerStr (urlsplitModel u).netloc ≠ [] := lowerStr_ne_nil _ hnet
  have hnd2 : ∀ c ∈ lowerStr (urlsplitModel u).netloc, isNetlocDelim c = false := by
    intro c hc
    obtain ⟨a, ha, hac⟩ := List.mem_map.1 hc
    rw [← hac]
    exact pyLower_not_netlocDelim a (hnd a ha)
  have hp2 : rstripSlash (urlsplitModel u).path = [] ∨
      ∃ t, rstripSlash (urlsplitModel u).path = '/' :: t := by
    rcases hp_head with h | ⟨t, h⟩
    · left
      rw [h]
      rfl
    · exact rstripSlash_head _ t '/' h
  have hph2 : '#' ∉ rstripSlash (urlsplitModel u).path :=
    fun hc => hph (rstripSlash_mem _ _ hc)
  have hpq2 : '?' ∉ rstripSlash (urlsplitModel u).path :=
    fun hc => hpq (rstripSlash_mem _ _ hc)
  have hpsemi2 : ';' ∉ rstripSlash (urlsplitModel u).path :=
    fun hc => hsemiP (rstripSlash_mem _ _ hc)
  have hqh2 : '#' ∉ (if (urlsplitModel u).query ≠ []
      then urlencode (filterTracking (parse_qs (urlsplitModel u).query)) else []) := by
    split
    · exact urlencode_no_hash _
    · exact List.not_mem_nil _
  have hnu2 : ∀ c ∈ lowerStr (urlsplitModel u).netloc, isUnsafeUrlByte c = false := by
    intro c hc
    obtain ⟨a, ha, hac⟩ := List.mem_map.1 hc
    rw [← hac]
    exact pyLower_not_unsafe a (mem_cleanUrl u a (hnmem a ha)).2
  have hpu2 : ∀ c ∈ rstripSlash (urlsplitModel u).path, isUnsafeUrlByte c = false :=
    fun c hc => (mem_cleanUrl u c (hpmem c (rstripSlash_mem _ _ hc))).2
  have hqu2 : ∀ c ∈ (if (urlsplitModel u).query ≠ []
      then urlencode (filterTracking (parse_qs (urlsplitModel u).query)) else []),
      isUnsafeUrlByte c = false := by
    intro c hc
    split at hc
    · exact urlencode_not_unsafe _ c hc
    · exact absurd hc (List.not_mem_nil c)
  have hreparse : urlsplitModel (canonicalize_url u) =
      ⟨lowerStr (urlsplitModel u).scheme, lowerStr (urlsplitModel u).netloc,
        rstripSlash (urlsplitModel u).path,
        (if (urlsplitModel u).query ≠ []
         then urlencode (filterTracking (parse_qs (urlsplitModel u).query)) else []),
        []⟩ := by
    rw [h1]
    exact urlsplitModel_unsplit _ _ _ _ hs2 hn2 hnd2 hp2 hph2 hpq2 hqh2 hnu2 hpu2 hqu2
  have hq_fix : (if (if (urlsplitModel u).query ≠ []
      then urlencode (filterTracking (parse_qs (urlsplitModel u).query)) else []) ≠ []
      then urlencode (filterTracking (parse_qs
        (if (urlsplitModel u).query ≠ []
         then urlencode (filterTracking (parse_qs (urlsplitModel u).query)) else [])))
      else []) =
      (if (urlsplitModel u).query ≠ []
       then urlencode (filterTracking (parse_qs (urlsplitModel u).query)) else []) := by
    by_cases hqe : (urlsplitModel u).query = []
    · have hinner : (if (urlsplitModel u).query ≠ []
          then urlencode (filterTracking (parse_qs (urlsplitModel u).query))
          else []) = [] := by
        rw [if_neg (by simpa using hqe)]
      rw [hinner, if_neg (by simp)]
    · rw [if_pos hqe]
      by_cases hq2e : urlencode (filterTracking (parse_qs (urlsplitModel u).query)) = []
      · rw [if_neg (by simpa using hq2e)]
        exact hq2e.symm
      · rw [if_pos hq2e]
        exact canonical_query_fixed (urlsplitModel u).query
  have hnet2 : (urlsplitModel (canonicalize_url u)).netloc ≠ [] := by
    rw [hreparse]
    exact hn2
  have hsemi2 : ';' ∉ (urlsplitModel (canonicalize_url u)).path := by
    rw [hreparse]
    exact hpsemi2
  have h2 := canonicalize_components (canonicalize_url u) hnet2 hsemi2
  rw [hreparse] at h2
  dsimp only at h2
  refine ⟨?_, ?_, ?_, ?_, ?_, ?_⟩
  · rw [h2, lowerStr_idem, lowerStr_idem, rstripSlash_idem, hq_fix, h1]
  · rw [h1]
    intro hc
    rcases mem_urlunsplit _ _ _ _ '#' hc with h | h | h | h | h | h | h
    · rcases hs2 with hnil | ⟨_, hall, _⟩
      · rw [hnil] at h
        exact absurd h (List.not_mem_nil _)
      · exact scheme_no_hash _ hall h
    · exact absurd h (by decide)
    · exact absurd h (by decide)
    · exact absurd (hnd2 '#' h) (by decide)
    · exact hph2 h
    · exact absurd h (by decide)
    · exact hqh2 h
  · show (urlsplitModel (canonicalize_url u)).fragment = []
    rw [hreparse]
  · show ∀ c ∈ (urlsplitModel (canonicalize_url u)).scheme, isAsciiUpper c = false
    rw [hreparse]
    exact lowerStr_no_upper _
  · show ∀ c ∈ (urlsplitModel (canonicalize_url u)).netloc, isAsciiUpper c = false
    rw [hreparse]
    exact lowerStr_no_upper _
  · show ∀ g ∈ parse_qs (urlsplitModel (canonicalize_url u)).query,
      ¬ lowerStr g.1 ∈ TRACKING_PARAMS
    rw [hreparse]
    dsimp only
    by_cases hqe : (urlsplitModel u).query = []
    · rw [if_neg (by simpa using hqe)]
      intro g hg
      exact absurd hg (List.not_mem_nil g)
    · rw [if_pos hqe, parse_qs_canonical_query]
      intro g hg
      exact (filterTracking_mem _ g hg).2

/-- C6, counterexample to the claim as written: `canonicalize_url` is not
idempotent on every URL.  For `"http://h/a/;x/"` the first pass strips the
trailing slash, producing `"http://h/a/;x"`; on the second pass `urlparse`
now splits `;x` off the last path segment as params, and `rstrip("/")`
removes the slash that separated them, giving `"http://h/a;x"` (verified
against CPython 3.11). -/
theorem canonicalize_url_idempotence_counterexample :
    canonicalize_url ("http://h/a/;x/").data = ("http://h/a/;x").data ∧
    canonicalize_url (canonicalize_url ("http://h/a/;x/").data) =
      ("http://h/a;x").data ∧
    canonicalize_url (canonicalize_url ("http://h/a/;x/").data) ≠
      canonicalize_url ("http://h/a/;x/").data := by
  refine ⟨by decide, by decide, by decide⟩

/-- Witness for C6 at the concrete URL
`"http://Ex.com/p?utm_source=1&page=2"`: the scope hypotheses hold and the
amended properties follow. -/
theorem canonicalize_url_scoped_props_witness :
    ((∀ c ∈ ("http://Ex.com/p?utm_source=1&page=2").data, charNat c < 128) ∧
      ';' ∉ ("http://Ex.com/p?utm_source=1&page=2").data ∧
      '[' ∉ ("http://Ex.com/p?utm_source=1&page=2").data ∧
      ']' ∉ ("http://Ex.com/p?utm_source=1&page=2").data ∧
      (urlsplitModel ("http://Ex.com/p?utm_source=1&page=2").data).netloc ≠ []) ∧
    (canonicalize_url (canonicalize_url ("http://Ex.com/p?utm_source=1&page=2").data) =
      canonicalize_url ("http://Ex.com/p?utm_source=1&page=2").data ∧
    '#' ∉ canonicalize_url ("http://Ex.com/p?utm_source=1&page=2").data ∧
    (urlparseModel (canonicalize_url
      ("http://Ex.com/p?utm_source=1&page=2").data)).fragment = [] ∧
    (∀ c ∈ (urlparseModel (canonicalize_url
      ("http://Ex.com/p?utm_source=1&page=2").data)).scheme, isAsciiUpper c = false) ∧
    (∀ c ∈ (urlparseModel (canonicalize_url
      ("http://Ex.com/p?utm_source=1&page=2").data)).netloc, isAsciiUpper c = false) ∧
    (∀ g ∈ parse_qs ((urlparseModel (canonicalize_url
        ("http://Ex.com/p?utm_source=1&page=2").data)).query),
      ¬ lowerStr g.1 ∈ TRACKING_PARAMS)) :=
  ⟨⟨by decide, by decide, by decide, by decide, by decide⟩,
    canonicalize_url_scoped_props ("http://Ex.com/p?utm_source=1&page=2").data
      (by decide) (by decide) (by decide) (by decide) (by decide)⟩
